import Mathlib

/-!
# Selective Repeat sender and receiver (sr.c)

A shallow embedding of `src/sr.c` and the properties of its specification.

Modelling conventions.

* The C globals are split into two records: `Sender` (the globals that the
  `A_*` routines touch) and `Receiver` (the globals of the `B_*` routines).
  Every routine becomes a function from the state before the call to the state
  after it, together with the list of calls it made to the emulator
  (`tolayer3`, `tolayer5`, `starttimer`, `stoptimer`) in program order.
* `int` is `Int`. Sequence numbers only grow by one per call, so the model has
  no wrap-around: signed overflow is undefined in C and outside the model.
  The checksum is the one sum that packet fields from the network can push
  out of the range of `int`: `calculateChecksum` is the sum without overflow,
  which the routines use, and `calculateChecksum32` is the same loop with
  every addition reduced to 32-bit two's complement; the two agree whenever
  the sum fits in `int`.
* An array is a total function on `Int`; `x % BUFSIZE` is C's truncating
  remainder `Int.tmod`, which lies in `0 .. BUFSIZE - 1` exactly when `x` is
  non-negative. The cells `0 .. BUFSIZE - 1` are the C array.
* The two `while` loops take a fuel argument and return `none` when it runs
  out; the `for` loops over `[base, nextseqnum)` recurse on the number of
  values of `i` that are left.
* Writes to the debug file `fp` touch no protocol state and are left out, and
  so is the never-used global `lastAckReceived`.
-/

namespace SR

/-! ## Constants -/

/-- The constant `WINDOWSIZE` of sr.c. -/
@[reducible] def WINDOWSIZE : Int := 8

/-- The constant `BUFSIZE` of sr.c. -/
@[reducible] def BUFSIZE : Int := 50

/-- The constant `RTT` of sr.c (16.0 time units). -/
def RTT : Nat := 16

/-- The endpoint `A` of sr.h. -/
def A : Int := 0

/-- The endpoint `B` of sr.h. -/
def B : Int := 1

/-- Fuel handed to the two `while` loops. -/
def loopFuel : Nat := 100

/-! ## Data model -/

/-- Modelled from the spec: `struct msg` of emulator.h, which is not part of
the sources; an application message is an opaque payload of 20 bytes, each
byte kept as its unsigned value. -/
structure msg where
  data : Fin 20 → Fin 256

/-- Modelled from the spec: `struct pkt` of emulator.h, which is not part of
the sources; integer `seqnum`, `acknum`, `checksum` and a payload of 20
bytes. -/
structure pkt where
  seqnum : Int
  acknum : Int
  checksum : Int
  payload : Fin 20 → Fin 256

/-- Calls made to the emulator. -/
inductive Event where
  | tolayer3 (AorB : Int) (packet : pkt)
  | tolayer5 (AorB : Int) (datasent : Fin 20 → Fin 256)
  | starttimer (AorB : Int) (increment : Nat)
  | stoptimer (AorB : Int)

/-- The globals of sr.c used by the sender. -/
structure Sender where
  sndpkt : Int → pkt
  sndpktValid : Int → Int
  sndpktAcked : Int → Int
  base : Int
  nextseqnum : Int
  timerActive : Int
  timerForPacket : Int

/-- The globals of sr.c used by the receiver. -/
structure Receiver where
  rcvpkt : Int → pkt
  rcvpktValid : Int → Int
  expectedseqnum : Int

/-- The assignment `arr[i] = v`. -/
def setAt {α : Type} (arr : Int → α) (i : Int) (v : α) : Int → α :=
  fun j => if j = i then v else arr j

/-- The index expression `x % BUFSIZE`. -/
def slot (x : Int) : Int := Int.tmod x BUFSIZE

/-! ## Checksum -/

/-- The function `calculateChecksum` of sr.c. -/
def calculateChecksum (packet : pkt) : Int :=
  (List.finRange 20).foldl
    (fun checksum i => checksum + ((packet.payload i).val : Int))
    (0 + packet.seqnum + packet.acknum)

/-- The function `isChecksumValid` of sr.c. -/
def isChecksumValid (packet : pkt) : Bool :=
  decide (calculateChecksum packet = packet.checksum)

/-- The value of `x` as a 32-bit two's-complement `int`: the representative of
`x` modulo `2^32` in `-2^31 .. 2^31 - 1`. -/
def wrap32 (x : Int) : Int := (x + 2147483648) % 4294967296 - 2147483648

/-- The body of the `for` loop of `A_init`. -/
def A_init_body (st : Sender) (i : Nat) : Sender :=
  { st with
    sndpktValid := setAt st.sndpktValid (i : Int) 0
    sndpktAcked := setAt st.sndpktAcked (i : Int) 0 }

/-- The function `A_init` of sr.c. -/
def A_init (s : Sender) : Sender :=
  (List.range BUFSIZE.toNat).foldl A_init_body
    { s with base := 1, nextseqnum := 1, timerActive := 0 }

/-- The packet that `A_output` builds for sequence number `seq`. -/
def A_output_packet (seq : Int) (message : msg) : pkt :=
  let packet : pkt :=
    { seqnum := seq, acknum := 0, payload := message.data, checksum := 0 }
  { packet with checksum := calculateChecksum packet }

/-- The function `A_output` of sr.c. -/
def A_output (s : Sender) (message : msg) : Sender × List Event :=
  if s.nextseqnum < s.base + WINDOWSIZE then
    let packet := A_output_packet s.nextseqnum message
    let s1 : Sender :=
      { s with
        sndpkt := setAt s.sndpkt (slot s.nextseqnum) packet
        sndpktValid := setAt s.sndpktValid (slot s.nextseqnum) 1
        sndpktAcked := setAt s.sndpktAcked (slot s.nextseqnum) 0 }
    if s1.timerActive = 0 then
      ({ s1 with
          timerActive := 1
          timerForPacket := s1.nextseqnum
          nextseqnum := s1.nextseqnum + 1 },
        [Event.tolayer3 A packet, Event.starttimer A RTT])
    else
      ({ s1 with nextseqnum := s1.nextseqnum + 1 }, [Event.tolayer3 A packet])
  else
    (s, [])

/-- The loop of `A_input` that moves `base` forward:
`while (sndpktAcked[base % BUFSIZE] && sndpktValid[base % BUFSIZE])`. -/
def A_input_advance : Nat → Sender → Option Sender
  | 0, _ => none
  | fuel + 1, s =>
    if s.sndpktAcked (slot s.base) ≠ 0 ∧ s.sndpktValid (slot s.base) ≠ 0 then
      A_input_advance fuel
        { s with
          sndpktValid := setAt s.sndpktValid (slot s.base) 0
          base := s.base + 1 }
    else
      some s

/-- The first `for` loop of `A_input`, which computes `allAcked`; `n` is the
number of values of `i` still to visit. -/
def A_input_allAcked (acked : Int → Int) : Nat → Int → Int
  | 0, _ => 1
  | n + 1, i =>
    if acked (slot i) = 0 then 0 else A_input_allAcked acked n (i + 1)

/-- The second `for` loop of `A_input`, which binds the timer to the first
unacknowledged packet; `n` is the number of values of `i` still to visit. -/
def A_input_rearm : Nat → Int → Sender → Sender × List Event
  | 0, _, s => (s, [])
  | n + 1, i, s =>
    if s.sndpktAcked (slot i) = 0 then
      ({ s with timerForPacket := i, timerActive := 1 },
        [Event.starttimer A RTT])
    else
      A_input_rearm n (i + 1) s

/-- The first part of `A_input` on a valid packet: mark the slot of `acknum`
as acknowledged and, when `acknum == base`, run the loop that moves `base`. -/
def A_input_window (acknum : Int) (s : Sender) : Option Sender :=
  let s1 : Sender :=
    { s with sndpktAcked := setAt s.sndpktAcked (slot acknum) 1 }
  if acknum = s1.base then A_input_advance loopFuel s1 else some s1

/-- The second part of `A_input` on a valid packet, from `int allAcked = 1;`
on: stop the timer when everything in `[base, nextseqnum)` is acknowledged,
otherwise re-arm it when the acknowledgment was for the timed packet. -/
def A_input_timer (acknum : Int) (s : Sender) : Sender × List Event :=
  if A_input_allAcked s.sndpktAcked
      (s.nextseqnum - s.base).toNat s.base ≠ 0 then
    ({ s with timerActive := 0 }, [Event.stoptimer A])
  else if acknum = s.timerForPacket then
    let r := A_input_rearm (s.nextseqnum - s.base).toNat s.base s
    (r.1, Event.stoptimer A :: r.2)
  else
    (s, [])

/-- The function `A_input` of sr.c. -/
def A_input (s : Sender) (packet : pkt) : Option (Sender × List Event) :=
  if isChecksumValid packet then
    match A_input_window packet.acknum s with
    | none => none
    | some s2 => some (A_input_timer packet.acknum s2)
  else
    some (s, [])

/-- The function `A_timerinterrupt` of sr.c. -/
def A_timerinterrupt (s : Sender) : Sender × List Event :=
  let sent : List Event :=
    if s.timerForPacket ≥ s.base ∧ s.timerForPacket < s.nextseqnum then
      [Event.tolayer3 A (s.sndpkt (slot s.timerForPacket))]
    else
      []
  ({ s with timerActive := 1 }, sent ++ [Event.starttimer A RTT])

/-! ## Receiver -/

/-- The body of the `for` loop of `B_init`. -/
def B_init_body (st : Receiver) (i : Nat) : Receiver :=
  { st with rcvpktValid := setAt st.rcvpktValid (i : Int) 0 }

/-- The function `B_init` of sr.c. -/
def B_init (r : Receiver) : Receiver :=
  (List.range BUFSIZE.toNat).foldl B_init_body { r with expectedseqnum := 1 }

/-- The acknowledgment that `B_input` builds for sequence number `seq`. -/
def B_input_ackpkt (seq : Int) : pkt :=
  let ackpkt : pkt :=
    { acknum := seq, seqnum := 0, payload := fun _ => 0, checksum := 0 }
  { ackpkt with checksum := calculateChecksum ackpkt }

/-- The delivery loop of `B_input`:
`while (rcvpktValid[expectedseqnum % BUFSIZE])`. -/
def B_input_deliver : Nat → Receiver → Option (Receiver × List Event)
  | 0, _ => none
  | fuel + 1, r =>
    if r.rcvpktValid (slot r.expectedseqnum) ≠ 0 then
      match B_input_deliver fuel
          { r with
            rcvpktValid := setAt r.rcvpktValid (slot r.expectedseqnum) 0
            expectedseqnum := r.expectedseqnum + 1 } with
      | none => none
      | some (r', evs) =>
        some (r', Event.tolayer5 B (r.rcvpkt (slot r.expectedseqnum)).payload :: evs)
    else
      some (r, [])

/-- The function `B_input` of sr.c. -/
def B_input (r : Receiver) (packet : pkt) : Option (Receiver × List Event) :=
  if isChecksumValid packet then
    let seqnum := packet.seqnum
    let ackpkt := B_input_ackpkt seqnum
    if seqnum ≥ r.expectedseqnum ∧ seqnum < r.expectedseqnum + WINDOWSIZE then
      match B_input_deliver loopFuel
          { r with
            rcvpkt := setAt r.rcvpkt (slot seqnum) packet
            rcvpktValid := setAt r.rcvpktValid (slot seqnum) 1 } with
      | none => none
      | some (r', evs) => some (r', Event.tolayer3 B ackpkt :: evs)
    else if seqnum ≥ r.expectedseqnum - WINDOWSIZE ∧ seqnum < r.expectedseqnum then
      some (r, [Event.tolayer3 B ackpkt])
    else
      some (r, [Event.tolayer3 B ackpkt])
  else
    some (r, [])

/-- The function `B_timerinterrupt` of sr.c. -/
def B_timerinterrupt (r : Receiver) : Receiver × List Event := (r, [])

/-! ## Runs and reachable states -/

/-- The packets handed to layer 3 by a list of calls, in order. -/
def sentPackets : List Event → List pkt
  | [] => []
  | Event.tolayer3 _ p :: evs => p :: sentPackets evs
  | _ :: evs => sentPackets evs

/-- The payloads handed to layer 5 by a list of calls, in order. -/
def delivered : List Event → List (Fin 20 → Fin 256)
  | [] => []
  | Event.tolayer5 _ d :: evs => d :: delivered evs
  | _ :: evs => delivered evs

/-- Layer 5 submits the messages of a list one after the other. -/
def A_output_all : Sender → List msg → Sender × List Event
  | s, [] => (s, [])
  | s, m :: ms =>
    let r := A_output s m
    let r2 := A_output_all r.1 ms
    (r2.1, r.2 ++ r2.2)

/-- Layer 3 hands the packets of a list to `A_input` one after the other. -/
def A_input_all : Sender → List pkt → Option (Sender × List Event)
  | s, [] => some (s, [])
  | s, p :: ps =>
    (A_input s p).bind fun r1 =>
      (A_input_all r1.1 ps).map fun r2 => (r2.1, r1.2 ++ r2.2)

/-- Layer 3 hands the packets of a list to `B_input` one after the other. -/
def B_run : Receiver → List pkt → Option (Receiver × List Event)
  | r, [] => some (r, [])
  | r, p :: ps =>
    (B_input r p).bind fun r1 =>
      (B_run r1.1 ps).map fun r2 => (r2.1, r1.2 ++ r2.2)

/-- Sender states reachable from `A_init` by calls of `A_output`, of `A_input`
on any packet with a non-negative `acknum`, and of `A_timerinterrupt`. -/
inductive ReachableA : Sender → Prop where
  | init (s0 : Sender) : ReachableA (A_init s0)
  | output (s : Sender) (m : msg) : ReachableA s → ReachableA (A_output s m).1
  | input (s : Sender) (p : pkt) (s1 : Sender) (evs : List Event) :
      ReachableA s → 0 ≤ p.acknum → A_input s p = some (s1, evs) → ReachableA s1
  | timer (s : Sender) : ReachableA s → ReachableA (A_timerinterrupt s).1

/-- Sender states reachable from `A_init` by calls of `A_output`, of `A_input`
on corrupted packets or on valid acknowledgments with `1 ≤ acknum` and
`base - WINDOWSIZE ≤ acknum < nextseqnum`, and of `A_timerinterrupt` while the
timer is active. -/
inductive ReachableTimed : Sender → Prop where
  | init (s0 : Sender) : ReachableTimed (A_init s0)
  | output (s : Sender) (m : msg) :
      ReachableTimed s → ReachableTimed (A_output s m).1
  | corrupt (s : Sender) (p : pkt) (s1 : Sender) (evs : List Event) :
      ReachableTimed s → isChecksumValid p = false →
      A_input s p = some (s1, evs) → ReachableTimed s1
  | ack (s : Sender) (p : pkt) (s1 : Sender) (evs : List Event) :
      ReachableTimed s → isChecksumValid p = true → 1 ≤ p.acknum →
      s.base - WINDOWSIZE ≤ p.acknum → p.acknum < s.nextseqnum →
      A_input s p = some (s1, evs) → ReachableTimed s1
  | timer (s : Sender) :
      ReachableTimed s → s.timerActive = 1 →
      ReachableTimed (A_timerinterrupt s).1

/-- Sequence number `k` is the lowest one in `[base, nextseqnum)` whose slot
is not marked acknowledged. -/
def lowestUnacked (s : Sender) (k : Int) : Prop :=
  s.base ≤ k ∧ k < s.nextseqnum ∧ s.sndpktAcked (slot k) = 0 ∧
    ∀ t, s.base ≤ t → t < k → s.sndpktAcked (slot t) ≠ 0

/-- All-zero globals, as C leaves them at program start. -/
def zeroSender : Sender :=
  { sndpkt := fun _ => { seqnum := 0, acknum := 0, checksum := 0, payload := fun _ => 0 }
    sndpktValid := fun _ => 0
    sndpktAcked := fun _ => 0
    base := 0
    nextseqnum := 0
    timerActive := 0
    timerForPacket := 0 }

/-- All-zero globals, as C leaves them at program start. -/
def zeroReceiver : Receiver :=
  { rcvpkt := fun _ => { seqnum := 0, acknum := 0, checksum := 0, payload := fun _ => 0 }
    rcvpktValid := fun _ => 0
    expectedseqnum := 0 }

/-- A sample message: twenty bytes with value `c`. -/
def sampleMsg (c : Fin 256) : msg := { data := fun _ => c }

/-- Window invariant of the sender: `1 <= base <= nextseqnum <= base +
WINDOWSIZE`, and a cell of `sndpktValid` is set only if it is the slot of a
sequence number in `[base, nextseqnum)`. -/
def WindowInv (s : Sender) : Prop :=
  1 ≤ s.base ∧ s.base ≤ s.nextseqnum ∧ s.nextseqnum ≤ s.base + WINDOWSIZE ∧
    ∀ j, 0 ≤ j → j < 50 → s.sndpktValid j ≠ 0 →
      ∃ t, s.base ≤ t ∧ t < s.nextseqnum ∧ slot t = j

/-- Timer invariant of the sender: the window invariant, every sequence number
in flight has its valid flag set, `base` is unacknowledged when the window is
not empty, and the timer is active exactly when the window is not empty, in
which case it is bound to `base`. -/
def TimerInv (s : Sender) : Prop :=
  WindowInv s ∧
    (∀ t, s.base ≤ t → t < s.nextseqnum → s.sndpktValid (slot t) ≠ 0) ∧
    (s.base < s.nextseqnum → s.sndpktAcked (slot s.base) = 0) ∧
    (s.timerActive = 1 ↔ s.base < s.nextseqnum) ∧
    (s.timerActive = 0 ∨ s.timerActive = 1) ∧
    (s.timerActive = 1 → s.timerForPacket = s.base)

/-- The payloads `ds` are, in order, those of checksum-valid packets with the
sequence numbers `e`, `e + 1`, ..., each of them a packet in `P`. -/
def DeliveredFrom (P : pkt → Prop) : Int → List (Fin 20 → Fin 256) → Prop
  | _, [] => True
  | e, d :: ds =>
    (∃ p, P p ∧ isChecksumValid p = true ∧ p.seqnum = e ∧ p.payload = d) ∧
      DeliveredFrom P (e + 1) ds

/-- Receiver invariant, with `hi` the end of the receive window: a cell of
`rcvpktValid` is set only if it is the slot of a sequence number `t` in
`[expectedseqnum, hi)`, and then `rcvpkt` holds there a checksum-valid packet
of `P` with `seqnum = t`. -/
def ReceiverInv (P : pkt → Prop) (hi : Int) (r : Receiver) : Prop :=
  1 ≤ r.expectedseqnum ∧ hi ≤ r.expectedseqnum + WINDOWSIZE ∧
    ∀ j, 0 ≤ j → j < 50 → r.rcvpktValid j ≠ 0 →
      ∃ t, r.expectedseqnum ≤ t ∧ t < hi ∧ slot t = j ∧ (r.rcvpkt j).seqnum = t ∧
        isChecksumValid (r.rcvpkt j) = true ∧ P (r.rcvpkt j)

/-- Receiver states reachable from `B_init` by calls of `B_input` on any
packets. -/
inductive ReachableB : Receiver → Prop where
  | init (r0 : Receiver) : ReachableB (B_init r0)
  | input (r : Receiver) (p : pkt) (r1 : Receiver) (evs : List Event) :
      ReachableB r → B_input r p = some (r1, evs) → ReachableB r1

/-- The reachable sender states of `ReachableA`, each with the list of the
messages that `A_output` has admitted so far, oldest first. -/
inductive ReachableLog : List msg → Sender → Prop where
  | init (s0 : Sender) : ReachableLog [] (A_init s0)
  | output (log : List msg) (s : Sender) (m : msg) :
      ReachableLog log s →
      ReachableLog (if s.nextseqnum < s.base + WINDOWSIZE then log ++ [m] else log)
        (A_output s m).1
  | input (log : List msg) (s : Sender) (p : pkt) (s1 : Sender) (evs : List Event) :
      ReachableLog log s → 0 ≤ p.acknum → A_input s p = some (s1, evs) →
      ReachableLog log s1
  | timer (log : List msg) (s : Sender) :
      ReachableLog log s → ReachableLog log (A_timerinterrupt s).1

/-- Buffer invariant of the sender, with `log` the messages admitted so far:
the window invariant, `nextseqnum = 1 + |log|`, every valid flag of the array
is 0 or 1, and every sequence number `t` in `[base, nextseqnum)` has its valid
flag at 1 and its slot holds the packet built for the `t`-th message. -/
def LogInv (log : List msg) (s : Sender) : Prop :=
  WindowInv s ∧ s.nextseqnum = 1 + (log.length : Int) ∧
    (∀ j, 0 ≤ j → j < 50 → s.sndpktValid j = 0 ∨ s.sndpktValid j = 1) ∧
    ∀ t, s.base ≤ t → t < s.nextseqnum →
      s.sndpktValid (slot t) = 1 ∧
        ∀ m, log[(t - 1).toNat]? = some m → s.sndpkt (slot t) = A_output_packet t m

/-- The packets that endpoint `AorB` handed to layer 3 in a list of calls. -/
def sentBy (AorB : Int) : List Event → List pkt
  | [] => []
  | Event.tolayer3 e p :: evs =>
    if e = AorB then p :: sentBy AorB evs else sentBy AorB evs
  | _ :: evs => sentBy AorB evs

/-- One round over a lossless channel: layer 5 submits `m`, every packet the
sender emitted goes unchanged to `B_input`, and every packet the receiver
emitted then goes unchanged to `A_input`. The result is the two states and all
calls made, in order. -/
def lossless_round (st : Sender × Receiver) (m : msg) :
    Option (Sender × Receiver × List Event) :=
  (B_run st.2 (sentPackets (A_output st.1 m).2)).bind fun b =>
    (A_input_all (A_output st.1 m).1 (sentPackets b.2)).map fun c =>
      (c.1, b.1, (A_output st.1 m).2 ++ b.2 ++ c.2)

/-- Rounds over a lossless channel for a list of messages. -/
def lossless_run : Sender × Receiver → List msg → Option (Sender × Receiver × List Event)
  | st, [] => some (st.1, st.2, [])
  | st, m :: ms =>
    (lossless_round st m).bind fun x =>
      (lossless_run (x.1, x.2.1) ms).map fun y => (y.1, y.2.1, x.2.2 ++ y.2.2)

/-- The sender state after 50 rounds over a lossless channel, or the all-zero
state if that run did not return. -/
def afterFiftyRounds : Sender :=
  ((lossless_run (A_init zeroSender, B_init zeroReceiver)
    (List.replicate 50 (sampleMsg 65))).map fun x => x.1).getD zeroSender

/-- A sender state that no run from `A_init` produces: sequence numbers 1 and
2 are in flight and unacknowledged with the timer on 1, but every cell of
`sndpkt` holds the packet built for sequence number 1. -/
def staleBufferSender : Sender :=
  { sndpkt := fun _ => A_output_packet 1 (sampleMsg 1)
    sndpktValid := fun _ => 1
    sndpktAcked := fun _ => 0
    base := 1
    nextseqnum := 3
    timerActive := 1
    timerForPacket := 1 }

theorem slot_of_nonneg {x : Int} (h : 0 ≤ x) : slot x = x % 50 :=
  Int.tmod_eq_emod h (by decide)

theorem slot_range {x : Int} (h : 0 ≤ x) : 0 ≤ slot x ∧ slot x < 50 := by
  rw [slot_of_nonneg h]; omega

@[simp] theorem setAt_same {α : Type} (arr : Int → α) (i : Int) (v : α) :
    setAt arr i v i = v := by
  simp [setAt]

theorem setAt_other {α : Type} (arr : Int → α) {i j : Int} (v : α) (h : j ≠ i) :
    setAt arr i v j = arr j := by
  simp [setAt, h]

theorem setAt_apply {α : Type} (arr : Int → α) (i j : Int) (v : α) :
    setAt arr i v j = if j = i then v else arr j := rfl

theorem setAt_idem {α : Type} (arr : Int → α) (i : Int) (v : α) :
    setAt (setAt arr i v) i v = setAt arr i v := by
  funext j
  by_cases h : j = i <;> simp [setAt, h]

/-! ## Initialisation -/

theorem A_init_loop (n : Nat) (st : Sender) :
    ((List.range n).foldl A_init_body st).base = st.base ∧
    ((List.range n).foldl A_init_body st).nextseqnum = st.nextseqnum ∧
    ((List.range n).foldl A_init_body st).timerActive = st.timerActive ∧
    ((List.range n).foldl A_init_body st).timerForPacket = st.timerForPacket ∧
    ((List.range n).foldl A_init_body st).sndpkt = st.sndpkt ∧
    (∀ j : Int, 0 ≤ j → j < n →
      ((List.range n).foldl A_init_body st).sndpktValid j = 0 ∧
      ((List.range n).foldl A_init_body st).sndpktAcked j = 0) := by
  induction n with
  | zero =>
    refine ⟨rfl, rfl, rfl, rfl, rfl, ?_⟩
    intro j h0 h1
    simp at h1
    omega
  | succ n ih =>
    rw [List.range_succ, List.foldl_append]
    obtain ⟨h1, h2, h3, h4, h5, h6⟩ := ih
    simp only [List.foldl_cons, List.foldl_nil, A_init_body]
    refine ⟨h1, h2, h3, h4, h5, ?_⟩
    intro j h0 hj
    by_cases hjn : j = (n : Int)
    · subst hjn
      simp
    · have hlt : j < (n : Int) := by push_cast at hj; omega
      rw [setAt_other _ _ hjn, setAt_other _ _ hjn]
      exact h6 j h0 hlt

theorem A_init_base (s0 : Sender) : (A_init s0).base = 1 :=
  (A_init_loop _ _).1

theorem A_init_nextseqnum (s0 : Sender) : (A_init s0).nextseqnum = 1 :=
  (A_init_loop _ _).2.1

theorem A_init_timerActive (s0 : Sender) : (A_init s0).timerActive = 0 :=
  (A_init_loop _ _).2.2.1

theorem A_init_flags (s0 : Sender) (j : Int) (h0 : 0 ≤ j) (h1 : j < 50) :
    (A_init s0).sndpktValid j = 0 ∧ (A_init s0).sndpktAcked j = 0 :=
  (A_init_loop _ _).2.2.2.2.2 j h0 (by simpa using h1)

theorem B_init_loop (n : Nat) (st : Receiver) :
    ((List.range n).foldl B_init_body st).expectedseqnum = st.expectedseqnum ∧
    (∀ j : Int, 0 ≤ j → j < n →
      ((List.range n).foldl B_init_body st).rcvpktValid j = 0) := by
  induction n with
  | zero =>
    refine ⟨rfl, ?_⟩
    intro j h0 h1
    simp at h1
    omega
  | succ n ih =>
    rw [List.range_succ, List.foldl_append]
    obtain ⟨h1, h6⟩ := ih
    simp only [List.foldl_cons, List.foldl_nil, B_init_body]
    refine ⟨h1, ?_⟩
    intro j h0 hj
    by_cases hjn : j = (n : Int)
    · subst hjn
      simp
    · have hlt : j < (n : Int) := by push_cast at hj; omega
      rw [setAt_other _ _ hjn]
      exact h6 j h0 hlt

theorem B_init_expectedseqnum (r0 : Receiver) : (B_init r0).expectedseqnum = 1 :=
  (B_init_loop _ _).1

theorem B_init_flags (r0 : Receiver) (j : Int) (h0 : 0 ≤ j) (h1 : j < 50) :
    (B_init r0).rcvpktValid j = 0 :=
  (B_init_loop _ _).2 j h0 (by simpa using h1)

/-! ## The loops of `A_input` -/

theorem A_input_advance_stop (fuel : Nat) (s : Sender)
    (h : ¬(s.sndpktAcked (slot s.base) ≠ 0 ∧ s.sndpktValid (slot s.base) ≠ 0)) :
    A_input_advance (fuel + 1) s = some s := by
  rw [A_input_advance, if_neg h]

theorem A_input_advance_spec : ∀ (fuel : Nat) (s s' : Sender),
    A_input_advance fuel s = some s' →
    s'.sndpktAcked = s.sndpktAcked ∧ s'.sndpkt = s.sndpkt ∧
    s'.nextseqnum = s.nextseqnum ∧ s'.timerActive = s.timerActive ∧
    s'.timerForPacket = s.timerForPacket ∧ s.base ≤ s'.base ∧
    ¬(s'.sndpktAcked (slot s'.base) ≠ 0 ∧ s'.sndpktValid (slot s'.base) ≠ 0) ∧
    (∀ t, s.base ≤ t → t < s'.base → s.sndpktAcked (slot t) ≠ 0) ∧
    (∀ j, s'.sndpktValid j = s.sndpktValid j ∨ s'.sndpktValid j = 0) ∧
    (∀ j, (∀ t, s.base ≤ t → t < s'.base → slot t ≠ j) →
      s'.sndpktValid j = s.sndpktValid j) ∧
    (∀ t, s.base ≤ t → t < s'.base → s'.sndpktValid (slot t) = 0) ∧
    (s'.base = s.base → s' = s) ∧
    (∀ t, s.base ≤ t → t < s'.base → s.sndpktValid (slot t) ≠ 0) := by
  intro fuel
  induction fuel with
  | zero => intro s s' h; simp [A_input_advance] at h
  | succ fuel ih =>
    intro s s' h
    rw [A_input_advance] at h
    by_cases hc : s.sndpktAcked (slot s.base) ≠ 0 ∧ s.sndpktValid (slot s.base) ≠ 0
    · rw [if_pos hc] at h
      obtain ⟨h1, h2, h3, h4, h5, h6, h7, h8, h9, h10, h11, _, h13⟩ := ih _ _ h
      simp only at h1 h2 h3 h4 h5 h6 h8 h9 h10 h11 h13
      refine ⟨h1, h2, h3, h4, h5, by omega, h7, ?_, ?_, ?_, ?_, ?_, ?_⟩
      · intro t ht1 ht2
        by_cases ht : t = s.base
        · rw [ht]; exact hc.1
        · exact h8 t (by omega) ht2
      · intro j
        rcases h9 j with h | h
        · by_cases hj : j = slot s.base
          · right; rw [h, hj]; simp
          · left; rw [h, setAt_other _ _ hj]
        · right; exact h
      · intro j hj
        have hne : j ≠ slot s.base := fun e => hj s.base (le_refl _) (by omega) e.symm
        rw [h10 j (fun t ht1 ht2 => hj t (by omega) ht2), setAt_other _ _ hne]
      · intro t ht1 ht2
        by_cases ht : t = s.base
        · rcases h9 (slot t) with h | h
          · rw [h, ht]; simp
          · exact h
        · exact h11 t (by omega) ht2
      · intro hb; omega
      · intro t ht1 ht2
        by_cases ht : t = s.base
        · rw [ht]; exact hc.2
        · have hv := h13 t (by omega) ht2
          by_cases hs : slot t = slot s.base
          · rw [hs, setAt_same] at hv
            exact absurd rfl hv
          · rw [setAt_other _ _ hs] at hv
            exact hv
    · rw [if_neg hc] at h
      cases h
      refine ⟨rfl, rfl, rfl, rfl, rfl, le_refl _, hc, ?_, ?_, ?_, ?_, ?_, ?_⟩
      · intro t h1 h2; omega
      · intro j; left; rfl
      · intro j _; rfl
      · intro t h1 h2; omega
      · intro _; rfl
      · intro t h1 h2; omega

theorem A_input_advance_total_aux : ∀ (n i : Nat), i + n = 50 →
    ∀ (s : Sender) (fuel : Nat), n + 1 ≤ fuel → (i : Int) ≤ s.base →
    (∀ t, s.base - i ≤ t → t < s.base → s.sndpktValid (slot t) = 0) →
    ∃ s', A_input_advance fuel s = some s' := by
  intro n
  induction n with
  | zero =>
    intro i hi s fuel hf hb hz
    obtain ⟨f, rfl⟩ : ∃ f, fuel = f + 1 := ⟨fuel - 1, by omega⟩
    refine ⟨s, A_input_advance_stop f s ?_⟩
    intro hc
    have h1 := hz (s.base - 50) (by omega) (by omega)
    have h2 : slot (s.base - 50) = slot s.base := by
      rw [slot_of_nonneg (by omega), slot_of_nonneg (by omega)]; omega
    rw [h2] at h1
    exact hc.2 h1
  | succ n ih =>
    intro i hi s fuel hf hb hz
    obtain ⟨f, rfl⟩ : ∃ f, fuel = f + 1 := ⟨fuel - 1, by omega⟩
    by_cases hc : s.sndpktAcked (slot s.base) ≠ 0 ∧ s.sndpktValid (slot s.base) ≠ 0
    · rw [A_input_advance, if_pos hc]
      apply ih (i + 1) (by omega) _ f (by omega)
      · simp only; push_cast; omega
      · intro t ht1 ht2
        simp only at ht1 ht2 ⊢
        by_cases ht : slot t = slot s.base
        · rw [ht]; simp
        · rw [setAt_other _ _ ht]
          apply hz t (by push_cast at ht1; omega)
          by_contra hge
          have : t = s.base := by omega
          exact ht (by rw [this])
    · exact ⟨s, A_input_advance_stop f s hc⟩

theorem A_input_advance_total (s : Sender) (fuel : Nat) (hf : 51 ≤ fuel)
    (hb : 0 ≤ s.base) : ∃ s', A_input_advance fuel s = some s' :=
  A_input_advance_total_aux 50 0 rfl s fuel (by omega) (by simpa using hb)
    (fun t h1 h2 => by simp at h1; omega)

theorem A_input_allAcked_ne_zero (acked : Int → Int) : ∀ (n : Nat) (i : Int),
    A_input_allAcked acked n i ≠ 0 ↔
      ∀ t, i ≤ t → t < i + n → acked (slot t) ≠ 0 := by
  intro n
  induction n with
  | zero =>
    intro i
    simp only [A_input_allAcked]
    constructor
    · intro _ t h1 h2; simp at h2; omega
    · intro _; decide
  | succ n ih =>
    intro i
    rw [A_input_allAcked]
    by_cases h : acked (slot i) = 0
    · rw [if_pos h]
      constructor
      · intro hh; exact absurd rfl hh
      · intro hh; exact absurd h (hh i (le_refl _) (by push_cast; omega))
    · rw [if_neg h, ih]
      constructor
      · intro hh t h1 h2
        by_cases ht : t = i
        · rw [ht]; exact h
        · exact hh t (by omega) (by push_cast at h2; omega)
      · intro hh t h1 h2
        exact hh t (by omega) (by push_cast; omega)

theorem A_input_allAcked_eq_zero (acked : Int → Int) : ∀ (n : Nat) (i : Int),
    A_input_allAcked acked n i = 0 →
      ∃ k, i ≤ k ∧ k < i + n ∧ acked (slot k) = 0 ∧
        ∀ t, i ≤ t → t < k → acked (slot t) ≠ 0 := by
  intro n
  induction n with
  | zero => intro i h; simp [A_input_allAcked] at h
  | succ n ih =>
    intro i h
    rw [A_input_allAcked] at h
    by_cases hc : acked (slot i) = 0
    · exact ⟨i, le_refl _, by push_cast; omega, hc, fun t h1 h2 => by omega⟩
    · rw [if_neg hc] at h
      obtain ⟨k, h1, h2, h3, h4⟩ := ih (i + 1) h
      refine ⟨k, by omega, by push_cast; omega, h3, ?_⟩
      intro t ht1 ht2
      by_cases ht : t = i
      · rw [ht]; exact hc
      · exact h4 t (by omega) ht2

theorem A_input_rearm_spec : ∀ (n : Nat) (i : Int) (s : Sender) (k : Int),
    i ≤ k → k < i + n → s.sndpktAcked (slot k) = 0 →
    (∀ t, i ≤ t → t < k → s.sndpktAcked (slot t) ≠ 0) →
    A_input_rearm n i s =
      ({ s with timerForPacket := k, timerActive := 1 }, [Event.starttimer A RTT]) := by
  intro n
  induction n with
  | zero => intro i s k h1 h2; simp at h2; omega
  | succ n ih =>
    intro i s k h1 h2 h3 h4
    rw [A_input_rearm]
    by_cases hik : i = k
    · subst hik
      rw [if_pos h3]
    · rw [if_neg (h4 i (le_refl _) (by omega))]
      exact ih (i + 1) s k (by omega) (by push_cast at h2; omega) h3
        (fun t ht1 ht2 => h4 t (by omega) ht2)

theorem lowestUnacked_unique (s : Sender) (k k' : Int)
    (h : lowestUnacked s k) (h' : lowestUnacked s k') : k = k' := by
  obtain ⟨a1, a2, a3, a4⟩ := h
  obtain ⟨b1, b2, b3, b4⟩ := h'
  by_contra hne
  rcases lt_or_gt_of_ne hne with hlt | hgt
  · exact b4 k a1 hlt a3
  · exact a4 k' b1 hgt b3

theorem A_input_timer_allAcked (a : Int) (s : Sender)
    (h : ∀ t, s.base ≤ t → t < s.nextseqnum → s.sndpktAcked (slot t) ≠ 0) :
    A_input_timer a s = ({ s with timerActive := 0 }, [Event.stoptimer A]) := by
  have hall : A_input_allAcked s.sndpktAcked (s.nextseqnum - s.base).toNat s.base ≠ 0 := by
    rw [A_input_allAcked_ne_zero]
    intro t h1 h2
    exact h t h1 (by omega)
  rw [A_input_timer, if_pos hall]

theorem A_input_timer_unacked (a : Int) (s : Sender) (k : Int)
    (hk : lowestUnacked s k) :
    A_input_timer a s =
      if a = s.timerForPacket then
        ({ s with timerForPacket := k, timerActive := 1 },
          [Event.stoptimer A, Event.starttimer A RTT])
      else (s, []) := by
  obtain ⟨k1, k2, k3, k4⟩ := hk
  have hall : ¬ A_input_allAcked s.sndpktAcked (s.nextseqnum - s.base).toNat s.base ≠ 0 := by
    rw [A_input_allAcked_ne_zero]
    intro hh
    exact hh k k1 (by omega) k3
  rw [A_input_timer, if_neg hall]
  by_cases ha : a = s.timerForPacket
  · rw [if_pos ha, if_pos ha]
    rw [A_input_rearm_spec _ _ s k k1 (by omega) k3 k4]
  · rw [if_neg ha, if_neg ha]

theorem lowestUnacked_or_allAcked (s : Sender) :
    (∃ k, lowestUnacked s k) ∨
      (∀ t, s.base ≤ t → t < s.nextseqnum → s.sndpktAcked (slot t) ≠ 0) := by
  by_cases h : A_input_allAcked s.sndpktAcked (s.nextseqnum - s.base).toNat s.base = 0
  · left
    obtain ⟨k, h1, h2, h3, h4⟩ := A_input_allAcked_eq_zero _ _ _ h
    exact ⟨k, h1, by omega, h3, h4⟩
  · right
    intro t h1 h2
    exact (A_input_allAcked_ne_zero _ _ _).1 h t h1 (by omega)

/-! ## Unfolding `A_input` and `B_input` -/

theorem A_output_packet_valid (seq : Int) (m : msg) :
    isChecksumValid (A_output_packet seq m) = true := by
  simp [isChecksumValid, A_output_packet, calculateChecksum]

theorem B_input_ackpkt_valid (seq : Int) :
    isChecksumValid (B_input_ackpkt seq) = true := by
  simp [isChecksumValid, B_input_ackpkt, calculateChecksum]

theorem A_input_corrupt (s : Sender) (p : pkt) (h : isChecksumValid p = false) :
    A_input s p = some (s, []) := by
  simp [A_input, h]

theorem A_input_valid (s : Sender) (p : pkt) (h : isChecksumValid p = true) :
    A_input s p = (A_input_window p.acknum s).map (A_input_timer p.acknum) := by
  rw [A_input, if_pos h]
  cases A_input_window p.acknum s <;> rfl

theorem B_input_corrupt (r : Receiver) (p : pkt) (h : isChecksumValid p = false) :
    B_input r p = some (r, []) := by
  simp [B_input, h]

theorem sentPackets_append (xs ys : List Event) :
    sentPackets (xs ++ ys) = sentPackets xs ++ sentPackets ys := by
  induction xs with
  | nil => rfl
  | cons e xs ih => cases e <;> simp [sentPackets, ih]

theorem delivered_append (xs ys : List Event) :
    delivered (xs ++ ys) = delivered xs ++ delivered ys := by
  induction xs with
  | nil => rfl
  | cons e xs ih => cases e <;> simp [delivered, ih]

theorem A_output_reject (s : Sender) (m : msg)
    (h : ¬ s.nextseqnum < s.base + WINDOWSIZE) : A_output s m = (s, []) := by
  rw [A_output, if_neg h]

theorem A_output_accept (s : Sender) (m : msg)
    (h : s.nextseqnum < s.base + WINDOWSIZE) :
    A_output s m =
      ({ s with
          sndpkt := setAt s.sndpkt (slot s.nextseqnum) (A_output_packet s.nextseqnum m)
          sndpktValid := setAt s.sndpktValid (slot s.nextseqnum) 1
          sndpktAcked := setAt s.sndpktAcked (slot s.nextseqnum) 0
          timerActive := if s.timerActive = 0 then 1 else s.timerActive
          timerForPacket := if s.timerActive = 0 then s.nextseqnum else s.timerForPacket
          nextseqnum := s.nextseqnum + 1 },
        if s.timerActive = 0 then
          [Event.tolayer3 A (A_output_packet s.nextseqnum m), Event.starttimer A RTT]
        else [Event.tolayer3 A (A_output_packet s.nextseqnum m)]) := by
  rw [A_output, if_pos h]
  by_cases ht : s.timerActive = 0
  · simp only [ht, if_true]
  · simp only [ht, if_false]

theorem A_output_all_sent : ∀ (msgs : List msg) (s : Sender) (c : Nat),
    s.nextseqnum = c → (c : Int) + msgs.length ≤ s.base + WINDOWSIZE →
    sentPackets (A_output_all s msgs).2 =
        List.zipWith (fun (i : Nat) m => A_output_packet (i : Int) m)
          (List.range' c msgs.length) msgs ∧
      (A_output_all s msgs).1.nextseqnum = c + msgs.length ∧
      (A_output_all s msgs).1.base = s.base := by
  intro msgs
  induction msgs with
  | nil => intro s c h _; simp [A_output_all, sentPackets, h]
  | cons m ms ih =>
    intro s c hc hlen
    simp only [List.length_cons, Nat.cast_add, Nat.cast_one] at hlen
    have hadm : s.nextseqnum < s.base + WINDOWSIZE := by omega
    have h1 : (A_output s m).1.nextseqnum = ((c + 1 : Nat) : Int) := by
      rw [A_output_accept s m hadm]; simp [hc]
    have h2 : (A_output s m).1.base = s.base := by
      rw [A_output_accept s m hadm]
    have h3 : sentPackets (A_output s m).2 = [A_output_packet (c : Int) m] := by
      rw [A_output_accept s m hadm, hc]
      by_cases ht : s.timerActive = 0 <;> simp [ht, sentPackets]
    obtain ⟨i1, i2, i3⟩ := ih (A_output s m).1 (c + 1) h1 (by rw [h2]; push_cast; omega)
    simp only [A_output_all, sentPackets_append, h3, i1, i2, i3, h2]
    refine ⟨?_, ?_, trivial⟩
    · simp [List.range'_succ]
    · simp only [List.length_cons]; push_cast; omega

/-! ## C3, C4, C10 -/

/-- C3: `A_output` on a full window (`nextseqnum >= base + WINDOWSIZE`) returns
the sender state unchanged and makes no call at all (no packet sent, no timer
started), and this rejection happens only in that case: a packet goes to
layer 3 exactly when `nextseqnum < base + WINDOWSIZE`. -/
theorem A_output_window_full (s : Sender) (message : msg) :
    (A_output s message = (s, []) ↔ s.nextseqnum ≥ s.base + WINDOWSIZE) ∧
    (sentPackets (A_output s message).2 ≠ [] ↔
      s.nextseqnum < s.base + WINDOWSIZE) := by
  by_cases h : s.nextseqnum < s.base + WINDOWSIZE
  · have hne : (A_output s message).2 ≠ [] := by
      rw [A_output_accept s message h]
      by_cases ht : s.timerActive = 0 <;> simp [ht]
    have hs : sentPackets (A_output s message).2 ≠ [] := by
      rw [A_output_accept s message h]
      by_cases ht : s.timerActive = 0 <;> simp [ht, sentPackets]
    constructor
    · constructor
      · intro he; rw [he] at hne; exact absurd rfl hne
      · intro hge; omega
    · exact ⟨fun _ => h, fun _ => hs⟩
  · rw [A_output_reject s message h]
    constructor
    · exact ⟨fun _ => by omega, fun _ => rfl⟩
    · constructor
      · intro hh; exact absurd rfl hh
      · intro hh; exact absurd hh h

/-- C4: when `nextseqnum < base + WINDOWSIZE`, `A_output` sends exactly one
packet, with `seqnum` the old `nextseqnum`, `acknum` 0, the payload of the
message and the checksum `calculateChecksum` gives it; it stores that packet in
slot `nextseqnum % BUFSIZE` with valid flag 1 and acked flag 0, adds 1 to
`nextseqnum`, leaves `base` alone, and starts the timer (binding
`timerForPacket` to the old `nextseqnum`) exactly when `timerActive` was 0.
From `A_init`, up to `WINDOWSIZE` submissions in a row are all sent, with
sequence numbers 1, 2, ... in order. -/
theorem A_output_admission (s : Sender) (message : msg)
    (h : s.nextseqnum < s.base + WINDOWSIZE)
    (s0 : Sender) (msgs : List msg) (hlen : msgs.length ≤ 8) :
    ((A_output s message).2 =
        (if s.timerActive = 0 then
          [Event.tolayer3 A (A_output_packet s.nextseqnum message),
            Event.starttimer A RTT]
        else [Event.tolayer3 A (A_output_packet s.nextseqnum message)]) ∧
      sentPackets (A_output s message).2 = [A_output_packet s.nextseqnum message] ∧
      (A_output_packet s.nextseqnum message).seqnum = s.nextseqnum ∧
      (A_output_packet s.nextseqnum message).acknum = 0 ∧
      (A_output_packet s.nextseqnum message).payload = message.data ∧
      (A_output_packet s.nextseqnum message).checksum =
        calculateChecksum (A_output_packet s.nextseqnum message) ∧
      (A_output s message).1.sndpkt (slot s.nextseqnum) =
        A_output_packet s.nextseqnum message ∧
      (A_output s message).1.sndpktValid (slot s.nextseqnum) = 1 ∧
      (A_output s message).1.sndpktAcked (slot s.nextseqnum) = 0 ∧
      (A_output s message).1.nextseqnum = s.nextseqnum + 1 ∧
      (A_output s message).1.base = s.base ∧
      (s.timerActive = 0 →
        (A_output s message).1.timerActive = 1 ∧
        (A_output s message).1.timerForPacket = s.nextseqnum) ∧
      (s.timerActive ≠ 0 →
        (A_output s message).1.timerActive = s.timerActive ∧
        (A_output s message).1.timerForPacket = s.timerForPacket ∧
        ∀ e ∈ (A_output s message).2, e ≠ Event.starttimer A RTT)) ∧
    sentPackets (A_output_all (A_init s0) msgs).2 =
      List.zipWith (fun (i : Nat) m => A_output_packet (i : Int) m)
        (List.range' 1 msgs.length) msgs := by
  constructor
  · rw [A_output_accept s message h]
    refine ⟨rfl, ?_, rfl, rfl, rfl, rfl, ?_, ?_, ?_, rfl, rfl, ?_, ?_⟩
    · by_cases ht : s.timerActive = 0 <;> simp [ht, sentPackets]
    · simp
    · simp
    · simp
    · intro ht; simp [ht]
    · intro ht; simp [ht]
  · refine (A_output_all_sent msgs (A_init s0) 1 ?_ ?_).1
    · rw [A_init_nextseqnum]; rfl
    · rw [A_init_base]
      have : (msgs.length : Int) ≤ 8 := by exact_mod_cast hlen
      simp only [WINDOWSIZE]; push_cast; omega

/-- Witness for `A_output_admission`: the first submission after `A_init`, and
three submissions in a row. -/
theorem A_output_admission_witness :
    (A_init zeroSender).nextseqnum < (A_init zeroSender).base + WINDOWSIZE ∧
    [sampleMsg 1, sampleMsg 2, sampleMsg 3].length ≤ 8 ∧
    (A_output (A_init zeroSender) (sampleMsg 65)).1.nextseqnum =
      (A_init zeroSender).nextseqnum + 1 ∧
    sentPackets (A_output_all (A_init zeroSender)
        [sampleMsg 1, sampleMsg 2, sampleMsg 3]).2 =
      [A_output_packet 1 (sampleMsg 1), A_output_packet 2 (sampleMsg 2),
        A_output_packet 3 (sampleMsg 3)] :=
  ⟨by decide, by decide,
    (A_output_admission (A_init zeroSender) (sampleMsg 65) (by decide) zeroSender
      [sampleMsg 1, sampleMsg 2, sampleMsg 3] (by decide)).1.2.2.2.2.2.2.2.2.2.1,
    (A_output_admission (A_init zeroSender) (sampleMsg 65) (by decide) zeroSender
      [sampleMsg 1, sampleMsg 2, sampleMsg 3] (by decide)).2⟩

/-- C10: a packet whose checksum does not verify is dropped by both sides:
`A_input` returns the sender state unchanged and makes no call (no `tolayer3`,
`starttimer` or `stoptimer`), and `B_input` returns the receiver state
unchanged (`expectedseqnum`, `rcvpkt`, `rcvpktValid`) and makes no call (no
acknowledgment, nothing delivered to layer 5). -/
theorem corrupted_packet_dropped (s : Sender) (r : Receiver) (p : pkt)
    (h : isChecksumValid p = false) :
    A_input s p = some (s, []) ∧ B_input r p = some (r, []) :=
  ⟨A_input_corrupt s p h, B_input_corrupt r p h⟩

/-- Witness for `corrupted_packet_dropped`: the acknowledgment of packet 1 with
its first payload byte altered, in the states right after initialisation. -/
theorem corrupted_packet_dropped_witness :
    isChecksumValid
        { B_input_ackpkt 1 with payload := fun i => if i = 0 then 90 else 0 } = false ∧
      A_input (A_init zeroSender)
        { B_input_ackpkt 1 with payload := fun i => if i = 0 then 90 else 0 } =
          some (A_init zeroSender, []) ∧
      B_input (B_init zeroReceiver)
        { B_input_ackpkt 1 with payload := fun i => if i = 0 then 90 else 0 } =
          some (B_init zeroReceiver, []) :=
  ⟨by decide, corrupted_packet_dropped (A_init zeroSender) (B_init zeroReceiver)
    { B_input_ackpkt 1 with payload := fun i => if i = 0 then 90 else 0 } (by decide)⟩

/-! ## The two parts of `A_input` -/

theorem A_input_window_spec (a : Int) (s : Sender) (ha : 0 ≤ a) :
    ∃ s2, A_input_window a s = some s2 ∧
      s2.sndpktAcked = setAt s.sndpktAcked (slot a) 1 ∧ s2.sndpkt = s.sndpkt ∧
      s2.nextseqnum = s.nextseqnum ∧ s2.timerActive = s.timerActive ∧
      s2.timerForPacket = s.timerForPacket ∧ s.base ≤ s2.base ∧
      (a = s2.base →
        ¬(s2.sndpktAcked (slot s2.base) ≠ 0 ∧ s2.sndpktValid (slot s2.base) ≠ 0)) ∧
      (a ≠ s.base → s2.base = s.base ∧ s2.sndpktValid = s.sndpktValid) ∧
      (∀ t, s.base ≤ t → t < s2.base → s2.sndpktAcked (slot t) ≠ 0) ∧
      (∀ j, s2.sndpktValid j = s.sndpktValid j ∨ s2.sndpktValid j = 0) ∧
      (∀ j, (∀ t, s.base ≤ t → t < s2.base → slot t ≠ j) →
        s2.sndpktValid j = s.sndpktValid j) ∧
      (∀ t, s.base ≤ t → t < s2.base → s2.sndpktValid (slot t) = 0) ∧
      (∀ t, s.base ≤ t → t < s2.base → s.sndpktValid (slot t) ≠ 0) ∧
      (a = s.base →
        ¬(s2.sndpktAcked (slot s2.base) ≠ 0 ∧ s2.sndpktValid (slot s2.base) ≠ 0)) := by
  by_cases hab : a = s.base
  · obtain ⟨s2, h2⟩ := A_input_advance_total
      { s with sndpktAcked := setAt s.sndpktAcked (slot a) 1 } loopFuel (by decide)
      (by show 0 ≤ s.base; omega)
    obtain ⟨h1, h3, h4, h5, h6, h7, h8, h9, h10, h11, h12, _, h14⟩ :=
      A_input_advance_spec _ _ _ h2
    simp only at h1 h3 h4 h5 h6 h7 h9 h10 h11 h12 h14
    refine ⟨s2, ?_, h1, h3, h4, h5, h6, h7, fun _ => h8, fun hne => absurd hab hne,
      ?_, h10, h11, h12, h14, fun _ => h8⟩
    · simp only [A_input_window]
      rw [if_pos hab]; exact h2
    · intro t ht1 ht2
      rw [h1]; exact h9 t ht1 ht2
  · refine ⟨{ s with sndpktAcked := setAt s.sndpktAcked (slot a) 1 }, ?_, rfl, rfl,
      rfl, rfl, rfl, le_refl _, fun h => absurd h hab, fun _ => ⟨rfl, rfl⟩, ?_, ?_, ?_, ?_, ?_,
      fun h => absurd h hab⟩
    · simp only [A_input_window, if_neg hab]
    · intro t h1 h2; simp only at h2; omega
    · intro j; left; rfl
    · intro j _; rfl
    · intro t h1 h2; simp only at h2; omega
    · intro t h1 h2; simp only at h2; omega

theorem A_input_window_fix (a : Int) (s : Sender) (h1 : s.sndpktAcked (slot a) = 1)
    (h2 : a = s.base →
      ¬(s.sndpktAcked (slot s.base) ≠ 0 ∧ s.sndpktValid (slot s.base) ≠ 0)) :
    A_input_window a s = some s := by
  have hset : setAt s.sndpktAcked (slot a) 1 = s.sndpktAcked := by
    funext j
    by_cases hj : j = slot a
    · rw [hj, setAt_same, h1]
    · rw [setAt_other _ _ hj]
  have hs : ({ s with sndpktAcked := setAt s.sndpktAcked (slot a) 1 } : Sender) = s := by
    rw [hset]
  simp only [A_input_window, hs]
  by_cases hab : a = s.base
  · rw [if_pos hab]
    exact A_input_advance_stop 99 s (h2 hab)
  · rw [if_neg hab]

theorem lowestUnacked_congr (s s' : Sender) (k : Int) (h : lowestUnacked s k)
    (hb : s'.base = s.base) (hn : s'.nextseqnum = s.nextseqnum)
    (ha : s'.sndpktAcked = s.sndpktAcked) : lowestUnacked s' k := by
  unfold lowestUnacked at *
  rw [hb, hn, ha]
  exact h

theorem A_input_timer_frame (a : Int) (s : Sender) :
    (A_input_timer a s).1.base = s.base ∧
    (A_input_timer a s).1.nextseqnum = s.nextseqnum ∧
    (A_input_timer a s).1.sndpktAcked = s.sndpktAcked ∧
    (A_input_timer a s).1.sndpktValid = s.sndpktValid ∧
    (A_input_timer a s).1.sndpkt = s.sndpkt ∧
    sentPackets (A_input_timer a s).2 = [] := by
  rcases lowestUnacked_or_allAcked s with ⟨k, hk⟩ | hall
  · rw [A_input_timer_unacked a s k hk]
    by_cases h : a = s.timerForPacket
    · rw [if_pos h]; exact ⟨rfl, rfl, rfl, rfl, rfl, rfl⟩
    · rw [if_neg h]; exact ⟨rfl, rfl, rfl, rfl, rfl, rfl⟩
  · rw [A_input_timer_allAcked a s hall]; exact ⟨rfl, rfl, rfl, rfl, rfl, rfl⟩

theorem A_input_timer_idem (a : Int) (s : Sender) (h : s.sndpktAcked (slot a) ≠ 0) :
    (A_input_timer a (A_input_timer a s).1).1 = (A_input_timer a s).1 := by
  rcases lowestUnacked_or_allAcked s with ⟨k, hk⟩ | hall
  · rw [A_input_timer_unacked a s k hk]
    by_cases hat : a = s.timerForPacket
    · rw [if_pos hat]
      have hk2 : lowestUnacked
          ({ s with timerForPacket := k, timerActive := 1 } : Sender) k :=
        lowestUnacked_congr s _ k hk rfl rfl rfl
      rw [A_input_timer_unacked a _ k hk2]
      have hne : a ≠ k := by
        intro e
        rw [e] at h
        exact h hk.2.2.1
      simp only [if_neg hne]
    · rw [if_neg hat, A_input_timer_unacked a s k hk, if_neg hat]
  · rw [A_input_timer_allAcked a s hall]
    rw [A_input_timer_allAcked a _ (by simpa using hall)]

/-! ## C8 -/

/-- C8: applying `A_input` twice in a row to the same valid acknowledgment
with a non-negative `acknum` gives exactly the sender state that one
application gives (in every sender state, so in particular in every state
reachable from `A_init`): the second call returns its input state, so it moves
`base` no further and clears no slot. -/
theorem A_input_duplicate_ack (s : Sender) (p : pkt)
    (hv : isChecksumValid p = true) (ha : 0 ≤ p.acknum) :
    ∃ s1 evs1 evs2, A_input s p = some (s1, evs1) ∧ A_input s1 p = some (s1, evs2) := by
  obtain ⟨s2, h1, h2, _, _, _, _, _, h8, _⟩ := A_input_window_spec p.acknum s ha
  obtain ⟨f1, f2, f3, f4, f5, _⟩ := A_input_timer_frame p.acknum s2
  have hacked : s2.sndpktAcked (slot p.acknum) = 1 := by rw [h2, setAt_same]
  refine ⟨(A_input_timer p.acknum s2).1, (A_input_timer p.acknum s2).2,
    (A_input_timer p.acknum (A_input_timer p.acknum s2).1).2, ?_, ?_⟩
  · rw [A_input_valid s p hv, h1]; rfl
  · have hfix : A_input_window p.acknum (A_input_timer p.acknum s2).1 =
        some (A_input_timer p.acknum s2).1 := by
      apply A_input_window_fix
      · rw [f3]; exact hacked
      · intro e
        rw [f1, f3, f4]
        rw [f1] at e
        exact h8 e
    rw [A_input_valid _ p hv, hfix, Option.map_some']
    congr 1
    apply Prod.ext
    · exact A_input_timer_idem p.acknum s2 (by rw [hacked]; decide)
    · rfl

/-- Witness for `A_input_duplicate_ack`: packets 1 and 2 are in flight and the
acknowledgment of packet 1 arrives twice. -/
theorem A_input_duplicate_ack_witness :
    isChecksumValid (B_input_ackpkt 1) = true ∧ 0 ≤ (B_input_ackpkt 1).acknum ∧
    ∃ s1 evs1 evs2,
      A_input (A_output_all (A_init zeroSender) [sampleMsg 1, sampleMsg 2]).1
        (B_input_ackpkt 1) = some (s1, evs1) ∧
      A_input s1 (B_input_ackpkt 1) = some (s1, evs2) :=
  ⟨by decide, by decide,
    A_input_duplicate_ack (A_output_all (A_init zeroSender) [sampleMsg 1, sampleMsg 2]).1
      (B_input_ackpkt 1) (by decide) (by decide)⟩

/-! ## The window invariant -/

theorem slot_inj {x y : Int} (hx : 0 ≤ x) (hy : 0 ≤ y) (h : slot x = slot y)
    (h1 : x < y + 50) (h2 : y < x + 50) : x = y := by
  rw [slot_of_nonneg hx, slot_of_nonneg hy] at h
  omega

theorem WindowInv_init (s0 : Sender) : WindowInv (A_init s0) := by
  refine ⟨by rw [A_init_base], by rw [A_init_base, A_init_nextseqnum],
    by rw [A_init_base, A_init_nextseqnum]; decide, ?_⟩
  intro j h0 h1 hv
  exact absurd (A_init_flags s0 j h0 h1).1 hv

theorem WindowInv_output (s : Sender) (m : msg) (h : WindowInv s) :
    WindowInv (A_output s m).1 := by
  by_cases hadm : s.nextseqnum < s.base + WINDOWSIZE
  · rw [A_output_accept s m hadm]
    obtain ⟨h1, h2, h3, h4⟩ := h
    refine ⟨h1, ?_, ?_, ?_⟩
    · show s.base ≤ s.nextseqnum + 1
      omega
    · show s.nextseqnum + 1 ≤ s.base + WINDOWSIZE
      omega
    · intro j j0 j1 hv
      simp only at hv ⊢
      by_cases hj : j = slot s.nextseqnum
      · exact ⟨s.nextseqnum, h2, by omega, hj.symm⟩
      · rw [setAt_other _ _ hj] at hv
        obtain ⟨t, t1, t2, t3⟩ := h4 j j0 j1 hv
        exact ⟨t, t1, by omega, t3⟩
  · rw [A_output_reject s m hadm]
    exact h

theorem WindowInv_timer (s : Sender) (h : WindowInv s) :
    WindowInv (A_timerinterrupt s).1 := h

theorem WindowInv_window (a : Int) (s s2 : Sender) (h : WindowInv s) (ha : 0 ≤ a)
    (h2 : A_input_window a s = some s2) : WindowInv s2 := by
  obtain ⟨s2', e, _, _, w3, _, _, w6, _, _, _, w10, _, w12, w13, _⟩ :=
    A_input_window_spec a s ha
  rw [h2] at e
  cases e
  obtain ⟨h1, hbn, h3, h4⟩ := h
  have h3 : s.nextseqnum ≤ s.base + 8 := h3
  have hle : s2.base ≤ s.nextseqnum := by
    by_contra hgt
    have hv := w13 s.nextseqnum hbn (by omega)
    obtain ⟨t, t1, t2, t3⟩ :=
      h4 (slot s.nextseqnum) (slot_range (by omega)).1 (slot_range (by omega)).2 hv
    have := slot_inj (x := t) (y := s.nextseqnum) (by omega) (by omega) t3
      (by omega) (by omega)
    omega
  refine ⟨by omega, by omega, by omega, ?_⟩
  intro j j0 j1 hv
  rw [w3]
  have hvs : s.sndpktValid j ≠ 0 := by
    rcases w10 j with e | e
    · rw [← e]; exact hv
    · exact absurd e hv
  obtain ⟨t, t1, t2, t3⟩ := h4 j j0 j1 hvs
  refine ⟨t, ?_, t2, t3⟩
  by_contra hlt
  have := w12 t t1 (by omega)
  rw [t3] at this
  exact hv this

theorem WindowInv_input (s : Sender) (p : pkt) (s1 : Sender) (evs : List Event)
    (h : WindowInv s) (ha : 0 ≤ p.acknum) (hstep : A_input s p = some (s1, evs)) :
    WindowInv s1 := by
  by_cases hv : isChecksumValid p = true
  · rw [A_input_valid s p hv] at hstep
    obtain ⟨s2, e, _⟩ := A_input_window_spec p.acknum s ha
    rw [e, Option.map_some'] at hstep
    have hw := WindowInv_window p.acknum s s2 h ha e
    obtain ⟨f1, f2, _, f4, _, _⟩ := A_input_timer_frame p.acknum s2
    have h1 : s1 = (A_input_timer p.acknum s2).1 := by
      exact (congrArg Prod.fst (Option.some.inj hstep)).symm
    unfold WindowInv at hw ⊢
    rw [h1, f1, f2, f4]
    exact hw
  · rw [A_input_corrupt s p (by simpa using hv)] at hstep
    cases hstep
    exact h

theorem A_input_total (s : Sender) (p : pkt) (ha : 0 ≤ p.acknum) :
    ∃ s1 evs, A_input s p = some (s1, evs) := by
  by_cases hv : isChecksumValid p = true
  · obtain ⟨s2, e, _⟩ := A_input_window_spec p.acknum s ha
    exact ⟨_, _, by rw [A_input_valid s p hv, e]; rfl⟩
  · exact ⟨s, [], A_input_corrupt s p (by simpa using hv)⟩

theorem ReachableA_WindowInv (s : Sender) (h : ReachableA s) : WindowInv s := by
  induction h with
  | init s0 => exact WindowInv_init s0
  | output s m _ ih => exact WindowInv_output s m ih
  | input s p s1 evs _ ha hstep ih => exact WindowInv_input s p s1 evs ih ha hstep
  | timer s _ ih => exact WindowInv_timer s ih

/-! ## C2, C9 -/

/-- C2: in every sender state reachable from `A_init` by calls of `A_output`,
of `A_input` (any packet with a non-negative `acknum`, valid or corrupted) and
of `A_timerinterrupt`, `base <= nextseqnum <= base + WINDOWSIZE`, so
`nextseqnum - base` never exceeds `WINDOWSIZE`; and in such a state `A_input`
returns on every packet with a non-negative `acknum`. -/
theorem window_bound (s : Sender) (h : ReachableA s) :
    s.base ≤ s.nextseqnum ∧ s.nextseqnum ≤ s.base + WINDOWSIZE ∧
    s.nextseqnum - s.base ≤ WINDOWSIZE ∧
    ∀ p : pkt, 0 ≤ p.acknum → ∃ s1 evs, A_input s p = some (s1, evs) := by
  obtain ⟨_, h2, h3, _⟩ := ReachableA_WindowInv s h
  exact ⟨h2, h3, by omega, fun p ha => A_input_total s p ha⟩

/-- Witness for `window_bound`: the state after one submission and one timer
expiry. -/
theorem window_bound_witness :
    ReachableA (A_timerinterrupt (A_output (A_init zeroSender) (sampleMsg 65)).1).1 ∧
    (A_timerinterrupt (A_output (A_init zeroSender) (sampleMsg 65)).1).1.base ≤
      (A_timerinterrupt (A_output (A_init zeroSender) (sampleMsg 65)).1).1.nextseqnum ∧
    (A_timerinterrupt (A_output (A_init zeroSender) (sampleMsg 65)).1).1.nextseqnum ≤
      (A_timerinterrupt (A_output (A_init zeroSender) (sampleMsg 65)).1).1.base +
        WINDOWSIZE :=
  ⟨ReachableA.timer _ (ReachableA.output _ _ (ReachableA.init zeroSender)),
    (window_bound _
      (ReachableA.timer _ (ReachableA.output _ _ (ReachableA.init zeroSender)))).1,
    (window_bound _
      (ReachableA.timer _ (ReachableA.output _ _ (ReachableA.init zeroSender)))).2.1⟩

/-- C9 (the code at a failing input): after `A_init` and one submission,
packet 1 is in flight and unacknowledged. The valid acknowledgment with
`acknum` 51 is outside `[base, nextseqnum) = [1, 2)`, yet `A_input` writes
`sndpktAcked[51 % BUFSIZE]`, which is the slot of packet 1: packet 1 is now
marked acknowledged and the timer is switched off, while `base` and
`nextseqnum` stay as they were. -/
theorem A_input_out_of_window_ack_aliases :
    ReachableA (A_output (A_init zeroSender) (sampleMsg 65)).1 ∧
    isChecksumValid (B_input_ackpkt 51) = true ∧
    (B_input_ackpkt 51).acknum = 51 ∧
    (A_output (A_init zeroSender) (sampleMsg 65)).1.base = 1 ∧
    (A_output (A_init zeroSender) (sampleMsg 65)).1.nextseqnum = 2 ∧
    (A_output (A_init zeroSender) (sampleMsg 65)).1.sndpktAcked (slot 1) = 0 ∧
    (A_output (A_init zeroSender) (sampleMsg 65)).1.timerActive = 1 ∧
    (A_input (A_output (A_init zeroSender) (sampleMsg 65)).1 (B_input_ackpkt 51)).map
      (fun r => (r.1.base, r.1.nextseqnum, r.1.sndpktAcked (slot 1), r.1.timerActive)) =
        some (1, 2, 1, 0) :=
  ⟨ReachableA.output _ _ (ReachableA.init zeroSender), by decide, by decide, by decide,
    by decide, by decide, by decide, by decide⟩

/-! ## The timer invariant -/

theorem TimerInv_init (s0 : Sender) : TimerInv (A_init s0) := by
  refine ⟨WindowInv_init s0, ?_, ?_, ?_, ?_, ?_⟩
  · intro t h1 h2
    rw [A_init_base] at h1
    rw [A_init_nextseqnum] at h2
    omega
  · rw [A_init_base, A_init_nextseqnum]; intro h; omega
  · rw [A_init_base, A_init_nextseqnum, A_init_timerActive]; decide
  · left; exact A_init_timerActive s0
  · rw [A_init_timerActive]; intro h; exact absurd h (by decide)

theorem TimerInv_output (s : Sender) (m : msg) (h : TimerInv s) :
    TimerInv (A_output s m).1 := by
  have hw := WindowInv_output s m h.1
  by_cases hadm : s.nextseqnum < s.base + WINDOWSIZE
  · rw [A_output_accept s m hadm] at hw ⊢
    obtain ⟨⟨w1, w2, w3, _⟩, hb, hc, hd, he, hf⟩ := h
    have w3 : s.nextseqnum ≤ s.base + 8 := w3
    refine ⟨hw, ?_, ?_, ?_, ?_, ?_⟩
    · intro t t1 t2
      simp only at t1 t2 ⊢
      by_cases hs : slot t = slot s.nextseqnum
      · rw [hs, setAt_same]; decide
      · rw [setAt_other _ _ hs]
        apply hb t t1
        by_contra hge
        have : t = s.nextseqnum := by omega
        exact hs (by rw [this])
    · intro _
      simp only
      by_cases hbn : s.base = s.nextseqnum
      · rw [hbn, setAt_same]
      · have hlt : s.base < s.nextseqnum := by omega
        have hs : slot s.base ≠ slot s.nextseqnum := by
          intro e
          have := slot_inj (x := s.base) (y := s.nextseqnum) (by omega) (by omega) e
            (by omega) (by omega)
          exact hbn this
        rw [setAt_other _ _ hs]
        exact hc hlt
    · simp only
      constructor
      · intro _; omega
      · intro _
        rcases he with e | e
        · rw [if_pos e]
        · rw [if_neg (by rw [e]; decide), e]
    · simp only
      rcases he with e | e
      · right; rw [if_pos e]
      · right; rw [if_neg (by rw [e]; decide), e]
    · simp only
      intro _
      rcases he with e | e
      · rw [if_pos e]
        have : ¬ s.base < s.nextseqnum := fun hlt => by
          have := hd.2 hlt
          rw [e] at this
          exact absurd this (by decide)
        omega
      · rw [if_neg (by rw [e]; decide)]
        exact hf e
  · rw [A_output_reject s m hadm]
    exact h

theorem TimerInv_timer (s : Sender) (h : TimerInv s) (ht : s.timerActive = 1) :
    TimerInv (A_timerinterrupt s).1 := by
  obtain ⟨hw, hb, hc, hd, he, hf⟩ := h
  exact ⟨hw, hb, hc, ⟨fun _ => hd.1 ht, fun _ => rfl⟩, Or.inr rfl, fun _ => hf ht⟩

theorem TimerInv_ack (s : Sender) (p : pkt) (h : TimerInv s)
    (hv : isChecksumValid p = true) (h1 : 1 ≤ p.acknum)
    (h2 : s.base - WINDOWSIZE ≤ p.acknum) (h3 : p.acknum < s.nextseqnum) :
    ∃ s1 evs, A_input s p = some (s1, evs) ∧ TimerInv s1 ∧
      s1.nextseqnum = s.nextseqnum ∧ s1.sndpkt = s.sndpkt ∧ s.base ≤ s1.base ∧
      s1.sndpktAcked = setAt s.sndpktAcked (slot p.acknum) 1 ∧
      (∀ t, s.base ≤ t → t < s1.base → s1.sndpktAcked (slot t) ≠ 0) ∧
      sentPackets evs = [] := by
  have h2 : s.base - 8 ≤ p.acknum := h2
  obtain ⟨s2, e, w2, w3, w4, w5, w6, w7, _, w9, w10, _, w12, _, _, w15⟩ :=
    A_input_window_spec p.acknum s (by omega)
  have hw2 := WindowInv_window p.acknum s s2 h.1 (by omega) e
  obtain ⟨f1, f2, f3, f4, f5, f6⟩ := A_input_timer_frame p.acknum s2
  obtain ⟨⟨i1, i2, i3, i4⟩, hb, hc, hd, he, hf⟩ := h
  have i3 : s.nextseqnum ≤ s.base + 8 := i3
  obtain ⟨j1, j2, j3, j4⟩ := hw2
  rw [w4] at j2 j3
  -- the valid flags of what is still in flight
  have hb2 : ∀ t, s2.base ≤ t → t < s2.nextseqnum → s2.sndpktValid (slot t) ≠ 0 := by
    intro t t1 t2
    rw [w4] at t2
    rw [w12 (slot t)]
    · exact hb t (by omega) t2
    · intro t' a1 a2 e'
      have := slot_inj (x := t') (y := t) (by omega) (by omega) e' (by omega) (by omega)
      omega
  -- the new base is unacknowledged
  have hc2 : s2.base < s2.nextseqnum → s2.sndpktAcked (slot s2.base) = 0 := by
    intro hlt
    by_cases hab : p.acknum = s.base
    · have := w15 hab
      by_contra hne
      exact this ⟨hne, hb2 s2.base (le_refl _) hlt⟩
    · obtain ⟨e1, _⟩ := w9 hab
      rw [e1, w2]
      have hs : slot s.base ≠ slot p.acknum := by
        intro e'
        have := slot_inj (x := s.base) (y := p.acknum) (by omega) (by omega) e'
          (by omega) (by omega)
        exact hab this.symm
      rw [setAt_other _ _ hs]
      rw [e1, w4] at hlt
      exact hc hlt
  refine ⟨(A_input_timer p.acknum s2).1, (A_input_timer p.acknum s2).2, ?_, ?_,
    by rw [f2, w4], by rw [f5, w3], by rw [f1]; exact w7, by rw [f3, w2], ?_, f6⟩
  · rw [A_input_valid s p hv, e]; rfl
  · by_cases hlt : s2.base < s2.nextseqnum
    · have hk : lowestUnacked s2 s2.base :=
        ⟨le_refl _, hlt, hc2 hlt, fun t t1 t2 => by omega⟩
      have hact : s.timerActive = 1 := hd.2 (by rw [w4] at hlt; omega)
      rw [A_input_timer_unacked p.acknum s2 s2.base hk]
      by_cases hat : p.acknum = s2.timerForPacket
      · rw [if_pos hat]
        exact ⟨⟨j1, by rw [w4]; exact j2, by rw [w4]; exact j3, j4⟩, hb2, hc2,
          ⟨fun _ => hlt, fun _ => rfl⟩, Or.inr rfl, fun _ => rfl⟩
      · rw [if_neg hat]
        refine ⟨⟨j1, by rw [w4]; exact j2, by rw [w4]; exact j3, j4⟩, hb2, hc2,
          ⟨fun _ => hlt, fun _ => by rw [w5]; exact hact⟩, Or.inr (by rw [w5]; exact hact),
          ?_⟩
        intro _
        rw [w6, hf hact]
        by_contra hne
        have hab : p.acknum = s.base := by
          by_contra hab
          exact hne (w9 hab).1.symm
        rw [w6, hf hact] at hat
        exact hat hab
    · have hall : ∀ t, s2.base ≤ t → t < s2.nextseqnum → s2.sndpktAcked (slot t) ≠ 0 :=
        fun t t1 t2 => by omega
      rw [A_input_timer_allAcked p.acknum s2 hall]
      exact ⟨⟨j1, by rw [w4]; exact j2, by rw [w4]; exact j3, j4⟩, hb2, hc2,
        ⟨fun e' => by simp at e', fun e' => absurd e' hlt⟩, Or.inl rfl,
        fun e' => by simp at e'⟩
  · intro t t1 t2
    rw [f1] at t2
    rw [f3]
    exact w10 t t1 t2

theorem ReachableTimed_TimerInv (s : Sender) (h : ReachableTimed s) : TimerInv s := by
  induction h with
  | init s0 => exact TimerInv_init s0
  | output s m _ ih => exact TimerInv_output s m ih
  | corrupt s p s1 evs _ hc hstep ih =>
    rw [A_input_corrupt s p hc] at hstep
    have e1 : s = s1 := congrArg Prod.fst (Option.some.inj hstep)
    rw [← e1]
    exact ih
  | ack s p s1 evs _ hv h1 h2 h3 hstep ih =>
    obtain ⟨s1', evs', e, hinv, _⟩ := TimerInv_ack s p ih hv h1 h2 h3
    rw [e] at hstep
    have e1 : s1' = s1 := congrArg Prod.fst (Option.some.inj hstep)
    rw [← e1]
    exact hinv
  | timer s _ ht ih => exact TimerInv_timer s ih ht

/-! ## C6 -/

/-- C6: in every sender state reachable from `A_init` by `A_output` calls,
`A_input` calls on corrupted packets or on valid acknowledgments with
`1 <= acknum` and `base - WINDOWSIZE <= acknum < nextseqnum`, and
`A_timerinterrupt` calls made while `timerActive = 1`: the timer is active
(`timerActive = 1`, the only value other than 0) exactly when some sequence
number of `[base, nextseqnum)` is unacknowledged, and when it is active
`timerForPacket` is the lowest unacknowledged sequence number of
`[base, nextseqnum)`, which is `base`. In such a state `A_input` returns on
every packet with a non-negative `acknum`. -/
theorem timer_binding (s : Sender) (h : ReachableTimed s) :
    (s.timerActive = 1 ↔
      ∃ t, s.base ≤ t ∧ t < s.nextseqnum ∧ s.sndpktAcked (slot t) = 0) ∧
    (s.timerActive = 0 ∨ s.timerActive = 1) ∧
    (s.timerActive = 1 →
      lowestUnacked s s.timerForPacket ∧ s.timerForPacket = s.base) ∧
    ∀ p : pkt, 0 ≤ p.acknum → ∃ s1 evs, A_input s p = some (s1, evs) := by
  obtain ⟨_, _, hc, hd, he, hf⟩ := ReachableTimed_TimerInv s h
  refine ⟨⟨?_, ?_⟩, he, ?_, fun p ha => A_input_total s p ha⟩
  · intro ht
    exact ⟨s.base, le_refl _, hd.1 ht, hc (hd.1 ht)⟩
  · rintro ⟨t, t1, t2, _⟩
    exact hd.2 (by omega)
  · intro ht
    refine ⟨?_, hf ht⟩
    rw [hf ht]
    exact ⟨le_refl _, hd.1 ht, hc (hd.1 ht), fun t t1 t2 => by omega⟩

/-- Witness for `timer_binding`: the state after one submission, in which the
timer runs for packet 1. -/
theorem timer_binding_witness :
    ReachableTimed (A_output (A_init zeroSender) (sampleMsg 65)).1 ∧
    (A_output (A_init zeroSender) (sampleMsg 65)).1.timerActive = 1 ∧
    (A_output (A_init zeroSender) (sampleMsg 65)).1.timerForPacket = 1 ∧
    lowestUnacked (A_output (A_init zeroSender) (sampleMsg 65)).1
      (A_output (A_init zeroSender) (sampleMsg 65)).1.timerForPacket :=
  ⟨ReachableTimed.output _ _ (ReachableTimed.init zeroSender), by decide, by decide,
    ((timer_binding _ (ReachableTimed.output _ _ (ReachableTimed.init zeroSender))).2.2.1
      (by decide)).1⟩

/-! ## Submissions in a row and acknowledgments in a row -/

theorem zipWith_range_getElem (f : Nat → msg → pkt) : ∀ (msgs : List msg) (c i : Nat)
    (m : msg), msgs[i]? = some m →
    (List.zipWith f (List.range' c msgs.length) msgs)[i]? = some (f (c + i) m) := by
  intro msgs
  induction msgs with
  | nil => intro c i m h; simp at h
  | cons x xs ih =>
    intro c i m h
    cases i with
    | zero =>
      simp only [List.getElem?_cons_zero, Option.some.injEq] at h
      simp [List.range'_succ, h]
    | succ i =>
      simp only [List.getElem?_cons_succ] at h
      have := ih (c + 1) i m h
      simp only [List.length_cons, List.range'_succ, List.zipWith_cons_cons,
        List.getElem?_cons_succ]
      rw [this]
      congr 2
      omega

theorem A_input_all_cons (s : Sender) (p : pkt) (ps : List pkt) (s1 s2 : Sender)
    (evs1 evs2 : List Event) (h1 : A_input s p = some (s1, evs1))
    (h2 : A_input_all s1 ps = some (s2, evs2)) :
    A_input_all s (p :: ps) = some (s2, evs1 ++ evs2) := by
  rw [A_input_all, h1, Option.some_bind]
  simp only [h2, Option.map_some']

theorem B_run_cons (r : Receiver) (p : pkt) (ps : List pkt) (r1 r2 : Receiver)
    (evs1 evs2 : List Event) (h1 : B_input r p = some (r1, evs1))
    (h2 : B_run r1 ps = some (r2, evs2)) :
    B_run r (p :: ps) = some (r2, evs1 ++ evs2) := by
  rw [B_run, h1, Option.some_bind]
  simp only [h2, Option.map_some']

theorem A_output_all_spec : ∀ (msgs : List msg) (s : Sender) (c : Nat),
    TimerInv s → s.nextseqnum = c → s.base = 1 → c + msgs.length ≤ 9 →
    TimerInv (A_output_all s msgs).1 ∧ (A_output_all s msgs).1.base = 1 ∧
    (A_output_all s msgs).1.nextseqnum = c + msgs.length ∧
    (∀ t : Int, 1 ≤ t → t < c →
      (A_output_all s msgs).1.sndpkt (slot t) = s.sndpkt (slot t) ∧
      (A_output_all s msgs).1.sndpktAcked (slot t) = s.sndpktAcked (slot t)) ∧
    (∀ (i : Nat) (m : msg), msgs[i]? = some m →
      (A_output_all s msgs).1.sndpkt (slot (c + i)) = A_output_packet (c + i) m ∧
      (A_output_all s msgs).1.sndpktAcked (slot (c + i)) = 0) := by
  intro msgs
  induction msgs with
  | nil =>
    intro s c hinv hc hb _
    refine ⟨hinv, hb, by simp [A_output_all, hc], fun t _ _ => ⟨rfl, rfl⟩, ?_⟩
    intro i m h
    simp at h
  | cons x xs ih =>
    intro s c hinv hc hb hlen
    simp only [List.length_cons] at hlen
    have hc1 : 1 ≤ (c : Int) := by
      have := hinv.1.2.1
      omega
    have hadm : s.nextseqnum < s.base + WINDOWSIZE := by
      show s.nextseqnum < s.base + 8
      omega
    have hinv1 := TimerInv_output s x hinv
    have e := A_output_accept s x hadm
    have n1 : (A_output s x).1.nextseqnum = ((c + 1 : Nat) : Int) := by
      rw [e]; simp [hc]
    have b1 : (A_output s x).1.base = 1 := by rw [e]; exact hb
    have p1 : (A_output s x).1.sndpkt = setAt s.sndpkt (slot c) (A_output_packet c x) := by
      rw [e, hc]
    have a1 : (A_output s x).1.sndpktAcked = setAt s.sndpktAcked (slot c) 0 := by
      rw [e, hc]
    obtain ⟨i1, i2, i3, i4, i5⟩ := ih (A_output s x).1 (c + 1) hinv1 n1 b1 (by omega)
    have hall : A_output_all s (x :: xs) =
        ((A_output_all (A_output s x).1 xs).1,
          (A_output s x).2 ++ (A_output_all (A_output s x).1 xs).2) := rfl
    rw [hall]
    refine ⟨i1, i2, ?_, ?_, ?_⟩
    · simp only [i3, List.length_cons]; push_cast; omega
    · intro t t1 t2
      obtain ⟨q1, q2⟩ := i4 t t1 (by push_cast; omega)
      have hs : slot t ≠ slot c := by
        intro e'
        have := slot_inj (x := t) (y := c) (by omega) (by omega) e' (by omega)
          (by omega)
        omega
      simp only at q1 q2 ⊢
      rw [q1, q2, p1, a1, setAt_other _ _ hs, setAt_other _ _ hs]
      exact ⟨rfl, rfl⟩
    · intro i m hm
      cases i with
      | zero =>
        simp only [List.getElem?_cons_zero, Option.some.injEq] at hm
        obtain ⟨q1, q2⟩ := i4 c hc1 (by push_cast; omega)
        simp only at q1 q2 ⊢
        simp only [Nat.cast_zero, add_zero]
        rw [q1, q2, p1, a1, setAt_same, setAt_same, hm]
        exact ⟨rfl, rfl⟩
      | succ i =>
        simp only [List.getElem?_cons_succ] at hm
        obtain ⟨q1, q2⟩ := i5 i m hm
        have hcast : ((c + 1 : Nat) : Int) + (i : Int) = (c : Int) + ((i + 1 : Nat) : Int) := by
          push_cast; omega
        rw [hcast] at q1 q2
        exact ⟨q1, q2⟩

theorem A_input_all_acks : ∀ (acks : List pkt) (s : Sender) (n : Nat) (R : Int → Prop),
    TimerInv s → s.nextseqnum = n + 1 → n ≤ 8 →
    (∀ p ∈ acks, isChecksumValid p = true ∧ 1 ≤ p.acknum ∧ p.acknum ≤ n) →
    (∀ t, 1 ≤ t → t < s.base → R t) →
    (∀ t, s.base ≤ t → t < s.nextseqnum → (s.sndpktAcked (slot t) ≠ 0 ↔ R t)) →
    ∃ s' evs, A_input_all s acks = some (s', evs) ∧ TimerInv s' ∧
      s'.nextseqnum = n + 1 ∧ s'.sndpkt = s.sndpkt ∧ sentPackets evs = [] ∧
      (∀ t, 1 ≤ t → t < s'.base → (R t ∨ ∃ p ∈ acks, p.acknum = t)) ∧
      (∀ t, s'.base ≤ t → t < s'.nextseqnum →
        (s'.sndpktAcked (slot t) ≠ 0 ↔ (R t ∨ ∃ p ∈ acks, p.acknum = t))) := by
  intro acks
  induction acks with
  | nil =>
    intro s n R hinv hn _ _ hR1 hR2
    refine ⟨s, [], rfl, hinv, hn, rfl, rfl, ?_, ?_⟩
    · intro t t1 t2; left; exact hR1 t t1 t2
    · intro t t1 t2
      rw [hR2 t t1 t2]
      simp
  | cons p ps ih =>
    intro s n R hinv hn hn8 hacks hR1 hR2
    obtain ⟨pv, pa1, pa2⟩ := hacks p (List.mem_cons_self _ _)
    have hb1 : 1 ≤ s.base := hinv.1.1
    have hbn : s.base ≤ s.nextseqnum := hinv.1.2.1
    obtain ⟨s1, evs1, e1, inv1, n1, k1, b1, a1, c1, o1⟩ :=
      TimerInv_ack s p hinv pv pa1 (by show s.base - 8 ≤ p.acknum; omega) (by omega)
    have hslot : ∀ t, 1 ≤ t → t < s.nextseqnum → (slot t = slot p.acknum ↔ p.acknum = t) := by
      intro t t1 t2
      constructor
      · intro e'
        exact (slot_inj (x := t) (y := p.acknum) (by omega) (by omega) e' (by omega)
          (by omega)).symm
      · intro e'; rw [e']
    obtain ⟨s', evs', e2, inv2, n2, k2, o2, r1, r2⟩ :=
      ih s1 n (fun t => R t ∨ p.acknum = t) inv1 (by rw [n1, hn]) hn8
        (fun q hq => hacks q (List.mem_cons_of_mem _ hq))
        (by
          intro t t1 t2
          by_cases hlt : t < s.base
          · left; exact hR1 t t1 hlt
          · have hne := c1 t (by omega) t2
            have hb1' : s1.base ≤ s1.nextseqnum := inv1.1.2.1
            rw [a1] at hne
            by_cases hs : slot t = slot p.acknum
            · right; exact (hslot t t1 (by omega)).1 hs
            · rw [setAt_other _ _ hs] at hne
              left; exact (hR2 t (by omega) (by omega)).1 hne)
        (by
          intro t t1 t2
          rw [a1]
          rw [n1] at t2
          by_cases hs : slot t = slot p.acknum
          · rw [hs, setAt_same]
            have := (hslot t (by omega) t2).1 hs
            simp [this]
          · rw [setAt_other _ _ hs, hR2 t (by omega) t2]
            have : ¬ p.acknum = t := fun e' => hs ((hslot t (by omega) t2).2 e')
            simp [this])
    refine ⟨s', evs1 ++ evs', ?_, inv2, n2, by rw [k2, k1], ?_, ?_, ?_⟩
    · exact A_input_all_cons s p ps s1 s' evs1 evs' e1 e2
    · rw [sentPackets_append, o1, o2]; rfl
    · intro t t1 t2
      rcases r1 t t1 t2 with (h | h) | ⟨q, hq, hqa⟩
      · left; exact h
      · right; exact ⟨p, List.mem_cons_self _ _, h⟩
      · right; exact ⟨q, List.mem_cons_of_mem _ hq, hqa⟩
    · intro t t1 t2
      rw [r2 t t1 t2]
      constructor
      · rintro ((h | h) | ⟨q, hq, hqa⟩)
        · left; exact h
        · right; exact ⟨p, List.mem_cons_self _ _, h⟩
        · right; exact ⟨q, List.mem_cons_of_mem _ hq, hqa⟩
      · rintro (h | ⟨q, hq, hqa⟩)
        · left; left; exact h
        · rcases List.mem_cons.1 hq with e' | hq'
          · left; right; rw [← e']; exact hqa
          · right; exact ⟨q, hq', hqa⟩

/-! ## C5 -/

/-- C5: from `A_init`, submit `n` messages (`1 <= n <= WINDOWSIZE`) and then
feed `A_input` valid acknowledgments, in any order and with repetitions, whose
`acknum`s all lie in `1..n` and miss at least one number of `1..n`; let `k` be
the smallest number of `1..n` that no acknowledgment carries. The
acknowledgments make the sender send no packet, and a single
`A_timerinterrupt` then sends exactly one packet: the packet (same `seqnum`,
`acknum`, payload and checksum) that was sent for `k` originally, the `k`-th
one of the submissions. -/
theorem selective_retransmission (s0 : Sender) (msgs : List msg) (acks : List pkt)
    (k : Nat) (m : msg) (hlen : msgs.length ≤ 8) (hk : 1 ≤ k)
    (hm : msgs[k - 1]? = some m)
    (hacks : ∀ p ∈ acks,
      isChecksumValid p = true ∧ 1 ≤ p.acknum ∧ p.acknum ≤ msgs.length)
    (hkS : ∀ p ∈ acks, p.acknum ≠ k)
    (hmin : ∀ j : Nat, 1 ≤ j → j < k → ∃ p ∈ acks, p.acknum = j) :
    ∃ s evs, A_input_all (A_output_all (A_init s0) msgs).1 acks = some (s, evs) ∧
      sentPackets evs = [] ∧
      (sentPackets (A_output_all (A_init s0) msgs).2)[k - 1]? =
        some (A_output_packet k m) ∧
      (A_timerinterrupt s).2 =
        [Event.tolayer3 A (A_output_packet k m), Event.starttimer A RTT] := by
  have hkn : k - 1 < msgs.length := by
    by_contra hge
    rw [List.getElem?_eq_none (by omega)] at hm
    exact absurd hm (by simp)
  obtain ⟨i1, i2, i3, _, i5⟩ := A_output_all_spec msgs (A_init s0) 1 (TimerInv_init s0)
    (by rw [A_init_nextseqnum]; rfl) (A_init_base s0) (by omega)
  have hn : (A_output_all (A_init s0) msgs).1.nextseqnum = (msgs.length : Int) + 1 := by
    rw [i3]; push_cast; omega
  obtain ⟨s, evs, e, inv, n1, k1, o1, r1, r2⟩ :=
    A_input_all_acks acks (A_output_all (A_init s0) msgs).1 msgs.length (fun _ => False)
      i1 hn hlen hacks
      (by intro t t1 t2; rw [i2] at t2; omega)
      (by
        intro t t1 t2
        rw [i2] at t1
        rw [hn] at t2
        have hidx : (msgs[(t - 1).toNat]?).isSome := by
          rw [List.getElem?_eq_getElem (by omega)]; rfl
        obtain ⟨m', hm'⟩ := Option.isSome_iff_exists.1 hidx
        have := (i5 (t - 1).toNat m' hm').2
        have hcast : ((1 : Nat) : Int) + (((t - 1).toNat : Nat) : Int) = t := by
          push_cast; omega
        rw [hcast] at this
        simp [this])
  obtain ⟨⟨w1, w2, w3, _⟩, _, hc, hd, _, hf⟩ := inv
  have hbk : s.base ≤ (k : Int) := by
    by_contra hlt
    rcases r1 k (by omega) (by omega) with h | ⟨p, hp, hpa⟩
    · exact h
    · exact hkS p hp hpa
  have hlt : s.base < s.nextseqnum := by rw [n1]; omega
  have hbase : s.base = (k : Int) := by
    by_contra hne
    obtain ⟨p, hp, hpa⟩ := hmin s.base.toNat (by omega) (by omega)
    have hcast : ((s.base.toNat : Nat) : Int) = s.base := by omega
    rw [hcast] at hpa
    have := (r2 s.base (le_refl _) hlt).2 (Or.inr ⟨p, hp, hpa⟩)
    exact this (hc hlt)
  have hsent := (A_output_all_sent msgs (A_init s0) 1 (by rw [A_init_nextseqnum]; rfl)
    (by
      rw [A_init_base]
      show ((1 : Nat) : Int) + (msgs.length : Int) ≤ 1 + 8
      push_cast; omega)).1
  have hpk := (i5 (k - 1) m hm).1
  have hcast : ((1 : Nat) : Int) + ((k - 1 : Nat) : Int) = (k : Int) := by
    push_cast; omega
  rw [hcast] at hpk
  refine ⟨s, evs, e, o1, ?_, ?_⟩
  · rw [hsent, zipWith_range_getElem _ msgs 1 (k - 1) m hm]
    have : 1 + (k - 1) = k := by omega
    rw [this]
  · have htf : s.timerForPacket = (k : Int) := by rw [hf (hd.2 hlt), hbase]
    have hcond : (k : Int) ≥ s.base ∧ (k : Int) < s.nextseqnum :=
      ⟨by omega, by omega⟩
    simp only [A_timerinterrupt, htf, if_pos hcond, k1, hpk]
    rfl

/-- Witness for `selective_retransmission`: five packets are sent, the
acknowledgments of 1, 2, 4 and 5 arrive out of order (that of 1 twice) and the
one of 3 is lost; the timer expiry sends packet 3 alone. -/
theorem selective_retransmission_witness :
    (∀ p ∈ [B_input_ackpkt 4, B_input_ackpkt 1, B_input_ackpkt 5, B_input_ackpkt 2,
        B_input_ackpkt 1],
      isChecksumValid p = true ∧ 1 ≤ p.acknum ∧
        p.acknum ≤ [sampleMsg 1, sampleMsg 2, sampleMsg 3, sampleMsg 4,
          sampleMsg 5].length) ∧
    (∀ p ∈ [B_input_ackpkt 4, B_input_ackpkt 1, B_input_ackpkt 5, B_input_ackpkt 2,
        B_input_ackpkt 1], p.acknum ≠ (3 : Nat)) ∧
    ∃ s evs,
      A_input_all (A_output_all (A_init zeroSender)
          [sampleMsg 1, sampleMsg 2, sampleMsg 3, sampleMsg 4, sampleMsg 5]).1
        [B_input_ackpkt 4, B_input_ackpkt 1, B_input_ackpkt 5, B_input_ackpkt 2,
          B_input_ackpkt 1] = some (s, evs) ∧
      sentPackets evs = [] ∧
      (sentPackets (A_output_all (A_init zeroSender)
          [sampleMsg 1, sampleMsg 2, sampleMsg 3, sampleMsg 4, sampleMsg 5]).2)[3 - 1]? =
        some (A_output_packet (3 : Nat) (sampleMsg 3)) ∧
      (A_timerinterrupt s).2 =
        [Event.tolayer3 A (A_output_packet (3 : Nat) (sampleMsg 3)),
          Event.starttimer A RTT] :=
  ⟨by decide, by decide,
    selective_retransmission zeroSender
      [sampleMsg 1, sampleMsg 2, sampleMsg 3, sampleMsg 4, sampleMsg 5]
      [B_input_ackpkt 4, B_input_ackpkt 1, B_input_ackpkt 5, B_input_ackpkt 2,
        B_input_ackpkt 1]
      3 (sampleMsg 3) (by decide) (by decide) rfl (by decide) (by decide)
      (by
        intro j h1 h2
        have : j = 1 ∨ j = 2 := by omega
        rcases this with e | e
        · exact ⟨B_input_ackpkt 1, by simp, by rw [e]; rfl⟩
        · exact ⟨B_input_ackpkt 2, by simp, by rw [e]; rfl⟩)⟩

/-! ## The receiver -/

theorem DeliveredFrom_mono (P Q : pkt → Prop) (hPQ : ∀ p, P p → Q p) :
    ∀ (ds : List (Fin 20 → Fin 256)) (e : Int),
      DeliveredFrom P e ds → DeliveredFrom Q e ds := by
  intro ds
  induction ds with
  | nil => intro e _; trivial
  | cons d ds ih =>
    intro e h
    obtain ⟨⟨p, h1, h2, h3, h4⟩, h5⟩ := h
    exact ⟨⟨p, hPQ p h1, h2, h3, h4⟩, ih (e + 1) h5⟩

theorem DeliveredFrom_append (P : pkt → Prop) :
    ∀ (ds ds' : List (Fin 20 → Fin 256)) (e : Int),
      DeliveredFrom P e ds → DeliveredFrom P (e + ds.length) ds' →
      DeliveredFrom P e (ds ++ ds') := by
  intro ds
  induction ds with
  | nil =>
    intro ds' e _ h
    simpa using h
  | cons d ds ih =>
    intro ds' e h h'
    obtain ⟨h1, h2⟩ := h
    refine ⟨h1, ih ds' (e + 1) h2 ?_⟩
    have hc : e + 1 + (ds.length : Int) = e + ((d :: ds).length : Int) := by
      simp only [List.length_cons]; push_cast; omega
    rw [hc]
    exact h'

theorem DeliveredFrom_getElem (P : pkt → Prop) :
    ∀ (ds : List (Fin 20 → Fin 256)) (e : Int), DeliveredFrom P e ds →
      ∀ (n : Nat) (d : Fin 20 → Fin 256), ds[n]? = some d →
        ∃ p, P p ∧ isChecksumValid p = true ∧ p.seqnum = e + n ∧ p.payload = d := by
  intro ds
  induction ds with
  | nil => intro e _ n d h; simp at h
  | cons x xs ih =>
    intro e h n d hn
    obtain ⟨⟨p, h1, h2, h3, h4⟩, h5⟩ := h
    cases n with
    | zero =>
      simp only [List.getElem?_cons_zero, Option.some.injEq] at hn
      exact ⟨p, h1, h2, by simpa using h3, by rw [h4, hn]⟩
    | succ n =>
      simp only [List.getElem?_cons_succ] at hn
      obtain ⟨q, q1, q2, q3, q4⟩ := ih (e + 1) h5 n d hn
      exact ⟨q, q1, q2, by rw [q3]; push_cast; omega, q4⟩

theorem ReceiverInv_mono (P Q : pkt → Prop) (hPQ : ∀ p, P p → Q p) (hi hi' : Int)
    (r : Receiver) (h : ReceiverInv P hi r) (h1 : hi ≤ hi')
    (h2 : hi' ≤ r.expectedseqnum + WINDOWSIZE) : ReceiverInv Q hi' r := by
  obtain ⟨a, _, c⟩ := h
  refine ⟨a, h2, ?_⟩
  intro j j0 j1 hv
  obtain ⟨t, t1, t2, t3, t4, t5, t6⟩ := c j j0 j1 hv
  exact ⟨t, t1, by omega, t3, t4, t5, hPQ _ t6⟩

theorem ReceiverInv_init (P : pkt → Prop) (r0 : Receiver) :
    ReceiverInv P ((B_init r0).expectedseqnum + WINDOWSIZE) (B_init r0) := by
  refine ⟨by rw [B_init_expectedseqnum], le_refl _, ?_⟩
  intro j j0 j1 hv
  exact absurd (B_init_flags r0 j j0 j1) hv

theorem B_input_deliver_spec (P : pkt → Prop) (hi : Int) : ∀ (fuel : Nat) (r : Receiver),
    ReceiverInv P hi r → (hi - r.expectedseqnum).toNat < fuel →
    ∃ r' evs, B_input_deliver fuel r = some (r', evs) ∧ ReceiverInv P hi r' ∧
      r'.expectedseqnum = r.expectedseqnum + (delivered evs).length ∧
      DeliveredFrom P r.expectedseqnum (delivered evs) ∧ sentPackets evs = [] := by
  intro fuel
  induction fuel with
  | zero => intro r _ h; omega
  | succ fuel ih =>
    intro r hinv hf
    obtain ⟨a, b, c⟩ := hinv
    have b8 : hi ≤ r.expectedseqnum + 8 := b
    rw [B_input_deliver]
    by_cases hc : r.rcvpktValid (slot r.expectedseqnum) ≠ 0
    · rw [if_pos hc]
      obtain ⟨t, t1, t2, t3, t4, t5, t6⟩ :=
        c (slot r.expectedseqnum) (slot_range (by omega)).1 (slot_range (by omega)).2 hc
      have ht : t = r.expectedseqnum :=
        slot_inj (by omega) (by omega) t3 (by omega) (by omega)
      have hinv1 : ReceiverInv P hi
          { r with
            rcvpktValid := setAt r.rcvpktValid (slot r.expectedseqnum) 0
            expectedseqnum := r.expectedseqnum + 1 } := by
        refine ⟨by show 1 ≤ r.expectedseqnum + 1; omega,
          by show hi ≤ r.expectedseqnum + 1 + 8; omega, ?_⟩
        intro j j0 j1 hv
        simp only at hv ⊢
        by_cases hj : j = slot r.expectedseqnum
        · rw [hj, setAt_same] at hv
          exact absurd rfl hv
        · rw [setAt_other _ _ hj] at hv
          obtain ⟨u, u1, u2, u3, u4, u5, u6⟩ := c j j0 j1 hv
          refine ⟨u, ?_, u2, u3, u4, u5, u6⟩
          by_contra hlt
          have : u = r.expectedseqnum := by omega
          rw [this] at u3
          exact hj u3.symm
      obtain ⟨r', evs, e, inv', n', d', o'⟩ := ih _ hinv1 (by
        show (hi - (r.expectedseqnum + 1)).toNat < fuel
        omega)
      rw [e]
      refine ⟨r', _, rfl, inv', ?_, ?_, ?_⟩
      · simp only at n'
        simp only [delivered, List.length_cons]
        rw [n']; push_cast; omega
      · simp only [delivered]
        refine ⟨⟨r.rcvpkt (slot r.expectedseqnum), t6, t5, by rw [t4, ht], rfl⟩, d'⟩
      · simp only [sentPackets]
        exact o'
    · rw [if_neg hc]
      refine ⟨r, [], rfl, ⟨a, b, c⟩, by simp [delivered], trivial, rfl⟩

theorem B_input_spec (P : pkt → Prop) (r : Receiver) (p : pkt)
    (hinv : ReceiverInv P (r.expectedseqnum + WINDOWSIZE) r) :
    ∃ r' evs, B_input r p = some (r', evs) ∧
      ReceiverInv (fun q => P q ∨ q = p) (r'.expectedseqnum + WINDOWSIZE) r' ∧
      r'.expectedseqnum = r.expectedseqnum + (delivered evs).length ∧
      DeliveredFrom (fun q => P q ∨ q = p) r.expectedseqnum (delivered evs) := by
  have hmono : ∀ q, P q → (fun q => P q ∨ q = p) q := fun q h => Or.inl h
  by_cases hv : isChecksumValid p = true
  · by_cases hw : p.seqnum ≥ r.expectedseqnum ∧ p.seqnum < r.expectedseqnum + WINDOWSIZE
    · obtain ⟨a, b, c⟩ := hinv
      have hw8 : p.seqnum < r.expectedseqnum + 8 := hw.2
      have hinv1 : ReceiverInv (fun q => P q ∨ q = p) (r.expectedseqnum + WINDOWSIZE)
          { r with
            rcvpkt := setAt r.rcvpkt (slot p.seqnum) p
            rcvpktValid := setAt r.rcvpktValid (slot p.seqnum) 1 } := by
        refine ⟨a, b, ?_⟩
        intro j j0 j1 hvj
        simp only at hvj ⊢
        by_cases hj : j = slot p.seqnum
        · rw [hj, setAt_same]
          exact ⟨p.seqnum, hw.1, hw.2, rfl, rfl, hv, Or.inr rfl⟩
        · rw [setAt_other _ _ hj] at hvj
          rw [setAt_other _ _ hj]
          obtain ⟨u, u1, u2, u3, u4, u5, u6⟩ := c j j0 j1 hvj
          exact ⟨u, u1, u2, u3, u4, u5, Or.inl u6⟩
      obtain ⟨r', evs, e, inv', n', d', _⟩ :=
        B_input_deliver_spec _ _ loopFuel _ hinv1 (by
          show (r.expectedseqnum + 8 - r.expectedseqnum).toNat < 100
          omega)
      simp only at n' d'
      refine ⟨r', Event.tolayer3 B (B_input_ackpkt p.seqnum) :: evs, ?_, ?_, ?_, ?_⟩
      · rw [B_input, if_pos hv]
        simp only [if_pos hw, e]
      · exact ReceiverInv_mono _ _ (fun _ h => h) _ _ r' inv'
          (by show r.expectedseqnum + 8 ≤ r'.expectedseqnum + 8; omega) (le_refl _)
      · simp only [delivered]; exact n'
      · simp only [delivered]; exact d'
    · refine ⟨r, [Event.tolayer3 B (B_input_ackpkt p.seqnum)], ?_,
        ReceiverInv_mono _ _ hmono _ _ r hinv (le_refl _) (le_refl _),
        by simp [delivered], trivial⟩
      rw [B_input, if_pos hv]
      simp only [if_neg hw, ite_self]
  · refine ⟨r, [], B_input_corrupt r p (by simpa using hv),
      ReceiverInv_mono _ _ hmono _ _ r hinv (le_refl _) (le_refl _),
      by simp [delivered], trivial⟩

theorem B_run_spec : ∀ (pkts : List pkt) (P : pkt → Prop) (r : Receiver),
    ReceiverInv P (r.expectedseqnum + WINDOWSIZE) r →
    ∃ r' evs, B_run r pkts = some (r', evs) ∧
      ReceiverInv (fun q => P q ∨ q ∈ pkts) (r'.expectedseqnum + WINDOWSIZE) r' ∧
      r'.expectedseqnum = r.expectedseqnum + (delivered evs).length ∧
      DeliveredFrom (fun q => P q ∨ q ∈ pkts) r.expectedseqnum (delivered evs) := by
  intro pkts
  induction pkts with
  | nil =>
    intro P r hinv
    exact ⟨r, [], rfl, ReceiverInv_mono _ _ (fun _ h => Or.inl h) _ _ r hinv (le_refl _)
      (le_refl _), by simp [delivered], trivial⟩
  | cons p ps ih =>
    intro P r hinv
    obtain ⟨r1, evs1, e1, inv1, n1, d1⟩ := B_input_spec P r p hinv
    obtain ⟨r2, evs2, e2, inv2, n2, d2⟩ := ih (fun q => P q ∨ q = p) r1 inv1
    have hsub : ∀ q, ((P q ∨ q = p) ∨ q ∈ ps) → (P q ∨ q ∈ p :: ps) := by
      intro q h
      rcases h with (h | h) | h
      · exact Or.inl h
      · exact Or.inr (by rw [h]; exact List.mem_cons_self _ _)
      · exact Or.inr (List.mem_cons_of_mem _ h)
    refine ⟨r2, evs1 ++ evs2, B_run_cons r p ps r1 r2 evs1 evs2 e1 e2,
      ReceiverInv_mono _ _ hsub _ _ r2 inv2 (le_refl _) (le_refl _), ?_, ?_⟩
    · rw [delivered_append, List.length_append, n2, n1]; push_cast; omega
    · rw [delivered_append]
      apply DeliveredFrom_append
      · exact DeliveredFrom_mono _ _
          (fun q h => by
            rcases h with h | h
            · exact Or.inl h
            · exact Or.inr (by rw [h]; exact List.mem_cons_self _ _)) _ _ d1
      · rw [← n1]
        exact DeliveredFrom_mono _ _ hsub _ _ d2

theorem B_run_append : ∀ (xs ys : List pkt) (r r1 r2 : Receiver) (evs1 evs2 : List Event),
    B_run r xs = some (r1, evs1) → B_run r1 ys = some (r2, evs2) →
    B_run r (xs ++ ys) = some (r2, evs1 ++ evs2) := by
  intro xs
  induction xs with
  | nil =>
    intro ys r r1 r2 evs1 evs2 h1 h2
    simp only [B_run, Option.some.injEq, Prod.mk.injEq] at h1
    obtain ⟨e1, e2⟩ := h1
    subst e1
    subst e2
    simpa using h2
  | cons x xs ih =>
    intro ys r r1 r2 evs1 evs2 h1 h2
    rw [B_run] at h1
    cases hx : B_input r x with
    | none => rw [hx] at h1; simp at h1
    | some ra =>
      rw [hx, Option.some_bind] at h1
      cases hxs : B_run ra.1 xs with
      | none => rw [hxs] at h1; simp at h1
      | some rb =>
        rw [hxs, Option.map_some', Option.some.injEq, Prod.mk.injEq] at h1
        obtain ⟨e1, e2⟩ := h1
        have hrb : B_run ra.1 xs = some (r1, rb.2) := by rw [hxs, ← e1]
        have := ih ys ra.1 r1 r2 rb.2 evs2 hrb h2
        rw [List.cons_append, ← e2, List.append_assoc]
        exact B_run_cons r x (xs ++ ys) ra.1 r2 ra.2 (rb.2 ++ evs2) hx this

/-! ## C1 -/

/-- C1: feed `B_input` any finite sequence of packets from the state that
`B_init` sets; the fields of the packets are arbitrary, so the sequence may
hold reordered, duplicated and corrupted packets. At every point of the
sequence (after the packets `pre`, with `post` still to come) the run has
returned, `expectedseqnum` is 1 plus the number of payloads handed to
`tolayer5` so far, what is delivered later only extends the list, and the n-th
payload delivered (counted from 0 here) is the payload of a checksum-valid
packet with `seqnum = n + 1` that is among the packets received so far. So
deliveries come in increasing sequence order with no gap and no repeat. -/
theorem B_in_order_delivery (r0 : Receiver) (pre post : List pkt) :
    ∃ r1 evs1 r2 evs2,
      B_run (B_init r0) pre = some (r1, evs1) ∧
      B_run (B_init r0) (pre ++ post) = some (r2, evs2) ∧
      (∃ more, delivered evs2 = delivered evs1 ++ more) ∧
      r1.expectedseqnum = 1 + (delivered evs1).length ∧
      ∀ (n : Nat) (d : Fin 20 → Fin 256), (delivered evs1)[n]? = some d →
        ∃ p ∈ pre, isChecksumValid p = true ∧ p.seqnum = n + 1 ∧ p.payload = d := by
  obtain ⟨r1, evs1, e1, inv1, n1, d1⟩ :=
    B_run_spec pre (fun _ => False) (B_init r0) (ReceiverInv_init _ r0)
  obtain ⟨r2, evs2, e2, _⟩ := B_run_spec post _ r1 inv1
  refine ⟨r1, evs1, r2, evs1 ++ evs2, e1, B_run_append pre post _ r1 r2 evs1 evs2 e1 e2,
    ⟨delivered evs2, delivered_append evs1 evs2⟩, ?_, ?_⟩
  · rw [n1, B_init_expectedseqnum]
  · intro n d hn
    rw [B_init_expectedseqnum] at d1
    obtain ⟨p, hp, hv, hs, hd⟩ := DeliveredFrom_getElem _ _ _ d1 n d hn
    rcases hp with hp | hp
    · exact absurd hp id
    · exact ⟨p, hp, hv, by rw [hs]; omega, hd⟩

/-! ## The checksum as a sum -/

theorem foldl_add_eq_sum {ι : Type} (f : ι → Int) : ∀ (l : List ι) (c : Int),
    l.foldl (fun acc i => acc + f i) c = c + (l.map f).sum := by
  intro l
  induction l with
  | nil => intro c; simp
  | cons x xs ih =>
    intro c
    simp only [List.foldl_cons, List.map_cons, List.sum_cons]
    rw [ih]
    omega

theorem calculateChecksum_eq_sum (p : pkt) :
    calculateChecksum p = p.seqnum + p.acknum + ∑ i : Fin 20, ((p.payload i).val : Int) := by
  rw [Fin.sum_univ_def]
  unfold calculateChecksum
  rw [foldl_add_eq_sum (fun i => ((p.payload i).val : Int))]
  omega

theorem payload_sum_update (f : Fin 20 → Fin 256) (i : Fin 20) (v : Fin 256) :
    (∑ j : Fin 20, (((Function.update f i v) j).val : Int)) =
      (∑ j : Fin 20, ((f j).val : Int)) - ((f i).val : Int) + (v.val : Int) := by
  have h1 : ((f i).val : Int) + ∑ x ∈ Finset.univ.erase i, ((f x).val : Int) =
      ∑ x : Fin 20, ((f x).val : Int) :=
    Finset.add_sum_erase Finset.univ (fun j => ((f j).val : Int)) (Finset.mem_univ i)
  have h2 : (((Function.update f i v) i).val : Int) +
      ∑ x ∈ Finset.univ.erase i, (((Function.update f i v) x).val : Int) =
      ∑ x : Fin 20, (((Function.update f i v) x).val : Int) :=
    Finset.add_sum_erase Finset.univ
      (fun j => (((Function.update f i v) j).val : Int)) (Finset.mem_univ i)
  have h3 : ∑ x ∈ Finset.univ.erase i, (((Function.update f i v) x).val : Int) =
      ∑ x ∈ Finset.univ.erase i, ((f x).val : Int) := by
    apply Finset.sum_congr rfl
    intro x hx
    rw [Function.update_noteq (Finset.ne_of_mem_erase hx)]
  simp only [Function.update_same] at h2
  rw [h3] at h2
  omega

/-! ## C11 -/

/-- C11: if `p` passes `isChecksumValid` and one payload byte `payload[i]`
(`i` in 0..19) is replaced by a different byte value `v`, while `seqnum`,
`acknum`, `checksum` and the other bytes stay, the packet fails
`isChecksumValid`: the sum of the unsigned bytes changes by `v - payload[i]`,
which is not zero. -/
theorem single_byte_corruption_detected (p : pkt) (i : Fin 20) (v : Fin 256)
    (hvalid : isChecksumValid p = true) (hv : v ≠ p.payload i) :
    isChecksumValid { p with payload := Function.update p.payload i v } = false := by
  simp only [isChecksumValid, decide_eq_true_eq, decide_eq_false_iff_not] at hvalid ⊢
  rw [calculateChecksum_eq_sum] at hvalid ⊢
  simp only
  rw [payload_sum_update]
  intro h
  have hne : (v.val : Int) ≠ ((p.payload i).val : Int) := by
    intro e
    exact hv (Fin.ext (by exact_mod_cast e))
  omega

/-- Witness for `single_byte_corruption_detected`: the first payload byte of the
packet sent for sequence number 1 is changed from 65 to 90. -/
theorem single_byte_corruption_detected_witness :
    isChecksumValid (A_output_packet 1 (sampleMsg 65)) = true ∧
    (90 : Fin 256) ≠ (A_output_packet 1 (sampleMsg 65)).payload 0 ∧
    isChecksumValid
      { A_output_packet 1 (sampleMsg 65) with
        payload := Function.update (A_output_packet 1 (sampleMsg 65)).payload 0 90 } =
      false :=
  ⟨A_output_packet_valid 1 (sampleMsg 65), by decide,
    single_byte_corruption_detected (A_output_packet 1 (sampleMsg 65)) 0 90
      (A_output_packet_valid 1 (sampleMsg 65)) (by decide)⟩

/-! ## Termination of the two `while` loops on every state -/

theorem slot_of_nonpos {x : Int} (h : x ≤ 0) : slot x = x + 50 * ((-x) / 50) := by
  have e : x = -(-x) := by omega
  unfold slot
  rw [Int.tmod_def]
  conv_lhs => rw [e, Int.neg_tdiv, Int.tdiv_eq_ediv (by omega) (by decide)]
  show -(-x) - 50 * -(-x / 50) = x + 50 * (-x / 50)
  omega

theorem slot_period_nonpos {x : Int} (h : x ≤ 0) : slot (x - 50) = slot x := by
  rw [slot_of_nonpos h, slot_of_nonpos (by omega)]
  omega

theorem A_input_advance_total_neg_aux : ∀ (n i : Nat), i + n = 50 →
    ∀ (s : Sender) (fuel : Nat), n + 1 ≤ fuel → s.base + n ≤ 0 →
    (∀ t, s.base - i ≤ t → t < s.base → s.sndpktValid (slot t) = 0) →
    ∃ s', A_input_advance fuel s = some s' := by
  intro n
  induction n with
  | zero =>
    intro i hi s fuel hf hb hz
    obtain ⟨f, rfl⟩ : ∃ f, fuel = f + 1 := ⟨fuel - 1, by omega⟩
    refine ⟨s, A_input_advance_stop f s ?_⟩
    intro hc
    have h1 := hz (s.base - 50) (by omega) (by omega)
    rw [slot_period_nonpos (by simpa using hb)] at h1
    exact hc.2 h1
  | succ n ih =>
    intro i hi s fuel hf hb hz
    obtain ⟨f, rfl⟩ : ∃ f, fuel = f + 1 := ⟨fuel - 1, by omega⟩
    by_cases hc : s.sndpktAcked (slot s.base) ≠ 0 ∧ s.sndpktValid (slot s.base) ≠ 0
    · rw [A_input_advance, if_pos hc]
      apply ih (i + 1) (by omega) _ f (by omega)
      · simp only; push_cast at hb ⊢; omega
      · intro t ht1 ht2
        simp only at ht1 ht2 ⊢
        by_cases ht : slot t = slot s.base
        · rw [ht]; simp
        · rw [setAt_other _ _ ht]
          apply hz t (by push_cast at ht1; omega)
          by_contra hge
          have : t = s.base := by omega
          exact ht (by rw [this])
    · exact ⟨s, A_input_advance_stop f s hc⟩

theorem A_input_advance_total_mid : ∀ (n : Nat) (s : Sender) (fuel : Nat),
    s.base + n = 0 → 51 + n ≤ fuel → ∃ s', A_input_advance fuel s = some s' := by
  intro n
  induction n with
  | zero =>
    intro s fuel hb hf
    exact A_input_advance_total s fuel (by omega) (by simpa using hb.ge)
  | succ n ih =>
    intro s fuel hb hf
    obtain ⟨f, rfl⟩ : ∃ f, fuel = f + 1 := ⟨fuel - 1, by omega⟩
    by_cases hc : s.sndpktAcked (slot s.base) ≠ 0 ∧ s.sndpktValid (slot s.base) ≠ 0
    · rw [A_input_advance, if_pos hc]
      exact ih _ f (by simp only; push_cast at hb ⊢; omega) (by omega)
    · exact ⟨s, A_input_advance_stop f s hc⟩

theorem A_input_advance_total_any (s : Sender) (fuel : Nat) (hf : 100 ≤ fuel) :
    ∃ s', A_input_advance fuel s = some s' := by
  by_cases h0 : 0 ≤ s.base
  · exact A_input_advance_total s fuel (by omega) h0
  · by_cases h50 : s.base + 50 ≤ 0
    · exact A_input_advance_total_neg_aux 50 0 rfl s fuel (by omega) (by simpa using h50)
        (fun t h1 h2 => by simp at h1; omega)
    · exact A_input_advance_total_mid (-s.base).toNat s fuel (by omega) (by omega)

theorem B_input_deliver_stop (fuel : Nat) (r : Receiver)
    (h : ¬ r.rcvpktValid (slot r.expectedseqnum) ≠ 0) :
    B_input_deliver (fuel + 1) r = some (r, []) := by
  rw [B_input_deliver, if_neg h]

theorem B_input_deliver_continue (fuel : Nat) (r r' : Receiver) (evs : List Event)
    (h : r.rcvpktValid (slot r.expectedseqnum) ≠ 0)
    (h' : B_input_deliver fuel
      { r with
        rcvpktValid := setAt r.rcvpktValid (slot r.expectedseqnum) 0
        expectedseqnum := r.expectedseqnum + 1 } = some (r', evs)) :
    B_input_deliver (fuel + 1) r =
      some (r', Event.tolayer5 B (r.rcvpkt (slot r.expectedseqnum)).payload :: evs) := by
  rw [B_input_deliver, if_pos h, h']

theorem B_input_deliver_total_aux (nonneg : Bool) : ∀ (n i : Nat), i + n = 50 →
    ∀ (r : Receiver) (fuel : Nat), n + 1 ≤ fuel →
    (if nonneg then (i : Int) ≤ r.expectedseqnum else r.expectedseqnum + n ≤ 0) →
    (∀ t, r.expectedseqnum - i ≤ t → t < r.expectedseqnum → r.rcvpktValid (slot t) = 0) →
    ∃ r' evs, B_input_deliver fuel r = some (r', evs) := by
  intro n
  induction n with
  | zero =>
    intro i hi r fuel hf hb hz
    obtain ⟨f, rfl⟩ : ∃ f, fuel = f + 1 := ⟨fuel - 1, by omega⟩
    refine ⟨r, [], B_input_deliver_stop f r ?_⟩
    intro hc
    have h1 := hz (r.expectedseqnum - 50) (by omega) (by omega)
    have h2 : slot (r.expectedseqnum - 50) = slot r.expectedseqnum := by
      cases nonneg with
      | true =>
        simp only [if_true] at hb
        rw [slot_of_nonneg (by omega), slot_of_nonneg (by omega)]; omega
      | false =>
        simp only [Bool.false_eq_true, if_false] at hb
        exact slot_period_nonpos (by simpa using hb)
    rw [h2] at h1
    exact hc h1
  | succ n ih =>
    intro i hi r fuel hf hb hz
    obtain ⟨f, rfl⟩ : ∃ f, fuel = f + 1 := ⟨fuel - 1, by omega⟩
    by_cases hc : r.rcvpktValid (slot r.expectedseqnum) ≠ 0
    · obtain ⟨r', evs, e⟩ := ih (i + 1) (by omega)
        { r with
          rcvpktValid := setAt r.rcvpktValid (slot r.expectedseqnum) 0
          expectedseqnum := r.expectedseqnum + 1 } f (by omega)
        (by
          cases nonneg with
          | true => simp only [if_true] at hb ⊢; push_cast; omega
          | false =>
            simp only [Bool.false_eq_true, if_false] at hb ⊢
            push_cast at hb; omega)
        (by
          intro t ht1 ht2
          simp only at ht1 ht2 ⊢
          by_cases ht : slot t = slot r.expectedseqnum
          · rw [ht]; simp
          · rw [setAt_other _ _ ht]
            apply hz t (by push_cast at ht1; omega)
            by_contra hge
            have : t = r.expectedseqnum := by omega
            exact ht (by rw [this]))
      exact ⟨r', _, B_input_deliver_continue f r r' evs hc e⟩
    · exact ⟨r, [], B_input_deliver_stop f r hc⟩

theorem B_input_deliver_total (r : Receiver) (fuel : Nat) (hf : 51 ≤ fuel)
    (hb : 0 ≤ r.expectedseqnum) : ∃ r' evs, B_input_deliver fuel r = some (r', evs) :=
  B_input_deliver_total_aux true 50 0 rfl r fuel (by omega) (by simpa using hb)
    (fun t h1 h2 => by simp at h1; omega)

theorem B_input_deliver_total_mid : ∀ (n : Nat) (r : Receiver) (fuel : Nat),
    r.expectedseqnum + n = 0 → 51 + n ≤ fuel →
    ∃ r' evs, B_input_deliver fuel r = some (r', evs) := by
  intro n
  induction n with
  | zero =>
    intro r fuel hb hf
    exact B_input_deliver_total r fuel (by omega) (by simpa using hb.ge)
  | succ n ih =>
    intro r fuel hb hf
    obtain ⟨f, rfl⟩ : ∃ f, fuel = f + 1 := ⟨fuel - 1, by omega⟩
    by_cases hc : r.rcvpktValid (slot r.expectedseqnum) ≠ 0
    · obtain ⟨r', evs, e⟩ := ih
        { r with
          rcvpktValid := setAt r.rcvpktValid (slot r.expectedseqnum) 0
          expectedseqnum := r.expectedseqnum + 1 } f
        (by simp only; push_cast at hb ⊢; omega) (by omega)
      exact ⟨r', _, B_input_deliver_continue f r r' evs hc e⟩
    · exact ⟨r, [], B_input_deliver_stop f r hc⟩

theorem B_input_deliver_total_any (r : Receiver) (fuel : Nat) (hf : 100 ≤ fuel) :
    ∃ r' evs, B_input_deliver fuel r = some (r', evs) := by
  by_cases h0 : 0 ≤ r.expectedseqnum
  · exact B_input_deliver_total r fuel (by omega) h0
  · by_cases h50 : r.expectedseqnum + 50 ≤ 0
    · exact B_input_deliver_total_aux false 50 0 rfl r fuel (by omega)
        (by simpa using h50) (fun t h1 h2 => by simp at h1; omega)
    · exact B_input_deliver_total_mid (-r.expectedseqnum).toNat r fuel (by omega) (by omega)

/-! ## What one call of `B_input` does -/

theorem sentPackets_tolayer5 (f : Nat → Fin 20 → Fin 256) : ∀ (l : List Nat),
    sentPackets (l.map (fun i => Event.tolayer5 B (f i))) = [] := by
  intro l
  induction l with
  | nil => rfl
  | cons x xs ih => simpa [sentPackets] using ih

theorem delivered_tolayer5 (f : Nat → Fin 20 → Fin 256) : ∀ (l : List Nat),
    delivered (l.map (fun i => Event.tolayer5 B (f i))) = l.map f := by
  intro l
  induction l with
  | nil => rfl
  | cons x xs ih => simpa [delivered] using ih

theorem B_input_deliver_run : ∀ (fuel : Nat) (r r' : Receiver) (evs : List Event),
    B_input_deliver fuel r = some (r', evs) →
    ∃ k : Nat, k < fuel ∧ r'.expectedseqnum = r.expectedseqnum + k ∧
      evs = (List.range k).map
        (fun (i : Nat) =>
          Event.tolayer5 B (r.rcvpkt (slot (r.expectedseqnum + (i : Int)))).payload) ∧
      r'.rcvpkt = r.rcvpkt ∧ r'.rcvpktValid (slot r'.expectedseqnum) = 0 ∧
      (∀ i : Nat, i < k → r.rcvpktValid (slot (r.expectedseqnum + i)) ≠ 0) ∧
      (∀ i : Nat, i < k → r'.rcvpktValid (slot (r.expectedseqnum + i)) = 0) ∧
      (∀ j, r'.rcvpktValid j = r.rcvpktValid j ∨ r'.rcvpktValid j = 0) ∧
      (∀ j, (∀ i : Nat, i < k → slot (r.expectedseqnum + i) ≠ j) →
        r'.rcvpktValid j = r.rcvpktValid j) := by
  intro fuel
  induction fuel with
  | zero => intro r r' evs h; simp [B_input_deliver] at h
  | succ fuel ih =>
    intro r r' evs h
    rw [B_input_deliver] at h
    by_cases hc : r.rcvpktValid (slot r.expectedseqnum) ≠ 0
    · rw [if_pos hc] at h
      cases hrec : B_input_deliver fuel
          { r with
            rcvpktValid := setAt r.rcvpktValid (slot r.expectedseqnum) 0
            expectedseqnum := r.expectedseqnum + 1 } with
      | none => rw [hrec] at h; simp at h
      | some res =>
        obtain ⟨r1, evs1⟩ := res
        rw [hrec] at h
        simp only [Option.some.injEq, Prod.mk.injEq] at h
        obtain ⟨e1, e2⟩ := h
        subst e1
        obtain ⟨k, k1, k2, k3, k4, k5, k6, k7, k8, k9⟩ := ih _ _ _ hrec
        simp only at k2 k3 k4 k6 k7 k8 k9
        refine ⟨k + 1, by omega, by rw [k2]; push_cast; omega, ?_, k4, k5, ?_, ?_, ?_, ?_⟩
        · rw [← e2, k3, List.range_succ_eq_map, List.map_cons, List.map_map]
          congr 1
          · simp
          · apply List.map_congr_left
            intro i _
            simp only [Function.comp, Nat.succ_eq_add_one]
            have : r.expectedseqnum + 1 + (i : Int) = r.expectedseqnum + ((i + 1 : Nat) : Int) := by
              push_cast; omega
            rw [this]
        · intro i hi
          cases i with
          | zero => simpa using hc
          | succ i =>
            have hv := k6 i (by omega)
            have hcast : r.expectedseqnum + ((i + 1 : Nat) : Int) = r.expectedseqnum + 1 + (i : Int) := by
              push_cast; omega
            rw [hcast]
            by_cases hs : slot (r.expectedseqnum + 1 + (i : Int)) = slot r.expectedseqnum
            · rw [hs, setAt_same] at hv
              exact absurd rfl hv
            · rw [setAt_other _ _ hs] at hv
              exact hv
        · intro i hi
          cases i with
          | zero =>
            rcases k8 (slot r.expectedseqnum) with e | e
            · rw [setAt_same] at e
              simpa using e
            · simpa using e
          | succ i =>
            have hcast : r.expectedseqnum + ((i + 1 : Nat) : Int) = r.expectedseqnum + 1 + (i : Int) := by
              push_cast; omega
            rw [hcast]
            exact k7 i (by omega)
        · intro j
          rcases k8 j with e | e
          · by_cases hj : j = slot r.expectedseqnum
            · right; rw [e, hj, setAt_same]
            · left; rw [e, setAt_other _ _ hj]
          · right; exact e
        · intro j hj
          have hne : j ≠ slot r.expectedseqnum := by
            intro e
            exact hj 0 (by omega) (by rw [e]; simp)
          rw [k9 j, setAt_other _ _ hne]
          intro i hi e
          apply hj (i + 1) (by omega)
          rw [← e]
          congr 1
          push_cast; omega
    · rw [if_neg hc] at h
      simp only [Option.some.injEq, Prod.mk.injEq] at h
      obtain ⟨e1, e2⟩ := h
      subst e1
      subst e2
      refine ⟨0, by omega, by simp, rfl, rfl, by simpa using hc, ?_, ?_, ?_, ?_⟩
      · intro i hi; omega
      · intro i hi; omega
      · intro j; left; rfl
      · intro j _; rfl

theorem B_input_in_window (r : Receiver) (p : pkt) (hv : isChecksumValid p = true)
    (hw : p.seqnum ≥ r.expectedseqnum ∧ p.seqnum < r.expectedseqnum + WINDOWSIZE) :
    ∃ r' evs,
      B_input_deliver loopFuel
        { r with
          rcvpkt := setAt r.rcvpkt (slot p.seqnum) p
          rcvpktValid := setAt r.rcvpktValid (slot p.seqnum) 1 } = some (r', evs) ∧
      B_input r p = some (r', Event.tolayer3 B (B_input_ackpkt p.seqnum) :: evs) := by
  obtain ⟨r', evs, e⟩ := B_input_deliver_total_any
    { r with
      rcvpkt := setAt r.rcvpkt (slot p.seqnum) p
      rcvpktValid := setAt r.rcvpktValid (slot p.seqnum) 1 } loopFuel (by decide)
  refine ⟨r', evs, e, ?_⟩
  rw [B_input, if_pos hv]
  simp only [if_pos hw, e]

theorem B_input_out_of_window (r : Receiver) (p : pkt) (hv : isChecksumValid p = true)
    (hw : ¬(p.seqnum ≥ r.expectedseqnum ∧ p.seqnum < r.expectedseqnum + WINDOWSIZE)) :
    B_input r p = some (r, [Event.tolayer3 B (B_input_ackpkt p.seqnum)]) := by
  rw [B_input, if_pos hv]
  simp only [if_neg hw, ite_self]

theorem B_input_total (r : Receiver) (p : pkt) :
    ∃ r' evs, B_input r p = some (r', evs) ∧
      ∀ q ∈ sentPackets evs, q = B_input_ackpkt p.seqnum := by
  by_cases hv : isChecksumValid p = true
  · by_cases hw : p.seqnum ≥ r.expectedseqnum ∧ p.seqnum < r.expectedseqnum + WINDOWSIZE
    · obtain ⟨r', evs, e1, e2⟩ := B_input_in_window r p hv hw
      obtain ⟨k, _, _, k3, _⟩ := B_input_deliver_run _ _ _ _ e1
      refine ⟨r', _, e2, ?_⟩
      rw [k3]
      simp only [sentPackets, sentPackets_tolayer5]
      intro q hq
      simpa using hq
    · refine ⟨r, _, B_input_out_of_window r p hv hw, ?_⟩
      intro q hq
      simpa [sentPackets] using hq
  · refine ⟨r, [], B_input_corrupt r p (by simpa using hv), ?_⟩
    intro q hq
    simp [sentPackets] at hq

theorem B_input_ackpkt_checksum (seq : Int) : (B_input_ackpkt seq).checksum = seq := by
  show calculateChecksum _ = seq
  rw [calculateChecksum_eq_sum]
  simp

/-! ## C13, C15, C17 -/

/-- C13: on every packet `p` that passes `isChecksumValid`, in every receiver
state and whatever `p.seqnum` is, `B_input` returns and hands exactly one
packet to layer 3, as its first call: the acknowledgment with
`acknum = p.seqnum`, `seqnum = 0`, twenty zero payload bytes and
`checksum = p.seqnum`, which passes `isChecksumValid`. -/
theorem B_input_acknowledges (r : Receiver) (p : pkt) (hv : isChecksumValid p = true) :
    ∃ r' evs, B_input r p = some (r', Event.tolayer3 B (B_input_ackpkt p.seqnum) :: evs) ∧
      sentPackets (Event.tolayer3 B (B_input_ackpkt p.seqnum) :: evs) =
        [B_input_ackpkt p.seqnum] ∧
      (B_input_ackpkt p.seqnum).acknum = p.seqnum ∧
      (B_input_ackpkt p.seqnum).seqnum = 0 ∧
      (∀ i, (B_input_ackpkt p.seqnum).payload i = 0) ∧
      (B_input_ackpkt p.seqnum).checksum = p.seqnum ∧
      isChecksumValid (B_input_ackpkt p.seqnum) = true := by
  have hrest : (B_input_ackpkt p.seqnum).acknum = p.seqnum ∧
      (B_input_ackpkt p.seqnum).seqnum = 0 ∧
      (∀ i, (B_input_ackpkt p.seqnum).payload i = 0) ∧
      (B_input_ackpkt p.seqnum).checksum = p.seqnum ∧
      isChecksumValid (B_input_ackpkt p.seqnum) = true :=
    ⟨rfl, rfl, fun _ => rfl, B_input_ackpkt_checksum p.seqnum, B_input_ackpkt_valid p.seqnum⟩
  by_cases hw : p.seqnum ≥ r.expectedseqnum ∧ p.seqnum < r.expectedseqnum + WINDOWSIZE
  · obtain ⟨r', evs, e1, e2⟩ := B_input_in_window r p hv hw
    obtain ⟨k, _, _, k3, _⟩ := B_input_deliver_run _ _ _ _ e1
    refine ⟨r', evs, e2, ?_, hrest⟩
    rw [k3]
    simp only [sentPackets, sentPackets_tolayer5]
  · exact ⟨r, [], B_input_out_of_window r p hv hw, rfl, hrest⟩

/-- Witness for `B_input_acknowledges`: packet 3 arrives first at a fresh
receiver. -/
theorem B_input_acknowledges_witness :
    isChecksumValid (A_output_packet 3 (sampleMsg 3)) = true ∧
    ∃ r' evs, B_input (B_init zeroReceiver) (A_output_packet 3 (sampleMsg 3)) =
        some (r', Event.tolayer3 B (B_input_ackpkt 3) :: evs) ∧
      sentPackets (Event.tolayer3 B (B_input_ackpkt 3) :: evs) = [B_input_ackpkt 3] :=
  ⟨A_output_packet_valid 3 (sampleMsg 3),
    (B_input_acknowledges (B_init zeroReceiver) (A_output_packet 3 (sampleMsg 3))
      (A_output_packet_valid 3 (sampleMsg 3))).imp
      fun _ h => h.imp fun _ h' => ⟨h'.1, h'.2.1⟩⟩

/-- C15: on a packet that passes `isChecksumValid` and whose `seqnum` is not in
`[expectedseqnum, expectedseqnum + WINDOWSIZE)`, be it a duplicate in
`[expectedseqnum - WINDOWSIZE, expectedseqnum)` or outside both windows,
`B_input` returns the receiver state unchanged (`expectedseqnum`, `rcvpkt`,
`rcvpktValid`) and its only call is the `tolayer3` of the acknowledgment: no
`tolayer5`. This holds in every receiver state. -/
theorem B_input_outside_window (r : Receiver) (p : pkt) (hv : isChecksumValid p = true)
    (hw : ¬(r.expectedseqnum ≤ p.seqnum ∧ p.seqnum < r.expectedseqnum + WINDOWSIZE)) :
    B_input r p = some (r, [Event.tolayer3 B (B_input_ackpkt p.seqnum)]) ∧
    delivered [Event.tolayer3 B (B_input_ackpkt p.seqnum)] = [] :=
  ⟨B_input_out_of_window r p hv hw, rfl⟩

/-- Witness for `B_input_outside_window`: packet 9 arrives at a fresh receiver,
whose window is `[1, 9)`. -/
theorem B_input_outside_window_witness :
    isChecksumValid (A_output_packet 9 (sampleMsg 9)) = true ∧
    ¬((B_init zeroReceiver).expectedseqnum ≤ (A_output_packet 9 (sampleMsg 9)).seqnum ∧
      (A_output_packet 9 (sampleMsg 9)).seqnum <
        (B_init zeroReceiver).expectedseqnum + WINDOWSIZE) ∧
    B_input (B_init zeroReceiver) (A_output_packet 9 (sampleMsg 9)) =
      some (B_init zeroReceiver, [Event.tolayer3 B (B_input_ackpkt 9)]) :=
  ⟨A_output_packet_valid 9 (sampleMsg 9), by decide,
    (B_input_outside_window (B_init zeroReceiver) (A_output_packet 9 (sampleMsg 9))
      (A_output_packet_valid 9 (sampleMsg 9)) (by decide)).1⟩

/-- C17: in every sender state, `A_timerinterrupt` sends the packet stored in
slot `timerForPacket % BUFSIZE` once when `base <= timerForPacket < nextseqnum`
and sends nothing otherwise; either way it then calls `starttimer` once, sets
`timerActive` to 1 and leaves `base`, `nextseqnum`, `timerForPacket`, `sndpkt`,
`sndpktValid` and `sndpktAcked` as they were. -/
theorem A_timerinterrupt_postcondition (s : Sender) :
    (A_timerinterrupt s).2 =
      (if s.base ≤ s.timerForPacket ∧ s.timerForPacket < s.nextseqnum then
        [Event.tolayer3 A (s.sndpkt (slot s.timerForPacket)), Event.starttimer A RTT]
      else [Event.starttimer A RTT]) ∧
    (sentPackets (A_timerinterrupt s).2).length ≤ 1 ∧
    (A_timerinterrupt s).1 = { s with timerActive := 1 } ∧
    (A_timerinterrupt s).1.timerActive = 1 ∧
    (A_timerinterrupt s).1.base = s.base ∧
    (A_timerinterrupt s).1.nextseqnum = s.nextseqnum ∧
    (A_timerinterrupt s).1.timerForPacket = s.timerForPacket ∧
    (A_timerinterrupt s).1.sndpkt = s.sndpkt ∧
    (A_timerinterrupt s).1.sndpktValid = s.sndpktValid ∧
    (A_timerinterrupt s).1.sndpktAcked = s.sndpktAcked := by
  refine ⟨?_, ?_, rfl, rfl, rfl, rfl, rfl, rfl, rfl, rfl⟩
  · by_cases h : s.timerForPacket ≥ s.base ∧ s.timerForPacket < s.nextseqnum
    · simp only [A_timerinterrupt, if_pos h]
      rfl
    · simp only [A_timerinterrupt, if_neg h]
      rfl
  · by_cases h : s.timerForPacket ≥ s.base ∧ s.timerForPacket < s.nextseqnum
    · simp only [A_timerinterrupt, if_pos h]
      simp [sentPackets]
    · simp only [A_timerinterrupt, if_neg h]
      simp [sentPackets]

/-! ## Reachable receiver states -/

theorem B_input_cases (r : Receiver) (p : pkt) (r1 : Receiver) (evs : List Event)
    (h : B_input r p = some (r1, evs)) :
    (r1 = r ∧ delivered evs = []) ∨
    (isChecksumValid p = true ∧
      (p.seqnum ≥ r.expectedseqnum ∧ p.seqnum < r.expectedseqnum + WINDOWSIZE) ∧
      ∃ evs', evs = Event.tolayer3 B (B_input_ackpkt p.seqnum) :: evs' ∧
        B_input_deliver loopFuel
          { r with
            rcvpkt := setAt r.rcvpkt (slot p.seqnum) p
            rcvpktValid := setAt r.rcvpktValid (slot p.seqnum) 1 } = some (r1, evs')) := by
  by_cases hv : isChecksumValid p = true
  · by_cases hw : p.seqnum ≥ r.expectedseqnum ∧ p.seqnum < r.expectedseqnum + WINDOWSIZE
    · right
      obtain ⟨r', evs', e1, e2⟩ := B_input_in_window r p hv hw
      rw [e2] at h
      simp only [Option.some.injEq, Prod.mk.injEq] at h
      obtain ⟨h1, h2⟩ := h
      subst h1
      exact ⟨hv, hw, evs', h2.symm, e1⟩
    · left
      rw [B_input_out_of_window r p hv hw] at h
      simp only [Option.some.injEq, Prod.mk.injEq] at h
      obtain ⟨h1, h2⟩ := h
      rw [← h1, ← h2]
      exact ⟨rfl, rfl⟩
  · left
    rw [B_input_corrupt r p (by simpa using hv)] at h
    simp only [Option.some.injEq, Prod.mk.injEq] at h
    obtain ⟨h1, h2⟩ := h
    rw [← h1, ← h2]
    exact ⟨rfl, rfl⟩

theorem ReachableB_inv (r : Receiver) (h : ReachableB r) :
    ReceiverInv (fun _ => True) (r.expectedseqnum + WINDOWSIZE) r ∧
      r.rcvpktValid (slot r.expectedseqnum) = 0 := by
  induction h with
  | init r0 =>
    refine ⟨ReceiverInv_init _ r0, ?_⟩
    rw [B_init_expectedseqnum]
    exact B_init_flags r0 (slot 1) (by decide) (by decide)
  | input r p r1 evs _ hstep ih =>
    obtain ⟨r', evs', e, inv', _⟩ := B_input_spec _ r p ih.1
    rw [e] at hstep
    simp only [Option.some.injEq, Prod.mk.injEq] at hstep
    obtain ⟨h1, h2⟩ := hstep
    subst h1
    subst h2
    refine ⟨ReceiverInv_mono _ _ (fun _ _ => trivial) _ _ r' inv' (le_refl _) (le_refl _), ?_⟩
    rcases B_input_cases r p r' evs' e with ⟨h1, _⟩ | ⟨_, _, evs'', _, hd⟩
    · rw [h1]; exact ih.2
    · obtain ⟨k, _, _, _, _, k5, _⟩ := B_input_deliver_run _ _ _ _ hd
      exact k5

/-! ## C14 -/

/-- C14: in a receiver state reachable from `B_init`, let `p` pass
`isChecksumValid` with `e <= p.seqnum < e + WINDOWSIZE`, where `e` is the old
`expectedseqnum`. After the acknowledgment, `B_input` makes `k` calls of
`tolayer5`, one each for the sequence numbers `e, e+1, ..., e+k-1` in that
order, with the payload of `p` for `p.seqnum` and of the buffered packet (which
carries that sequence number) for the others; `k <= WINDOWSIZE` is the largest
number such that each of `e .. e+k-1` is `p.seqnum` or was already buffered
(`e+k` is neither); `expectedseqnum` becomes `e + k` and the slots of
`e .. e+k-1` are cleared. If `p.seqnum > e`, then `k = 0`: nothing is
delivered, `expectedseqnum` stays and `p` is buffered. -/
theorem B_input_maximal_run (r : Receiver) (p : pkt) (hr : ReachableB r)
    (hv : isChecksumValid p = true) (h1 : r.expectedseqnum ≤ p.seqnum)
    (h2 : p.seqnum < r.expectedseqnum + WINDOWSIZE) :
    ∃ (r' : Receiver) (k : Nat),
      B_input r p = some (r', Event.tolayer3 B (B_input_ackpkt p.seqnum) ::
        (List.range k).map (fun (i : Nat) =>
          Event.tolayer5 B
            (if r.expectedseqnum + (i : Int) = p.seqnum then p
              else r.rcvpkt (slot (r.expectedseqnum + (i : Int)))).payload)) ∧
      r'.expectedseqnum = r.expectedseqnum + k ∧ k ≤ 8 ∧
      (∀ i : Nat, i < k → r.expectedseqnum + (i : Int) = p.seqnum ∨
        r.rcvpktValid (slot (r.expectedseqnum + (i : Int))) ≠ 0) ∧
      ¬(r.expectedseqnum + (k : Int) = p.seqnum ∨
        r.rcvpktValid (slot (r.expectedseqnum + (k : Int))) ≠ 0) ∧
      (∀ i : Nat, i < k → r'.rcvpktValid (slot (r.expectedseqnum + (i : Int))) = 0) ∧
      (∀ i : Nat, i < k → r.expectedseqnum + (i : Int) ≠ p.seqnum →
        (r.rcvpkt (slot (r.expectedseqnum + (i : Int)))).seqnum =
          r.expectedseqnum + (i : Int)) ∧
      (r.expectedseqnum < p.seqnum →
        k = 0 ∧ r'.rcvpktValid (slot p.seqnum) = 1 ∧ r'.rcvpkt (slot p.seqnum) = p) := by
  have h2 : p.seqnum < r.expectedseqnum + 8 := h2
  obtain ⟨⟨a, _, c⟩, hrest⟩ := ReachableB_inv r hr
  obtain ⟨r', evs, e1, e2⟩ := B_input_in_window r p hv ⟨h1, h2⟩
  obtain ⟨k, _, k2, k3, k4, k5, k6, k7, _, k9⟩ := B_input_deliver_run _ _ _ _ e1
  simp only at k2 k3 k4 k6 k9
  -- slots of the window are pairwise different
  have hslot : ∀ x y : Int, r.expectedseqnum ≤ x → x ≤ r.expectedseqnum + 8 →
      r.expectedseqnum ≤ y → y ≤ r.expectedseqnum + 8 → slot x = slot y → x = y :=
    fun x y x1 x2 y1 y2 e => slot_inj (by omega) (by omega) e (by omega) (by omega)
  have hold : ∀ x : Int, r.expectedseqnum ≤ x → x ≤ r.expectedseqnum + 8 → x ≠ p.seqnum →
      setAt r.rcvpktValid (slot p.seqnum) 1 (slot x) ≠ 0 →
      r.rcvpktValid (slot x) ≠ 0 ∧ x < r.expectedseqnum + 8 ∧
        (r.rcvpkt (slot x)).seqnum = x := by
    intro x x1 x2 x3 hx
    have hs : slot x ≠ slot p.seqnum := fun e => x3 (hslot x p.seqnum x1 x2 h1 (by omega) e)
    rw [setAt_other _ _ hs] at hx
    obtain ⟨t, t1, t2, t3, t4, _⟩ :=
      c (slot x) (slot_range (by omega)).1 (slot_range (by omega)).2 hx
    have t2 : t < r.expectedseqnum + 8 := t2
    have := hslot t x t1 (by omega) x1 x2 t3
    rw [this] at t4 t2
    exact ⟨hx, t2, t4⟩
  have hk8 : k ≤ 8 := by
    by_contra hgt
    have h8 := k6 8 (by omega)
    have := (hold (r.expectedseqnum + ((8 : Nat) : Int)) (by push_cast; omega)
      (by push_cast; omega) (by push_cast; omega) h8).2.1
    push_cast at this
    omega
  have hstop : ¬(r.expectedseqnum + (k : Int) = p.seqnum ∨
      r.rcvpktValid (slot (r.expectedseqnum + (k : Int))) ≠ 0) := by
    have hz : setAt r.rcvpktValid (slot p.seqnum) 1 (slot (r.expectedseqnum + (k : Int))) = 0 := by
      rw [← k9 (slot (r.expectedseqnum + (k : Int)))]
      · rw [← k2]; exact k5
      · intro i hi e
        have := hslot _ _ (by omega) (by omega) (by omega) (by omega) e
        omega
    rintro (e | e)
    · rw [e, setAt_same] at hz
      exact absurd hz (by decide)
    · by_cases hs : slot (r.expectedseqnum + (k : Int)) = slot p.seqnum
      · rw [hs, setAt_same] at hz
        exact absurd hz (by decide)
      · rw [setAt_other _ _ hs] at hz
        exact e hz
  refine ⟨r', k, ?_, k2, hk8, ?_, hstop, k7, ?_, ?_⟩
  · rw [e2, k3]
    congr 3
    apply List.map_congr_left
    intro i hi
    have hi : i < k := List.mem_range.1 hi
    by_cases hs : r.expectedseqnum + (i : Int) = p.seqnum
    · rw [if_pos hs, hs, setAt_same]
    · rw [if_neg hs]
      have : slot (r.expectedseqnum + (i : Int)) ≠ slot p.seqnum :=
        fun e => hs (hslot _ _ (by omega) (by omega) h1 (by omega) e)
      rw [setAt_other _ _ this]
  · intro i hi
    by_cases hs : r.expectedseqnum + (i : Int) = p.seqnum
    · left; exact hs
    · right
      exact (hold _ (by omega) (by omega) hs (k6 i hi)).1
  · intro i hi hs
    exact (hold _ (by omega) (by omega) hs (k6 i hi)).2.2
  · intro hlt
    have hk0 : k = 0 := by
      by_contra hne
      have h0 := k6 0 (by omega)
      simp only [Nat.cast_zero, add_zero] at h0
      exact (hold r.expectedseqnum (le_refl _) (by omega) (by omega) h0).1 hrest
    refine ⟨hk0, ?_, ?_⟩
    · rw [k9 (slot p.seqnum) (fun i hi => by omega), setAt_same]
    · rw [k4, setAt_same]

/-- Witness for `B_input_maximal_run`: packet 3 arrives first at a fresh
receiver and is only buffered; over the arrivals 3, 1, 2 the receiver delivers
nothing, then the first message, then the second and the third (shown by the
first byte of each payload). -/
theorem B_input_maximal_run_witness :
    ReachableB (B_init zeroReceiver) ∧
    isChecksumValid (A_output_packet 3 (sampleMsg 3)) = true ∧
    (∃ (r' : Receiver) (k : Nat),
      B_input (B_init zeroReceiver) (A_output_packet 3 (sampleMsg 3)) =
        some (r', Event.tolayer3 B (B_input_ackpkt 3) ::
          (List.range k).map (fun (i : Nat) =>
            Event.tolayer5 B
              (if (B_init zeroReceiver).expectedseqnum + (i : Int) = 3 then
                A_output_packet 3 (sampleMsg 3)
              else (B_init zeroReceiver).rcvpkt
                (slot ((B_init zeroReceiver).expectedseqnum + (i : Int)))).payload)) ∧
      k = 0) ∧
    (B_run (B_init zeroReceiver) [A_output_packet 3 (sampleMsg 3)]).map
        (fun res => (res.1.expectedseqnum, (delivered res.2).map (fun d => d 0))) =
      some (1, []) ∧
    (B_run (B_init zeroReceiver)
        [A_output_packet 3 (sampleMsg 3), A_output_packet 1 (sampleMsg 1)]).map
        (fun res => (res.1.expectedseqnum, (delivered res.2).map (fun d => d 0))) =
      some (2, [1]) ∧
    (B_run (B_init zeroReceiver)
        [A_output_packet 3 (sampleMsg 3), A_output_packet 1 (sampleMsg 1),
          A_output_packet 2 (sampleMsg 2)]).map
        (fun res => (res.1.expectedseqnum, (delivered res.2).map (fun d => d 0))) =
      some (4, [1, 2, 3]) := by
  obtain ⟨r', k, e, _, _, _, _, _, _, h8⟩ :=
    B_input_maximal_run (B_init zeroReceiver) (A_output_packet 3 (sampleMsg 3))
      (ReachableB.init zeroReceiver) (A_output_packet_valid 3 (sampleMsg 3))
      (by decide) (by decide)
  exact ⟨ReachableB.init zeroReceiver, A_output_packet_valid 3 (sampleMsg 3),
    ⟨r', k, e, (h8 (by decide)).1⟩, by decide, by decide, by decide⟩

/-! ## The buffer invariant -/

theorem ReachableA_of_log (log : List msg) (s : Sender) (h : ReachableLog log s) :
    ReachableA s := by
  induction h with
  | init s0 => exact ReachableA.init s0
  | output log s m _ ih => exact ReachableA.output s m ih
  | input log s p s1 evs _ ha hstep ih => exact ReachableA.input s p s1 evs ih ha hstep
  | timer log s _ ih => exact ReachableA.timer s ih

theorem ReachableA_has_log (s : Sender) (h : ReachableA s) : ∃ log, ReachableLog log s := by
  induction h with
  | init s0 => exact ⟨[], ReachableLog.init s0⟩
  | output s m _ ih =>
    obtain ⟨log, hl⟩ := ih
    exact ⟨_, ReachableLog.output log s m hl⟩
  | input s p s1 evs _ ha hstep ih =>
    obtain ⟨log, hl⟩ := ih
    exact ⟨log, ReachableLog.input log s p s1 evs hl ha hstep⟩
  | timer s _ ih =>
    obtain ⟨log, hl⟩ := ih
    exact ⟨log, ReachableLog.timer log s hl⟩

theorem LogInv_init (s0 : Sender) : LogInv [] (A_init s0) := by
  refine ⟨WindowInv_init s0, by rw [A_init_nextseqnum]; rfl, ?_, ?_⟩
  · intro j j0 j1
    left; exact (A_init_flags s0 j j0 j1).1
  · intro t t1 t2
    rw [A_init_base] at t1
    rw [A_init_nextseqnum] at t2
    omega

theorem LogInv_output (log : List msg) (s : Sender) (m : msg) (h : LogInv log s) :
    LogInv (if s.nextseqnum < s.base + WINDOWSIZE then log ++ [m] else log)
      (A_output s m).1 := by
  have hw := WindowInv_output s m h.1
  by_cases hadm : s.nextseqnum < s.base + WINDOWSIZE
  · rw [if_pos hadm]
    rw [A_output_accept s m hadm] at hw ⊢
    obtain ⟨⟨w1, w2, w3, _⟩, hn, hval, hin⟩ := h
    have w3 : s.nextseqnum ≤ s.base + 8 := w3
    refine ⟨hw, ?_, ?_, ?_⟩
    · show s.nextseqnum + 1 = 1 + ((log ++ [m]).length : Int)
      rw [List.length_append]; push_cast
      simp only [List.length_singleton, Nat.cast_one]
      omega
    · intro j j0 j1
      simp only
      by_cases hj : j = slot s.nextseqnum
      · right; rw [hj, setAt_same]
      · rw [setAt_other _ _ hj]; exact hval j j0 j1
    · intro t t1 t2
      simp only at t1 t2 ⊢
      by_cases ht : t = s.nextseqnum
      · rw [ht, setAt_same, setAt_same]
        refine ⟨rfl, ?_⟩
        intro m' hm'
        have hidx : (s.nextseqnum - 1).toNat = log.length := by omega
        rw [hidx, List.getElem?_append_right (le_refl _)] at hm'
        simp only [Nat.sub_self, List.getElem?_cons_zero, Option.some.injEq] at hm'
        rw [hm']
      · have hs : slot t ≠ slot s.nextseqnum := by
          intro e
          exact ht (slot_inj (by omega) (by omega) e (by omega) (by omega))
        rw [setAt_other _ _ hs, setAt_other _ _ hs]
        obtain ⟨q1, q2⟩ := hin t t1 (by omega)
        refine ⟨q1, ?_⟩
        intro m' hm'
        apply q2
        rw [List.getElem?_append_left (by omega)] at hm'
        exact hm'
  · rw [if_neg hadm, A_output_reject s m hadm]
    exact h

theorem LogInv_window (log : List msg) (a : Int) (s s2 : Sender) (h : LogInv log s)
    (ha : 0 ≤ a) (h2 : A_input_window a s = some s2) : LogInv log s2 := by
  have hw2 := WindowInv_window a s s2 h.1 ha h2
  obtain ⟨s2', e, _, w3, w4, _, _, w7, _, _, _, w11, w12, _⟩ := A_input_window_spec a s ha
  rw [h2] at e
  cases e
  obtain ⟨⟨i1, i2, i3, _⟩, hn, hval, hin⟩ := h
  have i3 : s.nextseqnum ≤ s.base + 8 := i3
  refine ⟨hw2, by rw [w4]; exact hn, ?_, ?_⟩
  · intro j j0 j1
    rcases w11 j with e | e
    · rw [e]; exact hval j j0 j1
    · left; exact e
  · intro t t1 t2
    rw [w4] at t2
    rw [w3, w12 (slot t)]
    · exact hin t (by omega) t2
    · intro t' a1 a2 e'
      have := slot_inj (x := t') (y := t) (by omega) (by omega) e' (by omega) (by omega)
      omega

theorem LogInv_input (log : List msg) (s : Sender) (p : pkt) (s1 : Sender)
    (evs : List Event) (h : LogInv log s) (ha : 0 ≤ p.acknum)
    (hstep : A_input s p = some (s1, evs)) : LogInv log s1 := by
  by_cases hv : isChecksumValid p = true
  · rw [A_input_valid s p hv] at hstep
    obtain ⟨s2, e, _⟩ := A_input_window_spec p.acknum s ha
    rw [e, Option.map_some'] at hstep
    have hw := LogInv_window log p.acknum s s2 h ha e
    obtain ⟨f1, f2, _, f4, f5, _⟩ := A_input_timer_frame p.acknum s2
    have h1 : s1 = (A_input_timer p.acknum s2).1 :=
      (congrArg Prod.fst (Option.some.inj hstep)).symm
    unfold LogInv WindowInv at hw ⊢
    rw [h1, f1, f2, f4, f5]
    exact hw
  · rw [A_input_corrupt s p (by simpa using hv)] at hstep
    have e1 : s = s1 := congrArg Prod.fst (Option.some.inj hstep)
    rw [← e1]
    exact h

theorem ReachableLog_inv (log : List msg) (s : Sender) (h : ReachableLog log s) :
    LogInv log s := by
  induction h with
  | init s0 => exact LogInv_init s0
  | output log s m _ ih => exact LogInv_output log s m ih
  | input log s p s1 evs _ ha hstep ih => exact LogInv_input log s p s1 evs ih ha hstep
  | timer log s _ ih => exact ih

/-! ## C16 -/

/-- C16: in a sender state reachable from `A_init`, on a valid acknowledgment
with a non-negative `acknum`, `A_input` returns, hands no packet to layer 3 and
leaves `nextseqnum` alone. (i) If `acknum = base` and `base < nextseqnum`, the
new `base` is the least `s` with old `base < s <= nextseqnum` such that
`s = nextseqnum` or `s` is not marked acknowledged (every number strictly
between is marked acknowledged and is not `nextseqnum`; the marks are the same
before and after the call), and the valid flag of every sequence number in
`[old base, new base)` is cleared. (ii) If `acknum` differs from `base`, `base`
and all valid flags are unchanged. -/
theorem base_advance_rule (s : Sender) (p : pkt) (hr : ReachableA s)
    (hv : isChecksumValid p = true) (ha : 0 ≤ p.acknum) :
    ∃ s1 evs, A_input s p = some (s1, evs) ∧ sentPackets evs = [] ∧
      s1.nextseqnum = s.nextseqnum ∧
      (p.acknum = s.base → s.base < s.nextseqnum →
        s.base < s1.base ∧ s1.base ≤ s.nextseqnum ∧
        (s1.base = s.nextseqnum ∨
          (s1.sndpktAcked (slot s1.base) = 0 ∧ s.sndpktAcked (slot s1.base) = 0)) ∧
        (∀ t, s.base < t → t < s1.base →
          t ≠ s.nextseqnum ∧ s1.sndpktAcked (slot t) ≠ 0 ∧ s.sndpktAcked (slot t) ≠ 0) ∧
        (∀ t, s.base ≤ t → t < s1.base → s1.sndpktValid (slot t) = 0)) ∧
      (p.acknum ≠ s.base → s1.base = s.base ∧ s1.sndpktValid = s.sndpktValid) := by
  obtain ⟨log, hl⟩ := ReachableA_has_log s hr
  obtain ⟨⟨i1, i2, i3, _⟩, _, _, hin⟩ := ReachableLog_inv log s hl
  have i3 : s.nextseqnum ≤ s.base + 8 := i3
  obtain ⟨s2, e, w2, w3, w4, w5, w6, w7, w8, w9, w10, w11, w12, w13, w14, w15⟩ :=
    A_input_window_spec p.acknum s ha
  obtain ⟨j1, j2, j3, j4⟩ := WindowInv_window p.acknum s s2 ⟨i1, i2, i3, by assumption⟩ ha e
  obtain ⟨f1, f2, f3, f4, f5, f6⟩ := A_input_timer_frame p.acknum s2
  refine ⟨(A_input_timer p.acknum s2).1, (A_input_timer p.acknum s2).2, ?_, f6,
    by rw [f2, w4], ?_, ?_⟩
  · rw [A_input_valid s p hv, e]; rfl
  · intro hab hlt
    rw [f1, f3, f4]
    rw [w4] at j2
    have hother : ∀ t, s.base < t → t ≤ s.nextseqnum →
        s2.sndpktAcked (slot t) = s.sndpktAcked (slot t) := by
      intro t t1 t2
      have hs : slot t ≠ slot p.acknum := by
        intro e'
        have := slot_inj (x := t) (y := p.acknum) (by omega) (by omega) e' (by omega)
          (by omega)
        omega
      rw [w2, setAt_other _ _ hs]
    have hgt : s.base < s2.base := by
      by_contra hle
      have hb : s2.base = s.base := by omega
      have hvs : s2.sndpktValid (slot s.base) = s.sndpktValid (slot s.base) :=
        w12 _ (fun t t1 t2 => by omega)
      apply w15 hab
      rw [hb]
      constructor
      · rw [w2, hab, setAt_same]; decide
      · rw [hvs, (hin s.base (le_refl _) hlt).1]; decide
    refine ⟨hgt, j2, ?_, ?_, w13⟩
    · by_cases hend : s2.base = s.nextseqnum
      · left; exact hend
      · right
        have hlt2 : s2.base < s.nextseqnum := by omega
        have hvalid : s2.sndpktValid (slot s2.base) ≠ 0 := by
          rw [w12 (slot s2.base)]
          · rw [(hin s2.base (by omega) hlt2).1]; decide
          · intro t' a1 a2 e'
            have := slot_inj (x := t') (y := s2.base) (by omega) (by omega) e' (by omega)
              (by omega)
            omega
        have hz : s2.sndpktAcked (slot s2.base) = 0 := by
          by_contra hne
          exact w15 hab ⟨hne, hvalid⟩
        exact ⟨hz, by rw [← hother s2.base hgt (by omega)]; exact hz⟩
    · intro t t1 t2
      have h10 := w10 t (by omega) t2
      exact ⟨by omega, h10, by rw [← hother t t1 (by omega)]; exact h10⟩
  · intro hab
    rw [f1, f4]
    exact w9 hab

/-- Witness for `base_advance_rule`: packets 1 and 2 are in flight and the
acknowledgment of packet 1 arrives; `base` moves from 1 to 2. -/
theorem base_advance_rule_witness :
    ReachableA (A_output (A_output (A_init zeroSender) (sampleMsg 1)).1 (sampleMsg 2)).1 ∧
    isChecksumValid (B_input_ackpkt 1) = true ∧ 0 ≤ (B_input_ackpkt 1).acknum ∧
    (∃ s1 evs,
      A_input (A_output (A_output (A_init zeroSender) (sampleMsg 1)).1 (sampleMsg 2)).1
        (B_input_ackpkt 1) = some (s1, evs) ∧ sentPackets evs = []) ∧
    (A_input (A_output (A_output (A_init zeroSender) (sampleMsg 1)).1 (sampleMsg 2)).1
        (B_input_ackpkt 1)).map (fun res => (res.1.base, res.1.nextseqnum)) =
      some (2, 3) :=
  ⟨ReachableA.output _ _ (ReachableA.output _ _ (ReachableA.init zeroSender)),
    B_input_ackpkt_valid 1, by decide,
    (base_advance_rule _ (B_input_ackpkt 1)
      (ReachableA.output _ _ (ReachableA.output _ _ (ReachableA.init zeroSender)))
      (B_input_ackpkt_valid 1) (by decide)).imp
      fun _ h => h.imp fun _ h' => ⟨h'.1, h'.2.1⟩,
    by decide⟩

/-! ## Rounds over a lossless channel -/

theorem sentBy_append (e : Int) (xs ys : List Event) :
    sentBy e (xs ++ ys) = sentBy e xs ++ sentBy e ys := by
  induction xs with
  | nil => rfl
  | cons x xs ih =>
    cases x with
    | tolayer3 e' p =>
      by_cases h : e' = e <;> simp [sentBy, h, ih]
    | tolayer5 _ _ => simpa [sentBy] using ih
    | starttimer _ _ => simpa [sentBy] using ih
    | stoptimer _ => simpa [sentBy] using ih

theorem sentBy_of_sentPackets_nil (e : Int) : ∀ (xs : List Event),
    sentPackets xs = [] → sentBy e xs = [] := by
  intro xs
  induction xs with
  | nil => intro _; rfl
  | cons x xs ih =>
    intro h
    cases x with
    | tolayer3 e' p => simp [sentPackets] at h
    | tolayer5 _ _ => exact ih (by simpa [sentPackets] using h)
    | starttimer _ _ => exact ih (by simpa [sentPackets] using h)
    | stoptimer _ => exact ih (by simpa [sentPackets] using h)

theorem A_input_timer_delivered (a : Int) (s : Sender) :
    delivered (A_input_timer a s).2 = [] := by
  rcases lowestUnacked_or_allAcked s with ⟨k, hk⟩ | hall
  · rw [A_input_timer_unacked a s k hk]
    by_cases h : a = s.timerForPacket
    · rw [if_pos h]; rfl
    · rw [if_neg h]; rfl
  · rw [A_input_timer_allAcked a s hall]; rfl

theorem A_input_delivered (s : Sender) (p : pkt) (s1 : Sender) (evs : List Event)
    (ha : 0 ≤ p.acknum) (h : A_input s p = some (s1, evs)) : delivered evs = [] := by
  by_cases hv : isChecksumValid p = true
  · rw [A_input_valid s p hv] at h
    obtain ⟨s2, e, _⟩ := A_input_window_spec p.acknum s ha
    rw [e, Option.map_some'] at h
    have h2 : (A_input_timer p.acknum s2).2 = evs := congrArg Prod.snd (Option.some.inj h)
    rw [← h2]
    exact A_input_timer_delivered _ _
  · rw [A_input_corrupt s p (by simpa using hv)] at h
    have h2 : ([] : List Event) = evs := congrArg Prod.snd (Option.some.inj h)
    rw [← h2]
    rfl

theorem lossless_round_eq (s : Sender) (r : Receiver) (m : msg) (evsA : List Event)
    (sA : Sender) (P : pkt) (r' : Receiver) (evsB : List Event) (Q : pkt) (s' : Sender)
    (evsC : List Event) (hA : A_output s m = (sA, evsA)) (hP : sentPackets evsA = [P])
    (hB : B_input r P = some (r', evsB)) (hQ : sentPackets evsB = [Q])
    (hC : A_input sA Q = some (s', evsC)) :
    lossless_round (s, r) m = some (s', r', evsA ++ evsB ++ evsC) := by
  have hrunB : B_run r [P] = some (r', evsB ++ []) :=
    B_run_cons r P [] r' r' evsB [] hB rfl
  have hrunA : A_input_all sA [Q] = some (s', evsC ++ []) :=
    A_input_all_cons sA Q [] s' s' evsC [] hC rfl
  rw [List.append_nil] at hrunB hrunA
  unfold lossless_round
  simp only [hA, hP, hrunB, Option.some_bind, hQ, hrunA, Option.map_some']

theorem lossless_round_spec (s : Sender) (r : Receiver) (m : msg) (c : Int)
    (hs : TimerInv s) (hra : ReachableA s) (hrb : ReachableB r) (hb : s.base = c)
    (hn : s.nextseqnum = c) (he : r.expectedseqnum = c)
    (hz : ∀ j, 0 ≤ j → j < 50 → r.rcvpktValid j = 0) :
    ∃ s' r' evs, lossless_round (s, r) m = some (s', r', evs) ∧ TimerInv s' ∧
      ReachableA s' ∧ ReachableB r' ∧ s'.base = c + 1 ∧ s'.nextseqnum = c + 1 ∧
      s'.timerActive = 0 ∧ r'.expectedseqnum = c + 1 ∧
      (∀ j, 0 ≤ j → j < 50 → r'.rcvpktValid j = 0) ∧ delivered evs = [m.data] ∧
      sentBy A evs = [A_output_packet c m] ∧ sentBy B evs = [B_input_ackpkt c] := by
  have hc1 : 1 ≤ c := by rw [← hb]; exact hs.1.1
  have hadm : s.nextseqnum < s.base + WINDOWSIZE := by
    show s.nextseqnum < s.base + 8
    omega
  have hta : s.timerActive = 0 := by
    rcases hs.2.2.2.2.1 with e | e
    · exact e
    · have := hs.2.2.2.1.1 e
      omega
  -- the sender admits the message
  have hA2 : (A_output s m).2 =
      [Event.tolayer3 A (A_output_packet c m), Event.starttimer A RTT] := by
    rw [A_output_accept s m hadm, hn]
    simp only [hta, if_true]
  have hA : A_output s m =
      ((A_output s m).1,
        [Event.tolayer3 A (A_output_packet c m), Event.starttimer A RTT]) := by
    rw [← hA2]
  have hsA := TimerInv_output s m hs
  have hbA : (A_output s m).1.base = c := by rw [A_output_accept s m hadm]; exact hb
  have hnA : (A_output s m).1.nextseqnum = c + 1 := by
    rw [A_output_accept s m hadm]
    show s.nextseqnum + 1 = c + 1
    omega
  -- the receiver delivers it at once
  have hvP := A_output_packet_valid c m
  have hseq : (A_output_packet c m).seqnum = c := rfl
  obtain ⟨r', evsD, e1, e2⟩ := B_input_in_window r (A_output_packet c m) hvP
    ⟨by rw [hseq, he], by rw [hseq, he]; show c < c + 8; omega⟩
  rw [hseq] at e1 e2
  obtain ⟨k, _, k2, k3, k4, k5, k6, k7, k8, k9⟩ := B_input_deliver_run _ _ _ _ e1
  simp only at k2 k3 k4 k5 k6 k7 k8 k9
  rw [he] at k2 k3 k6 k7 k9
  have hk1 : k = 1 := by
    have hle : k ≤ 1 := by
      by_contra hgt
      have h1 := k6 1 (by omega)
      have hs1 : slot (c + ((1 : Nat) : Int)) ≠ slot c := by
        intro e
        have := slot_inj (x := c + ((1 : Nat) : Int)) (y := c) (by push_cast; omega)
          (by omega) e (by push_cast; omega) (by push_cast; omega)
        push_cast at this
        omega
      rw [setAt_other _ _ hs1] at h1
      exact h1 (hz _ (slot_range (by push_cast; omega)).1 (slot_range (by push_cast; omega)).2)
    by_contra hne
    have hk0 : k = 0 := by omega
    rw [k2, hk0] at k5
    simp only [Nat.cast_zero, add_zero] at k5
    rw [k9 (slot c) (fun i hi => by omega), setAt_same] at k5
    exact absurd k5 (by decide)
  subst hk1
  have hevsD : evsD = [Event.tolayer5 B m.data] := by
    have hr1 : List.range 1 = [0] := rfl
    rw [k3, hr1]
    simp only [List.map_cons, List.map_nil, Nat.cast_zero, add_zero, setAt_same]
    rfl
  have hz' : ∀ j, 0 ≤ j → j < 50 → r'.rcvpktValid j = 0 := by
    intro j j0 j1
    by_cases hj : j = slot c
    · have := k7 0 (by omega)
      simp only [Nat.cast_zero, add_zero] at this
      rw [hj]; exact this
    · rcases k8 j with e | e
      · rw [e, setAt_other _ _ hj]; exact hz j j0 j1
      · exact e
  have hrb' : ReachableB r' := ReachableB.input r _ r' _ hrb e2
  -- the sender takes the acknowledgment
  obtain ⟨s', evsC, e3, inv', n', _, b', a', _, o'⟩ :=
    TimerInv_ack (A_output s m).1 (B_input_ackpkt c) hsA (B_input_ackpkt_valid c)
      (by show 1 ≤ c; exact hc1)
      (by rw [hbA]; show c - 8 ≤ c; omega)
      (by rw [hnA]; show c < c + 1; omega)
  have hdC := A_input_delivered _ _ _ _ (by show 0 ≤ c; omega) e3
  rw [hbA] at b'
  rw [hnA] at n'
  have hbase : s'.base = c + 1 := by
    have hle : s'.base ≤ s'.nextseqnum := inv'.1.2.1
    by_contra hne
    have hlt : s'.base < s'.nextseqnum := by omega
    have hbc : s'.base = c := by omega
    have := inv'.2.2.1 hlt
    rw [a', hbc] at this
    have hack : (B_input_ackpkt c).acknum = c := rfl
    rw [hack, setAt_same] at this
    exact absurd this (by decide)
  have hta' : s'.timerActive = 0 := by
    rcases inv'.2.2.2.2.1 with e | e
    · exact e
    · have := inv'.2.2.2.1.1 e
      omega
  have hra' : ReachableA s' :=
    ReachableA.input _ _ s' evsC (ReachableA.output s m hra) (by show 0 ≤ c; omega) e3
  have hround := lossless_round_eq s r m _ _ (A_output_packet c m) r' _ (B_input_ackpkt c)
    s' evsC hA (by simp [sentPackets]) e2 (by rw [hevsD]; simp [sentPackets]) e3
  refine ⟨s', r', _, hround, inv', hra', hrb', hbase, n', hta', by rw [k2]; push_cast; omega,
    hz', ?_, ?_, ?_⟩
  · rw [delivered_append, delivered_append, hdC, hevsD]
    simp [delivered]
  · rw [sentBy_append, sentBy_append, sentBy_of_sentPackets_nil A evsC o', hevsD]
    simp [sentBy, A, B]
  · rw [sentBy_append, sentBy_append, sentBy_of_sentPackets_nil B evsC o', hevsD]
    simp [sentBy, A, B]

theorem lossless_run_spec : ∀ (msgs : List msg) (s : Sender) (r : Receiver) (c : Nat),
    TimerInv s → ReachableA s → ReachableB r → s.base = c → s.nextseqnum = c →
    r.expectedseqnum = c → (∀ j, 0 ≤ j → j < 50 → r.rcvpktValid j = 0) →
    ∃ s' r' evs, lossless_run (s, r) msgs = some (s', r', evs) ∧ TimerInv s' ∧
      ReachableA s' ∧ ReachableB r' ∧ s'.base = c + msgs.length ∧
      s'.nextseqnum = c + msgs.length ∧ (msgs ≠ [] → s'.timerActive = 0) ∧
      r'.expectedseqnum = c + msgs.length ∧
      (∀ j, 0 ≤ j → j < 50 → r'.rcvpktValid j = 0) ∧
      delivered evs = msgs.map msg.data ∧
      sentBy A evs = List.zipWith (fun (i : Nat) m => A_output_packet (i : Int) m)
        (List.range' c msgs.length) msgs := by
  intro msgs
  induction msgs with
  | nil =>
    intro s r c hs hra hrb hb hn he hz
    exact ⟨s, r, [], rfl, hs, hra, hrb, by simpa using hb, by simpa using hn,
      fun h => absurd rfl h, by simpa using he, hz, rfl, rfl⟩
  | cons m ms ih =>
    intro s r c hs hra hrb hb hn he hz
    obtain ⟨s1, r1, evs1, e1, i1, i2, i3, i4, i5, i6, i7, i8, i9, i10, _⟩ :=
      lossless_round_spec s r m c hs hra hrb hb hn he hz
    obtain ⟨s2, r2, evs2, e2, j1, j2, j3, j4, j5, j6, j7, j8, j9, j10⟩ :=
      ih s1 r1 (c + 1) i1 i2 i3 (by rw [i4]; push_cast; rfl) (by rw [i5]; push_cast; rfl)
        (by rw [i7]; push_cast; rfl) i8
    refine ⟨s2, r2, evs1 ++ evs2, ?_, j1, j2, j3, ?_, ?_, ?_, ?_, j8, ?_, ?_⟩
    · rw [lossless_run, e1, Option.some_bind]
      simp only [e2, Option.map_some']
    · rw [j4]; simp only [List.length_cons]; push_cast; omega
    · rw [j5]; simp only [List.length_cons]; push_cast; omega
    · intro _
      cases ms with
      | nil =>
        have e3 : lossless_run (s1, r1) [] = some (s1, r1, []) := rfl
        rw [e3] at e2
        have : s1 = s2 := congrArg (fun x => x.1) (Option.some.inj e2)
        rw [← this]; exact i6
      | cons x xs => exact j6 (by simp)
    · rw [j7]; simp only [List.length_cons]; push_cast; omega
    · rw [delivered_append, i9, j9]; rfl
    · rw [sentBy_append, i10, j10]
      simp [List.range'_succ]

theorem lossless_run_append : ∀ (pre post : List msg) (st : Sender × Receiver)
    (s1 : Sender) (r1 : Receiver) (evs1 : List Event) (s2 : Sender) (r2 : Receiver)
    (evs2 : List Event),
    lossless_run st pre = some (s1, r1, evs1) →
    lossless_run (s1, r1) post = some (s2, r2, evs2) →
    lossless_run st (pre ++ post) = some (s2, r2, evs1 ++ evs2) := by
  intro pre
  induction pre with
  | nil =>
    intro post st s1 r1 evs1 s2 r2 evs2 h1 h2
    simp only [lossless_run, Option.some.injEq, Prod.mk.injEq] at h1
    obtain ⟨a1, a2, a3⟩ := h1
    have hst : st = (s1, r1) := Prod.ext a1 a2
    rw [hst, ← a3]
    simpa using h2
  | cons x xs ih =>
    intro post st s1 r1 evs1 s2 r2 evs2 h1 h2
    rw [lossless_run] at h1
    cases hx : lossless_round st x with
    | none => rw [hx] at h1; simp at h1
    | some a =>
      rw [hx, Option.some_bind] at h1
      cases hxs : lossless_run (a.1, a.2.1) xs with
      | none => rw [hxs] at h1; simp at h1
      | some b =>
        rw [hxs, Option.map_some', Option.some.injEq, Prod.mk.injEq, Prod.mk.injEq] at h1
        obtain ⟨c1, c2, c3⟩ := h1
        have hb : lossless_run (a.1, a.2.1) xs = some (s1, r1, b.2.2) := by
          rw [hxs, ← c1, ← c2]
        have := ih post (a.1, a.2.1) s1 r1 b.2.2 s2 r2 evs2 hb h2
        rw [List.cons_append, lossless_run, hx, Option.some_bind]
        simp only [this, Option.map_some']
        rw [← c3, List.append_assoc]

/-! ## C19 -/

/-- C19: start from `A_init` and `B_init` and run rounds over a lossless
channel (after each `A_output`, every packet the sender emitted goes unchanged
to `B_input` and every acknowledgment the receiver emitted then goes unchanged
to `A_input`) for any list of messages, of any length. The run returns; at
every point of it (after the messages `pre`, with `post` still to come) every
message so far was admitted and sent with the sequence numbers 1, 2, ... in
order, the payloads delivered to layer 5 are the submitted payloads in the
same order, `base = nextseqnum = expectedseqnum`, and `timerActive = 0`. -/
theorem lossless_end_to_end (s0 : Sender) (r0 : Receiver) (pre post : List msg) :
    ∃ s r evs s' r' evs',
      lossless_run (A_init s0, B_init r0) pre = some (s, r, evs) ∧
      lossless_run (s, r) post = some (s', r', evs') ∧
      lossless_run (A_init s0, B_init r0) (pre ++ post) = some (s', r', evs ++ evs') ∧
      delivered evs = pre.map msg.data ∧
      sentBy A evs = List.zipWith (fun (i : Nat) m => A_output_packet (i : Int) m)
        (List.range' 1 pre.length) pre ∧
      s.base = 1 + pre.length ∧ s.nextseqnum = 1 + pre.length ∧
      r.expectedseqnum = 1 + pre.length ∧ s.timerActive = 0 := by
  obtain ⟨s, r, evs, e1, i1, i2, i3, i4, i5, i6, i7, i8, i9, i10⟩ :=
    lossless_run_spec pre (A_init s0) (B_init r0) 1 (TimerInv_init s0)
      (ReachableA.init s0) (ReachableB.init r0) (by rw [A_init_base]; rfl)
      (by rw [A_init_nextseqnum]; rfl) (by rw [B_init_expectedseqnum]; rfl)
      (B_init_flags r0)
  obtain ⟨s', r', evs', e2, _⟩ :=
    lossless_run_spec post s r (1 + pre.length) i1 i2 i3 (by rw [i4]; push_cast; rfl)
      (by rw [i5]; push_cast; rfl) (by rw [i7]; push_cast; rfl) i8
  refine ⟨s, r, evs, s', r', evs', e1, e2,
    lossless_run_append pre post _ s r evs s' r' evs' e1 e2, i9, i10,
    by rw [i4]; push_cast; rfl, by rw [i5]; push_cast; rfl, by rw [i7]; push_cast; rfl, ?_⟩
  cases pre with
  | nil =>
    have e3 : lossless_run (A_init s0, B_init r0) [] = some (A_init s0, B_init r0, []) := rfl
    rw [e3] at e1
    have : A_init s0 = s := congrArg (fun x => x.1) (Option.some.inj e1)
    rw [← this]; exact A_init_timerActive s0
  | cons x xs => exact i6 (by simp)

/-! ## C18 -/

/-- C18 (amended): in every sender state reachable from `A_init` by `A_output`,
`A_input` (any packet with a non-negative `acknum`) and `A_timerinterrupt`
calls, with `log` the messages admitted so far: each valid flag of the array is
0 or 1, and `sndpktValid[j] = 1` holds exactly for the slots
`j = t % BUFSIZE` of the sequence numbers `t` in `[base, nextseqnum)`;
sequence numbers in flight have different slots; the slot of each `t` in flight
holds the packet `A_output` built for `t` (`seqnum = t`, `acknum = 0`, the
payload of the `t`-th admitted message, valid checksum); and the entry of a
sequence number `t < base` is cleared unless its slot is that of a sequence
number in flight, so it is cleared whenever
`base - (BUFSIZE - WINDOWSIZE) <= t < base`. -/
theorem sender_buffer_no_aliasing (s : Sender) (hr : ReachableA s) :
    ∃ log : List msg, ReachableLog log s ∧ s.nextseqnum = 1 + (log.length : Int) ∧
      (∀ j, 0 ≤ j → j < 50 →
        (s.sndpktValid j = 0 ∨ s.sndpktValid j = 1) ∧
        (s.sndpktValid j = 1 ↔ ∃ t, s.base ≤ t ∧ t < s.nextseqnum ∧ slot t = j)) ∧
      (∀ t u, s.base ≤ t → t < s.nextseqnum → s.base ≤ u → u < s.nextseqnum →
        slot t = slot u → t = u) ∧
      (∀ t, s.base ≤ t → t < s.nextseqnum →
        ∃ m, log[(t - 1).toNat]? = some m ∧ s.sndpkt (slot t) = A_output_packet t m ∧
          (s.sndpkt (slot t)).seqnum = t ∧ (s.sndpkt (slot t)).acknum = 0 ∧
          (s.sndpkt (slot t)).payload = m.data ∧
          isChecksumValid (s.sndpkt (slot t)) = true) ∧
      (∀ t, 0 ≤ t → t < s.base →
        (∀ u, s.base ≤ u → u < s.nextseqnum → slot u ≠ slot t) →
        s.sndpktValid (slot t) = 0) ∧
      (∀ t, 0 ≤ t → s.base - (BUFSIZE - WINDOWSIZE) ≤ t → t < s.base →
        s.sndpktValid (slot t) = 0) := by
  obtain ⟨log, hl⟩ := ReachableA_has_log s hr
  obtain ⟨⟨i1, i2, i3, i4⟩, hn, hval, hin⟩ := ReachableLog_inv log s hl
  have i3 : s.nextseqnum ≤ s.base + 8 := i3
  have hclear : ∀ t, 0 ≤ t → t < s.base →
      (∀ u, s.base ≤ u → u < s.nextseqnum → slot u ≠ slot t) →
      s.sndpktValid (slot t) = 0 := by
    intro t t0 t1 hne
    by_contra hv
    obtain ⟨u, u1, u2, u3⟩ := i4 (slot t) (slot_range t0).1 (slot_range t0).2 hv
    exact hne u u1 u2 u3
  refine ⟨log, hl, hn, ?_, ?_, ?_, hclear, ?_⟩
  · intro j j0 j1
    refine ⟨hval j j0 j1, ?_, ?_⟩
    · intro h1
      exact i4 j j0 j1 (by rw [h1]; decide)
    · rintro ⟨t, t1, t2, t3⟩
      rw [← t3]
      exact (hin t t1 t2).1
  · intro t u t1 t2 u1 u2 e
    exact slot_inj (by omega) (by omega) e (by omega) (by omega)
  · intro t t1 t2
    have hidx : (log[(t - 1).toNat]?).isSome := by
      rw [List.getElem?_eq_getElem (by omega)]; rfl
    obtain ⟨m, hm⟩ := Option.isSome_iff_exists.1 hidx
    have hp := (hin t t1 t2).2 m hm
    refine ⟨m, hm, hp, ?_, ?_, ?_, ?_⟩
    · rw [hp]; rfl
    · rw [hp]; rfl
    · rw [hp]; rfl
    · rw [hp]; exact A_output_packet_valid t m
  · intro t t0 t1 t2
    have t1 : s.base - (50 - 8) ≤ t := t1
    apply hclear t t0 t2
    intro u u1 u2 e
    have := slot_inj (x := u) (y := t) (by omega) t0 e (by omega) (by omega)
    omega

/-- Witness for `sender_buffer_no_aliasing`: the state after two submissions. -/
theorem sender_buffer_no_aliasing_witness :
    ReachableA (A_output (A_output (A_init zeroSender) (sampleMsg 1)).1 (sampleMsg 2)).1 ∧
    ∃ log : List msg,
      ReachableLog log
        (A_output (A_output (A_init zeroSender) (sampleMsg 1)).1 (sampleMsg 2)).1 ∧
      (A_output (A_output (A_init zeroSender) (sampleMsg 1)).1 (sampleMsg 2)).1.nextseqnum =
        1 + (log.length : Int) :=
  ⟨ReachableA.output _ _ (ReachableA.output _ _ (ReachableA.init zeroSender)),
    (sender_buffer_no_aliasing _
      (ReachableA.output _ _ (ReachableA.output _ _ (ReachableA.init zeroSender)))).imp
      fun _ h => ⟨h.1, h.2.1⟩⟩

/-- C18 as stated fails: after 50 messages have gone through over a lossless
channel and a 51st has been submitted, `base = 51` and `nextseqnum = 52`;
sequence number 1 is below `base`, but its entry `sndpktValid[1 % BUFSIZE]` is
1, because slot 1 is now the slot of sequence number 51. So not every entry of
a sequence number below `base` is cleared. -/
theorem sender_slot_reuse :
    ReachableA (A_output afterFiftyRounds (sampleMsg 65)).1 ∧
    (A_output afterFiftyRounds (sampleMsg 65)).1.base = 51 ∧
    (A_output afterFiftyRounds (sampleMsg 65)).1.nextseqnum = 52 ∧
    (A_output afterFiftyRounds (sampleMsg 65)).1.sndpktValid (slot 1) = 1 ∧
    ¬(∀ s, ReachableA s → ∀ t : Int, 1 ≤ t → t < s.base → s.sndpktValid (slot t) = 0) := by
  obtain ⟨s, r, evs, e1, _, i2, _, i4, i5, _⟩ :=
    lossless_run_spec (List.replicate 50 (sampleMsg 65)) (A_init zeroSender)
      (B_init zeroReceiver) 1 (TimerInv_init _) (ReachableA.init _) (ReachableB.init _)
      (by rw [A_init_base]; rfl) (by rw [A_init_nextseqnum]; rfl)
      (by rw [B_init_expectedseqnum]; rfl) (B_init_flags _)
  have hs : afterFiftyRounds = s := by
    unfold afterFiftyRounds
    rw [e1]
    rfl
  simp only [List.length_replicate] at i4 i5
  have hb : s.base = 51 := by rw [i4]; norm_num
  have hn : s.nextseqnum = 51 := by rw [i5]; norm_num
  have hadm : s.nextseqnum < s.base + WINDOWSIZE := by rw [hb, hn]; decide
  have h1 : ReachableA (A_output afterFiftyRounds (sampleMsg 65)).1 := by
    rw [hs]; exact ReachableA.output s _ i2
  have h2 : (A_output afterFiftyRounds (sampleMsg 65)).1.base = 51 := by
    rw [hs, A_output_accept s _ hadm]; exact hb
  have h3 : (A_output afterFiftyRounds (sampleMsg 65)).1.nextseqnum = 52 := by
    rw [hs, A_output_accept s _ hadm]
    show s.nextseqnum + 1 = 52
    omega
  have h4 : (A_output afterFiftyRounds (sampleMsg 65)).1.sndpktValid (slot 1) = 1 := by
    rw [hs, A_output_accept s _ hadm]
    show setAt s.sndpktValid (slot s.nextseqnum) 1 (slot 1) = 1
    rw [hn]
    have : slot 1 = slot 51 := by decide
    rw [this, setAt_same]
  refine ⟨h1, h2, h3, h4, ?_⟩
  intro hall
  have := hall _ h1 1 (le_refl _) (by rw [h2]; decide)
  rw [h4] at this
  exact absurd this (by decide)

/-! ## C20 -/

theorem A_input_advance_count : ∀ (fuel : Nat) (s s' : Sender),
    A_input_advance fuel s = some s' → s'.base < s.base + fuel := by
  intro fuel
  induction fuel with
  | zero => intro s s' h; simp [A_input_advance] at h
  | succ fuel ih =>
    intro s s' h
    rw [A_input_advance] at h
    by_cases hc : s.sndpktAcked (slot s.base) ≠ 0 ∧ s.sndpktValid (slot s.base) ≠ 0
    · rw [if_pos hc] at h
      have := ih _ _ h
      simp only at this
      push_cast
      omega
    · rw [if_neg hc] at h
      cases h
      push_cast
      omega

theorem A_input_advance_more_fuel : ∀ (fuel : Nat) (s s' : Sender) (n : Nat),
    A_input_advance fuel s = some s' → A_input_advance (fuel + n) s = some s' := by
  intro fuel
  induction fuel with
  | zero => intro s s' n h; simp [A_input_advance] at h
  | succ fuel ih =>
    intro s s' n h
    rw [A_input_advance] at h
    have hf : fuel + 1 + n = (fuel + n) + 1 := by omega
    rw [hf, A_input_advance]
    by_cases hc : s.sndpktAcked (slot s.base) ≠ 0 ∧ s.sndpktValid (slot s.base) ≠ 0
    · rw [if_pos hc] at h ⊢
      exact ih _ _ n h
    · rw [if_neg hc] at h ⊢
      exact h

theorem B_input_deliver_more_fuel : ∀ (fuel : Nat) (r r' : Receiver) (evs : List Event)
    (n : Nat), B_input_deliver fuel r = some (r', evs) →
    B_input_deliver (fuel + n) r = some (r', evs) := by
  intro fuel
  induction fuel with
  | zero => intro r r' evs n h; simp [B_input_deliver] at h
  | succ fuel ih =>
    intro r r' evs n h
    rw [B_input_deliver] at h
    have hf : fuel + 1 + n = (fuel + n) + 1 := by omega
    rw [hf]
    by_cases hc : r.rcvpktValid (slot r.expectedseqnum) ≠ 0
    · rw [if_pos hc] at h
      cases hrec : B_input_deliver fuel
          { r with
            rcvpktValid := setAt r.rcvpktValid (slot r.expectedseqnum) 0
            expectedseqnum := r.expectedseqnum + 1 } with
      | none => rw [hrec] at h; simp at h
      | some res =>
        obtain ⟨r1, evs1⟩ := res
        rw [hrec] at h
        simp only [Option.some.injEq, Prod.mk.injEq] at h
        obtain ⟨a1, a2⟩ := h
        rw [← a1, ← a2]
        exact B_input_deliver_continue (fuel + n) r r1 evs1 hc (ih _ _ _ n hrec)
    · rw [if_neg hc] at h
      simp only [Option.some.injEq, Prod.mk.injEq] at h
      obtain ⟨a1, a2⟩ := h
      rw [← a1, ← a2]
      exact B_input_deliver_stop (fuel + n) r hc

theorem A_input_frame (s : Sender) (p : pkt) (s1 : Sender) (evs : List Event)
    (ha : 0 ≤ p.acknum) (h : A_input s p = some (s1, evs)) :
    s1.nextseqnum = s.nextseqnum ∧ s.base ≤ s1.base := by
  by_cases hv : isChecksumValid p = true
  · rw [A_input_valid s p hv] at h
    obtain ⟨s2, e, _, _, w4, _, _, w7, _⟩ := A_input_window_spec p.acknum s ha
    rw [e, Option.map_some'] at h
    obtain ⟨f1, f2, _⟩ := A_input_timer_frame p.acknum s2
    have h1 : s1 = (A_input_timer p.acknum s2).1 :=
      (congrArg Prod.fst (Option.some.inj h)).symm
    rw [h1, f1, f2]
    exact ⟨w4, w7⟩
  · rw [A_input_corrupt s p (by simpa using hv)] at h
    have e1 : s = s1 := congrArg Prod.fst (Option.some.inj h)
    rw [← e1]
    exact ⟨rfl, le_refl _⟩

theorem B_input_delivers_at_most_window (r : Receiver) (p : pkt) (r' : Receiver)
    (evs : List Event) (hr : ReachableB r) (h : B_input r p = some (r', evs)) :
    (delivered evs).length ≤ 8 := by
  rcases B_input_cases r p r' evs h with ⟨_, hd⟩ | ⟨_, hw, evs', he, hd⟩
  · rw [hd]; simp
  · obtain ⟨⟨a, _, c⟩, _⟩ := ReachableB_inv r hr
    have hw2 : p.seqnum < r.expectedseqnum + 8 := hw.2
    obtain ⟨k, _, _, k3, _, _, k6, _⟩ := B_input_deliver_run _ _ _ _ hd
    simp only at k3 k6
    have hlen : (delivered evs).length = k := by
      rw [he, k3]
      simp only [delivered]
      rw [delivered_tolayer5
        (fun i => (setAt r.rcvpkt (slot p.seqnum) p (slot (r.expectedseqnum + (i : Int)))).payload)]
      simp
    rw [hlen]
    by_contra hgt
    have h8 := k6 8 (by omega)
    have hs : slot (r.expectedseqnum + ((8 : Nat) : Int)) ≠ slot p.seqnum := by
      intro e
      have := slot_inj (x := r.expectedseqnum + ((8 : Nat) : Int)) (y := p.seqnum)
        (by push_cast; omega) (by omega) e (by push_cast; omega) (by push_cast; omega)
      push_cast at this
      omega
    rw [setAt_other _ _ hs] at h8
    obtain ⟨t, t1, t2, t3, _⟩ := c _ (slot_range (by push_cast; omega)).1
      (slot_range (by push_cast; omega)).2 h8
    have t2 : t < r.expectedseqnum + 8 := t2
    have := slot_inj (x := t) (y := r.expectedseqnum + ((8 : Nat) : Int)) (by omega)
      (by push_cast; omega) t3 (by push_cast; omega) (by push_cast; omega)
    push_cast at this
    omega

/-- C20: the loop of `A_input` that moves `base` and the delivery loop of
`B_input` terminate on every state. When `base` (`expectedseqnum`) is not
negative, so that the loop indexes inside the arrays, at most `BUFSIZE`
iterations run: `BUFSIZE + 1` units of fuel are enough, with the same result as
with the fuel the routines use, `base` moves by at most `BUFSIZE` and at most
`BUFSIZE` payloads are delivered. In a state reachable from `B_init` one call
of `B_input` delivers at most `WINDOWSIZE` payloads, and in a state reachable
from `A_init` one call of `A_input` (non-negative `acknum`) moves `base`
forward by at most `WINDOWSIZE`. -/
theorem loops_terminate (s : Sender) (r : Receiver) (p : pkt) :
    (∃ s', A_input_advance loopFuel s = some s') ∧
    (∃ r' evs, B_input_deliver loopFuel r = some (r', evs)) ∧
    (0 ≤ s.base →
      ∃ s', A_input_advance (BUFSIZE.toNat + 1) s = some s' ∧
        A_input_advance loopFuel s = some s' ∧ s'.base ≤ s.base + BUFSIZE) ∧
    (0 ≤ r.expectedseqnum →
      ∃ r' evs, B_input_deliver (BUFSIZE.toNat + 1) r = some (r', evs) ∧
        B_input_deliver loopFuel r = some (r', evs) ∧
        (delivered evs).length ≤ BUFSIZE.toNat ∧
        r'.expectedseqnum ≤ r.expectedseqnum + BUFSIZE) ∧
    (ReachableB r →
      ∃ r' evs, B_input r p = some (r', evs) ∧
        ((delivered evs).length : Int) ≤ WINDOWSIZE) ∧
    (ReachableA s → 0 ≤ p.acknum →
      ∃ s' evs, A_input s p = some (s', evs) ∧ s.base ≤ s'.base ∧
        s'.base ≤ s.base + WINDOWSIZE) := by
  refine ⟨A_input_advance_total_any s loopFuel (by decide),
    B_input_deliver_total_any r loopFuel (by decide), ?_, ?_, ?_, ?_⟩
  · intro hb
    obtain ⟨s', e⟩ := A_input_advance_total s 51 (le_refl _) hb
    have hc := A_input_advance_count _ _ _ e
    refine ⟨s', e, A_input_advance_more_fuel 51 s s' 49 e, ?_⟩
    show s'.base ≤ s.base + 50
    push_cast at hc
    omega
  · intro hb
    obtain ⟨r', evs, e⟩ := B_input_deliver_total r 51 (le_refl _) hb
    obtain ⟨k, k1, k2, k3, _⟩ := B_input_deliver_run _ _ _ _ e
    refine ⟨r', evs, e, B_input_deliver_more_fuel 51 r r' evs 49 e, ?_, ?_⟩
    · rw [k3, delivered_tolayer5
        (fun i => (r.rcvpkt (slot (r.expectedseqnum + (i : Int)))).payload)]
      simp only [List.length_map, List.length_range]
      show k ≤ 50
      omega
    · show r'.expectedseqnum ≤ r.expectedseqnum + 50
      omega
  · intro hr
    obtain ⟨r', evs, e, _⟩ := B_input_total r p
    refine ⟨r', evs, e, ?_⟩
    have := B_input_delivers_at_most_window r p r' evs hr e
    show ((delivered evs).length : Int) ≤ 8
    omega
  · intro hr ha
    obtain ⟨s', evs, e⟩ := A_input_total s p ha
    obtain ⟨f1, f2⟩ := A_input_frame s p s' evs ha e
    obtain ⟨_, w2, w3, _⟩ := ReachableA_WindowInv s hr
    obtain ⟨_, v2, _, _⟩ := WindowInv_input s p s' evs (ReachableA_WindowInv s hr) ha e
    refine ⟨s', evs, e, f2, ?_⟩
    have w3 : s.nextseqnum ≤ s.base + 8 := w3
    show s'.base ≤ s.base + 8
    omega

/-- Witness for `loops_terminate`: the states right after initialisation and the
first data packet. -/
theorem loops_terminate_witness :
    0 ≤ (A_init zeroSender).base ∧ 0 ≤ (B_init zeroReceiver).expectedseqnum ∧
    ReachableB (B_init zeroReceiver) ∧ ReachableA (A_init zeroSender) ∧
    0 ≤ (A_output_packet 1 (sampleMsg 1)).acknum ∧
    (∃ s', A_input_advance (BUFSIZE.toNat + 1) (A_init zeroSender) = some s' ∧
      A_input_advance loopFuel (A_init zeroSender) = some s' ∧
      s'.base ≤ (A_init zeroSender).base + BUFSIZE) ∧
    (∃ r' evs, B_input (B_init zeroReceiver) (A_output_packet 1 (sampleMsg 1)) =
        some (r', evs) ∧ ((delivered evs).length : Int) ≤ WINDOWSIZE) ∧
    (∃ s' evs, A_input (A_init zeroSender) (A_output_packet 1 (sampleMsg 1)) =
        some (s', evs) ∧ (A_init zeroSender).base ≤ s'.base ∧
      s'.base ≤ (A_init zeroSender).base + WINDOWSIZE) :=
  ⟨by decide, by decide, ReachableB.init _, ReachableA.init _, by decide,
    (loops_terminate (A_init zeroSender) (B_init zeroReceiver)
      (A_output_packet 1 (sampleMsg 1))).2.2.1 (by decide),
    (loops_terminate (A_init zeroSender) (B_init zeroReceiver)
      (A_output_packet 1 (sampleMsg 1))).2.2.2.2.1 (ReachableB.init _),
    (loops_terminate (A_init zeroSender) (B_init zeroReceiver)
      (A_output_packet 1 (sampleMsg 1))).2.2.2.2.2 (ReachableA.init _) (by decide)⟩

/-! ## C7 -/

/-- C7 (amended): on a valid acknowledgment with a non-negative `acknum` equal
to `timerForPacket`, in any sender state: if, once the slot is marked and
`base` has been advanced, some sequence number of `[base, nextseqnum)` is still
unacknowledged, then `A_input` calls `stoptimer` and `starttimer`, binds
`timerForPacket` to the lowest unacknowledged sequence number `k` of
`[base, nextseqnum)` and leaves `timerActive = 1`; `k` is not the acknowledged
number and has another slot, and a following `A_timerinterrupt` sends the
packet stored in the slot of `k` and nothing else. When the sender state is
reachable from `A_init`, that packet is the one `A_output` built for `k`: its
`seqnum` is `k`, not the acknowledged number. -/
theorem A_input_rearms_timer (s : Sender) (p : pkt)
    (hv : isChecksumValid p = true) (ha : 0 ≤ p.acknum)
    (ht : p.acknum = s.timerForPacket) :
    ∃ s2, A_input_window p.acknum s = some s2 ∧ s2.sndpkt = s.sndpkt ∧
      ((∃ t, s2.base ≤ t ∧ t < s2.nextseqnum ∧ s2.sndpktAcked (slot t) = 0) →
        ∃ k, lowestUnacked s2 k ∧ k ≠ p.acknum ∧ slot k ≠ slot p.acknum ∧
          A_input s p =
            some ({ s2 with timerForPacket := k, timerActive := 1 },
              [Event.stoptimer A, Event.starttimer A RTT]) ∧
          (A_timerinterrupt { s2 with timerForPacket := k, timerActive := 1 }).2 =
            [Event.tolayer3 A (s.sndpkt (slot k)), Event.starttimer A RTT] ∧
          (ReachableA s →
            ∃ m, s.sndpkt (slot k) = A_output_packet k m ∧
              (s.sndpkt (slot k)).seqnum = k ∧
              (s.sndpkt (slot k)).seqnum ≠ p.acknum)) := by
  obtain ⟨s2, h1, h2, h3, h4, h5, h6, h7, _⟩ := A_input_window_spec p.acknum s ha
  refine ⟨s2, h1, h3, ?_⟩
  rintro ⟨t, t1, t2, t3⟩
  rcases lowestUnacked_or_allAcked s2 with ⟨k, hk⟩ | hall
  · have hslot : slot k ≠ slot p.acknum := by
      intro e
      have := hk.2.2.1
      rw [e, h2, setAt_same] at this
      exact absurd this (by decide)
    have hne : k ≠ p.acknum := fun e => hslot (by rw [e])
    refine ⟨k, hk, hne, hslot, ?_, ?_, ?_⟩
    · rw [A_input_valid s p hv, h1, Option.map_some', A_input_timer_unacked _ s2 k hk,
        if_pos (by rw [h6]; exact ht)]
    · have hc : k ≥ s2.base ∧ k < s2.nextseqnum := ⟨hk.1, hk.2.1⟩
      simp only [A_timerinterrupt, if_pos hc, h3]
      rfl
    · intro hr
      obtain ⟨log, hl⟩ := ReachableA_has_log s hr
      obtain ⟨⟨i1, _, _, _⟩, hn, _, hin⟩ := ReachableLog_inv log s hl
      have k1 : s.base ≤ k := le_trans h7 hk.1
      have k2 : k < s.nextseqnum := by rw [← h4]; exact hk.2.1
      have hidx : (log[(k - 1).toNat]?).isSome := by
        rw [List.getElem?_eq_getElem (by omega)]; rfl
      obtain ⟨m, hm⟩ := Option.isSome_iff_exists.1 hidx
      have hp := (hin k k1 k2).2 m hm
      refine ⟨m, hp, ?_, ?_⟩
      · rw [hp]; rfl
      · rw [hp]; exact hne
  · exact absurd t3 (hall t t1 t2)

/-- Witness for `A_input_rearms_timer`: packets 1 and 2 are in flight with the
timer on packet 1, and the acknowledgment of packet 1 arrives; afterwards the
timer is bound to packet 2 and its expiry sends the packet with `seqnum` 2. -/
theorem A_input_rearms_timer_witness :
    isChecksumValid (B_input_ackpkt 1) = true ∧
    (B_input_ackpkt 1).acknum =
      (A_output (A_output (A_init zeroSender) (sampleMsg 1)).1
        (sampleMsg 2)).1.timerForPacket ∧
    ReachableA (A_output (A_output (A_init zeroSender) (sampleMsg 1)).1 (sampleMsg 2)).1 ∧
    (∃ s2, A_input_window 1
        (A_output (A_output (A_init zeroSender) (sampleMsg 1)).1 (sampleMsg 2)).1 =
          some s2 ∧
      (∃ t, s2.base ≤ t ∧ t < s2.nextseqnum ∧ s2.sndpktAcked (slot t) = 0) ∧
      ∃ k, lowestUnacked s2 k ∧
        (A_timerinterrupt { s2 with timerForPacket := k, timerActive := 1 }).2 =
          [Event.tolayer3 A
            ((A_output (A_output (A_init zeroSender) (sampleMsg 1)).1
              (sampleMsg 2)).1.sndpkt (slot k)), Event.starttimer A RTT] ∧
        ((A_output (A_output (A_init zeroSender) (sampleMsg 1)).1
          (sampleMsg 2)).1.sndpkt (slot k)).seqnum = k) ∧
    (A_input (A_output (A_output (A_init zeroSender) (sampleMsg 1)).1 (sampleMsg 2)).1
        (B_input_ackpkt 1)).map
      (fun r => (r.1.base, r.1.timerForPacket, r.1.timerActive,
        (sentPackets (A_timerinterrupt r.1).2).map pkt.seqnum)) =
      some (2, 2, 1, [2]) := by
  have hr : ReachableA
      (A_output (A_output (A_init zeroSender) (sampleMsg 1)).1 (sampleMsg 2)).1 :=
    ReachableA.output _ _ (ReachableA.output _ _ (ReachableA.init zeroSender))
  obtain ⟨s2, h1, _, h3⟩ := A_input_rearms_timer
    (A_output (A_output (A_init zeroSender) (sampleMsg 1)).1 (sampleMsg 2)).1
    (B_input_ackpkt 1) (B_input_ackpkt_valid 1) (by decide) (by decide)
  have hs2 : A_input_window 1
      (A_output (A_output (A_init zeroSender) (sampleMsg 1)).1 (sampleMsg 2)).1 =
        some s2 := h1
  have hb : (A_input_window 1
      (A_output (A_output (A_init zeroSender) (sampleMsg 1)).1 (sampleMsg 2)).1).map
        (fun r => (r.base, r.nextseqnum, r.sndpktAcked (slot 2))) = some (2, 3, 0) := by
    decide
  rw [hs2] at hb
  simp only [Option.map_some', Option.some.injEq, Prod.mk.injEq] at hb
  have hex : ∃ t, s2.base ≤ t ∧ t < s2.nextseqnum ∧ s2.sndpktAcked (slot t) = 0 :=
    ⟨2, by omega, by omega, hb.2.2⟩
  obtain ⟨k, k1, _, _, _, k5, k6⟩ := h3 hex
  obtain ⟨m, _, k7, _⟩ := k6 hr
  exact ⟨B_input_ackpkt_valid 1, by decide, hr, ⟨s2, hs2, hex, k, k1, k5, k7⟩, by decide⟩

/-- C7 as stated fails outside the reachable states: in `staleBufferSender`
sequence numbers 1 and 2 are in flight, the timer is on 1, and every cell of
`sndpkt` holds the packet of sequence number 1. The acknowledgment of 1 moves
`base` to 2 and re-arms the timer on 2, which is still unacknowledged, but the
following `A_timerinterrupt` sends the packet in slot 2, whose `seqnum` is 1:
the acknowledged number, not the one the timer is bound to. -/
theorem A_input_rearm_stale_buffer :
    isChecksumValid (B_input_ackpkt 1) = true ∧ 0 ≤ (B_input_ackpkt 1).acknum ∧
    (B_input_ackpkt 1).acknum = staleBufferSender.timerForPacket ∧
    (A_input staleBufferSender (B_input_ackpkt 1)).map
      (fun r => (r.1.base, r.1.nextseqnum, r.1.sndpktAcked (slot 2), r.1.timerForPacket,
        r.1.timerActive, (sentPackets (A_timerinterrupt r.1).2).map pkt.seqnum)) =
      some (2, 3, 0, 2, 1, [1]) :=
  ⟨B_input_ackpkt_valid 1, by decide, by decide, by decide⟩

/-! ## C12 -/

theorem wrap32_fits (x : Int) : -2147483648 ≤ wrap32 x ∧ wrap32 x ≤ 2147483647 := by
  unfold wrap32
  omega

end SR
